import Mathlib

/-!
Verification development for the reflexion-model graph engine.

The Rust sources `core/classify.rs`, `core/lifting.rs`, `core/propagate.rs`,
`core/delta.rs` and `core/mapping.rs` are translated directly.  The graph
store itself (`graph.rs`), the state enum (`state.rs`) and the id types
(`types.rs`) are not among the sources; those definitions are modelled from
the specification and carry a doc comment saying so.

Modelling conventions:
* `NodeId`, `EdgeId` and `EdgeKind` are `Nat` (opaque handles / an
  equality-comparable open tag).
* Rust `HashMap` fields become association lists; lookup finds the first
  matching key, update rewrites the entry in place, insert appends.
* Rust `HashSet<EdgeId>` provenance sets become duplicate-free lists with
  membership-guarded insertion.
* The edge counter (`i32` in Rust, only ever reset to zero or incremented)
  is a `Nat`.
* A Rust method `&mut self -> Result<T, GraphError>` whose error paths
  never mutate is modelled as `... → Except GraphError (T × Graph)`;
  methods whose callers keep the partially mutated receiver on error
  (`propagate_and_lift`, `set_mapping`, the delta helpers) are modelled as
  `... → Graph × Except GraphError T`.
-/

/-- Modelled from the spec: `SubgraphKind` from the missing `types.rs`
(Architecture | Implementation | Propagated). -/
inductive SubgraphKind where
  | Architecture
  | Implementation
  | Propagated
deriving DecidableEq, Repr

/-- Modelled from the spec: `EdgeState` from the missing `state.rs`
(the seven classification states). -/
inductive EdgeState where
  | Undefined
  | Specified
  | Convergent
  | Divergent
  | Absent
  | Allowed
  | Unmapped
deriving DecidableEq, Repr

/-- Modelled from the spec: `EdgeState::is_violation` from the missing
`state.rs`: a violation is `Divergent` or `Absent`. -/
def EdgeState.is_violation : EdgeState → Bool
  | .Divergent => true
  | .Absent => true
  | _ => false

/-- Modelled from the spec: the `Node` record from the missing `graph.rs`:
label, subgraph membership, optional parent handle. -/
structure Node where
  label : String
  subgraph : SubgraphKind
  parent : Option Nat
deriving DecidableEq, Repr

/-- The `Edge` record (shape visible in the sources through the literal in
`propagate.rs` and the tests): id, endpoints, kind, subgraph, state,
counter.  Rust fields `from`/`to` are named `src`/`tgt` here because `from`
is reserved in Lean. -/
structure Edge where
  id : Nat
  src : Nat
  tgt : Nat
  kind : Nat
  subgraph : SubgraphKind
  state : EdgeState
  counter : Nat
deriving DecidableEq, Repr

/-- Modelled from the spec: `GraphError` from the missing `graph.rs`.  The
variants `EdgeNotFound`, `WrongSubgraph` and `MappingAlreadyExists` appear
literally in the sources; `NodeNotFound` is the structural error of
`node_subgraph`. -/
inductive GraphError where
  | NodeNotFound (node : Nat)
  | EdgeNotFound (edge : Nat)
  | WrongSubgraph (node : Nat) (expected : SubgraphKind) (found : SubgraphKind)
  | MappingAlreadyExists (impl_node : Nat) (old_arch : Nat) (new_arch : Nat)
deriving DecidableEq, Repr

/-- Modelled from the spec: the `ReflexionGraph` store from the missing
`graph.rs`: node and edge arenas keyed by opaque handles, the mapping
table `maps_to`, the two adjacency indices, the provenance
`propagation_table`, and the next fresh handles (handles are never
reused). -/
structure ReflexionGraph where
  nodes : List (Nat × Node)
  edges : List (Nat × Edge)
  maps_to : List (Nat × Nat)
  arch_out : List (Nat × List Nat)
  impl_out : List (Nat × List Nat)
  propagation_table : List (Nat × List Nat)
  next_node_id : Nat
  next_edge_id : Nat
deriving DecidableEq, Repr

/-- Association-list lookup: value of the first entry with the given key
(models `HashMap::get`). -/
def alGet {α : Type} : List (Nat × α) → Nat → Option α
  | [], _ => none
  | (k, v) :: t, k2 => if k = k2 then some v else alGet t k2

/-- Association-list in-place update of the entry with the given key
(models `HashMap::get_mut` followed by a field assignment). -/
def alUpd {α : Type} (l : List (Nat × α)) (k : Nat) (f : α → α) : List (Nat × α) :=
  l.map (fun p => if p.1 = k then (p.1, f p.2) else p)

/-- Association-list insert-or-replace (models `HashMap::insert`). -/
def alPut {α : Type} (l : List (Nat × α)) (k : Nat) (v : α) : List (Nat × α) :=
  if (alGet l k).isSome then alUpd l k (fun _ => v) else l ++ [(k, v)]

/-- Adjacency insert: append an id to the bucket of `k`, creating the
bucket if needed (models `entry(k).or_insert_with(Vec::new).push(id)`). -/
def aoInsert (l : List (Nat × List Nat)) (k : Nat) (id : Nat) : List (Nat × List Nat) :=
  if (alGet l k).isSome then alUpd l k (fun v => v ++ [id]) else l ++ [(k, [id])]

/-- Set-flavoured insertion into a provenance list (models
`HashSet::insert`): a member is not added twice. -/
def setInsert (s : List Nat) (i : Nat) : List Nat :=
  if i ∈ s then s else s ++ [i]

/-- The adjacency bucket of a node, empty when the key is absent (models
`self.arch_out.get(&n)` followed by iterating the vector, where an absent
key behaves like an empty bucket). -/
def archOutList (g : ReflexionGraph) (n : Nat) : List Nat :=
  (alGet g.arch_out n).getD []

/-- Modelled from the spec: `node_subgraph` from the missing `graph.rs`:
the subgraph membership of a node, or a structural error. -/
def node_subgraph (g : ReflexionGraph) (n : Nat) : Except GraphError SubgraphKind :=
  match alGet g.nodes n with
  | some nd => .ok nd.subgraph
  | none => .error (.NodeNotFound n)

/-- Modelled from the spec: `add_node` from the missing `graph.rs`: store
the node under the next fresh handle and return the handle. -/
def add_node (g : ReflexionGraph) (nd : Node) : Nat × ReflexionGraph :=
  (g.next_node_id,
   { g with nodes := g.nodes ++ [(g.next_node_id, nd)],
            next_node_id := g.next_node_id + 1 })

/-- The node subgraph required of both endpoints of an edge of the given
subgraph (spec invariant 2: architecture and propagated edges connect
architecture nodes, implementation edges connect implementation nodes). -/
def requiredNodeSubgraph : SubgraphKind → SubgraphKind
  | .Implementation => .Implementation
  | _ => .Architecture

/-- Modelled from the spec: `add_edge` from the missing `graph.rs`: fail
on conflicting subgraph/endpoint typing, otherwise allocate the next fresh
handle, overwrite the literal's `id` field with it, append the edge and
register it in the right adjacency index. -/
def add_edge (g : ReflexionGraph) (e : Edge) : Except GraphError (Nat × ReflexionGraph) :=
  match node_subgraph g e.src with
  | .error err => .error err
  | .ok ssg =>
    match node_subgraph g e.tgt with
    | .error err => .error err
    | .ok tsg =>
      if ssg = requiredNodeSubgraph e.subgraph then
        if tsg = requiredNodeSubgraph e.subgraph then
          let eid := g.next_edge_id
          let e2 := { e with id := eid }
          .ok (eid,
            { g with
              edges := g.edges ++ [(eid, e2)],
              arch_out := if e.subgraph = .Implementation then g.arch_out
                          else aoInsert g.arch_out e.src eid,
              impl_out := if e.subgraph = .Implementation then aoInsert g.impl_out e.src eid
                          else g.impl_out,
              next_edge_id := eid + 1 })
        else .error (.WrongSubgraph e.tgt (requiredNodeSubgraph e.subgraph) tsg)
      else .error (.WrongSubgraph e.src (requiredNodeSubgraph e.subgraph) ssg)

/-- Whether an id names a propagated edge in the given edge arena. -/
def isPropIdIn (edges : List (Nat × Edge)) (eid : Nat) : Bool :=
  match alGet edges eid with
  | some e => e.subgraph = .Propagated
  | none => false

/-- Modelled from the spec: `clear_propagated_edges` from the missing
`graph.rs` (step 1 of `run_from_scratch`): drop every propagated edge,
remove their ids from the architecture-space adjacency, and clear their
provenance entries (the propagation table only ever holds propagated
keys). -/
def clear_propagated_edges (g : ReflexionGraph) : ReflexionGraph :=
  { g with
    edges := g.edges.filter (fun p => decide (p.2.subgraph ≠ .Propagated)),
    arch_out := g.arch_out.map (fun b => (b.1, b.2.filter (fun eid => !(isPropIdIn g.edges eid)))),
    propagation_table := [] }

/-- Modelled from the spec: `init_states` from the missing `graph.rs`
(step 2 of `run_from_scratch`): architecture edges become `Specified` with
counter 0, implementation edges become `Undefined`. -/
def init_states (g : ReflexionGraph) : ReflexionGraph :=
  { g with
    edges := g.edges.map (fun p =>
      match p.2.subgraph with
      | .Architecture => (p.1, { p.2 with state := .Specified, counter := 0 })
      | .Implementation => (p.1, { p.2 with state := .Undefined })
      | .Propagated => p) }

/-- `expect_impl_node` from `mapping.rs`. -/
def expect_impl_node (g : ReflexionGraph) (impl_node : Nat) : Except GraphError Unit :=
  match node_subgraph g impl_node with
  | .error err => .error err
  | .ok sg =>
    if sg = .Implementation then .ok ()
    else .error (.WrongSubgraph impl_node .Implementation sg)

/-- `expect_arch_node` from `mapping.rs`. -/
def expect_arch_node (g : ReflexionGraph) (arch_node : Nat) : Except GraphError Unit :=
  match node_subgraph g arch_node with
  | .error err => .error err
  | .ok sg =>
    if sg = .Architecture then .ok ()
    else .error (.WrongSubgraph arch_node .Architecture sg)

/-- `set_mapping` from `mapping.rs`: validate both nodes, then insert,
succeed idempotently on an identical entry, or fail with
`MappingAlreadyExists` on a different one. -/
def set_mapping (g : ReflexionGraph) (impl_node arch_node : Nat) :
    ReflexionGraph × Except GraphError Unit :=
  match expect_impl_node g impl_node with
  | .error err => (g, .error err)
  | .ok _ =>
    match expect_arch_node g arch_node with
    | .error err => (g, .error err)
    | .ok _ =>
      match alGet g.maps_to impl_node with
      | none => ({ g with maps_to := alPut g.maps_to impl_node arch_node }, .ok ())
      | some old_arch =>
        if old_arch = arch_node then (g, .ok ())
        else (g, .error (.MappingAlreadyExists impl_node old_arch arch_node))

/-- `set_mapping_overwrite` from `mapping.rs`: validate both nodes, then
unconditionally replace, returning the prior value. -/
def set_mapping_overwrite (g : ReflexionGraph) (impl_node arch_node : Nat) :
    Except GraphError (Option Nat × ReflexionGraph) :=
  match expect_impl_node g impl_node with
  | .error err => .error err
  | .ok _ =>
    match expect_arch_node g arch_node with
    | .error err => .error err
    | .ok _ =>
      .ok (alGet g.maps_to impl_node,
           { g with maps_to := alPut g.maps_to impl_node arch_node })

/-- `get_arch_node` from `mapping.rs`. -/
def get_arch_node (g : ReflexionGraph) (impl_node : Nat) : Except GraphError (Option Nat) :=
  match expect_impl_node g impl_node with
  | .error err => .error err
  | .ok _ => .ok (alGet g.maps_to impl_node)

/-- `is_mapped` from `mapping.rs`. -/
def is_mapped (g : ReflexionGraph) (impl_node : Nat) : Except GraphError Bool :=
  match expect_impl_node g impl_node with
  | .error err => .error err
  | .ok _ => .ok (alGet g.maps_to impl_node).isSome

/-- State-only update of one edge (models `edges.get_mut(&id)` followed by
`e.state = s`). -/
def setEdgeState (g : ReflexionGraph) (eid : Nat) (s : EdgeState) : ReflexionGraph :=
  { g with edges := alUpd g.edges eid (fun e => { e with state := s }) }

/-- Counter increment of one edge (models `pe.counter += 1`). -/
def incCounter (g : ReflexionGraph) (eid : Nat) : ReflexionGraph :=
  { g with edges := alUpd g.edges eid (fun e => { e with counter := e.counter + 1 }) }

/-- Counter increment plus state `Convergent` of one edge (the matched
architecture edge in `propagate_and_lift`). -/
def markConvergent (g : ReflexionGraph) (eid : Nat) : ReflexionGraph :=
  { g with edges :=
      alUpd g.edges eid (fun e => { e with counter := e.counter + 1, state := .Convergent }) }

/-- Provenance registration (models
`propagation_table.entry(prop_id).or_insert_with(HashSet::new).insert(impl_id)`). -/
def tableInsert (g : ReflexionGraph) (prop_id impl_id : Nat) : ReflexionGraph :=
  { g with propagation_table :=
      if (alGet g.propagation_table prop_id).isSome then
        alUpd g.propagation_table prop_id (fun s => setInsert s impl_id)
      else g.propagation_table ++ [(prop_id, [impl_id])] }

/-- The scan inside `get_or_create_propagated_edge` from `propagate.rs`:
walk the outgoing bucket looking for an existing `Propagated` edge with
the wanted target and kind; a dangling id is the structural error. -/
def findPropIn (g : ReflexionGraph) : List Nat → Nat → Nat → Except GraphError (Option Nat)
  | [], _, _ => .ok none
  | eid :: t, ta, k =>
    match alGet g.edges eid with
    | none => .error (.EdgeNotFound eid)
    | some e =>
      if e.subgraph = .Propagated ∧ e.tgt = ta ∧ e.kind = k then .ok (some eid)
      else findPropIn g t ta k

/-- `get_or_create_propagated_edge` from `propagate.rs`: reuse the first
matching propagated edge in the architecture-space bucket, otherwise add a
fresh `Propagated` edge (state `Undefined`, counter 0). -/
def get_or_create_propagated_edge (g : ReflexionGraph) (from_arch to_arch k : Nat) :
    Except GraphError (Nat × ReflexionGraph) :=
  match findPropIn g (archOutList g from_arch) to_arch k with
  | .error err => .error err
  | .ok (some eid) => .ok (eid, g)
  | .ok none =>
    add_edge g
      { id := 0, src := from_arch, tgt := to_arch, kind := k,
        subgraph := .Propagated, state := .Undefined, counter := 0 }

/-- `propagate_impl_edge` from `propagate.rs`: read the implementation
edge, resolve both endpoints through `maps_to` (either missing marks the
edge `Unmapped` and stops), then find-or-create the propagated edge,
increment its counter and record provenance. -/
def propagate_impl_edge (g : ReflexionGraph) (impl_edge_id : Nat) :
    Except GraphError ReflexionGraph :=
  match alGet g.edges impl_edge_id with
  | none => .error (.EdgeNotFound impl_edge_id)
  | some e =>
    if e.subgraph = .Implementation then
      match alGet g.maps_to e.src with
      | none => .ok (setEdgeState g impl_edge_id .Unmapped)
      | some from_arch =>
        match alGet g.maps_to e.tgt with
        | none => .ok (setEdgeState g impl_edge_id .Unmapped)
        | some to_arch =>
          match get_or_create_propagated_edge g from_arch to_arch e.kind with
          | .error err => .error err
          | .ok (prop_id, g1) => .ok (tableInsert (incCounter g1 prop_id) prop_id impl_edge_id)
    else .error (.WrongSubgraph e.src .Implementation e.subgraph)

/-- The scan inside `lift_exact` from `lifting.rs`: walk the
architecture-space bucket looking for an `Architecture` edge with the
wanted target and kind. -/
def findArchIn (g : ReflexionGraph) : List Nat → Nat → Nat → Except GraphError (Option Nat)
  | [], _, _ => .ok none
  | eid :: t, ta, k =>
    match alGet g.edges eid with
    | none => .error (.EdgeNotFound eid)
    | some e =>
      if e.subgraph = .Architecture ∧ e.tgt = ta ∧ e.kind = k then .ok (some eid)
      else findArchIn g t ta k

/-- `lift_exact` from `lifting.rs`: exact-triple search among
architecture edges leaving `from_arch`. -/
def lift_exact (g : ReflexionGraph) (from_arch to_arch k : Nat) :
    Except GraphError (Option Nat) :=
  findArchIn g (archOutList g from_arch) to_arch k

/-- The provenance-table search inside `propagate_and_lift`: the first
entry whose implementation-edge set contains the given id. -/
def findTableEntry (g : ReflexionGraph) (impl_edge_id : Nat) : Option Nat :=
  (g.propagation_table.find? (fun p => decide (impl_edge_id ∈ p.2))).map (fun p => p.1)

/-- `propagate_and_lift` from `lifting.rs`: propagate, stop on `Unmapped`,
locate the propagated edge through the provenance table, lift its triple,
and mark the edges `Convergent`/`Allowed` on a match or `Divergent`
otherwise.  On error the graph mutated so far is kept (callers in
`classify.rs` and `delta.rs` discard the `Result`). -/
def propagate_and_lift (g : ReflexionGraph) (impl_edge_id : Nat) :
    ReflexionGraph × Except GraphError Unit :=
  match propagate_impl_edge g impl_edge_id with
  | .error err => (g, .error err)
  | .ok g1 =>
    match alGet g1.edges impl_edge_id with
    | none => (g1, .error (.EdgeNotFound impl_edge_id))
    | some ie =>
      if ie.state = .Unmapped then (g1, .ok ())
      else
        match findTableEntry g1 impl_edge_id with
        | none => (g1, .error (.EdgeNotFound impl_edge_id))
        | some prop_id =>
          match alGet g1.edges prop_id with
          | none => (g1, .error (.EdgeNotFound prop_id))
          | some pe =>
            match lift_exact g1 pe.src pe.tgt pe.kind with
            | .error err => (g1, .error err)
            | .ok (some arch_eid) =>
              (setEdgeState (setEdgeState (markConvergent g1 arch_eid) prop_id .Allowed)
                 impl_edge_id .Allowed, .ok ())
            | .ok none =>
              (setEdgeState (setEdgeState g1 prop_id .Divergent) impl_edge_id .Divergent,
               .ok ())

/-- `finalize_architecture_states` from `classify.rs`: every architecture
edge still `Specified` becomes `Absent` (counter 0) or `Convergent`
(counter positive); everything else is untouched. -/
def finalize_architecture_states (g : ReflexionGraph) : ReflexionGraph :=
  { g with edges := g.edges.map (fun p =>
      if p.2.subgraph = .Architecture then
        if p.2.state = .Specified ∧ p.2.counter = 0 then (p.1, { p.2 with state := .Absent })
        else if p.2.state = .Specified ∧ 0 < p.2.counter then
          (p.1, { p.2 with state := .Convergent })
        else p
      else p) }

/-- The snapshot of implementation-edge ids taken in `run_from_scratch`. -/
def implEdgeIds (g : ReflexionGraph) : List Nat :=
  g.edges.filterMap (fun p => if p.2.subgraph = .Implementation then some p.1 else none)

/-- Folding `propagate_and_lift` over a list of implementation-edge ids,
discarding each `Result` exactly as the loop in `run_from_scratch` does. -/
def processList (g : ReflexionGraph) (l : List Nat) : ReflexionGraph :=
  l.foldl (fun h i => (propagate_and_lift h i).1) g

/-- `run_from_scratch` from `classify.rs`: clear propagated edges, reset
states, snapshot and process every implementation edge, finalize
architecture states.  The Rust function always returns `Ok(())`. -/
def run_from_scratch (g : ReflexionGraph) : ReflexionGraph :=
  let g1 := init_states (clear_propagated_edges g)
  finalize_architecture_states (processList g1 (implEdgeIds g1))

/-- `run_from_scratch` with the snapshot processed in a caller-chosen
order (the loop of step 3 run over an arbitrary listing of the
implementation edges). -/
def runWithOrder (g : ReflexionGraph) (l : List Nat) : ReflexionGraph :=
  finalize_architecture_states (processList (init_states (clear_propagated_edges g)) l)

/-- `count_violations` from `classify.rs`. -/
def count_violations (g : ReflexionGraph) : Nat :=
  (g.edges.filter (fun p => p.2.state.is_violation)).length

/-- `add_impl_edge_and_recompute` from `delta.rs`: insert one
implementation edge, then clear propagated edges and recompute
everything. -/
def add_impl_edge_and_recompute (g : ReflexionGraph) (e : Edge) :
    ReflexionGraph × Except GraphError Nat :=
  if e.subgraph = .Implementation then
    match add_edge g e with
    | .error err => (g, .error err)
    | .ok (eid, g1) => (run_from_scratch (clear_propagated_edges g1), .ok eid)
  else (g, .error (.WrongSubgraph e.src .Implementation e.subgraph))

/-- `remove_impl_edge_and_recompute` from `delta.rs`: remove one
implementation edge from the arena and its adjacency bucket, then clear
propagated edges and recompute everything. -/
def remove_impl_edge_and_recompute (g : ReflexionGraph) (edge_id : Nat) :
    ReflexionGraph × Except GraphError Unit :=
  match alGet g.edges edge_id with
  | none => (g, .error (.EdgeNotFound edge_id))
  | some e =>
    if e.subgraph = .Implementation then
      let g1 := { g with
        edges := g.edges.filter (fun p => decide (p.1 ≠ edge_id)),
        impl_out := alUpd g.impl_out e.src (fun v => v.filter (fun x => decide (x ≠ edge_id))) }
      (run_from_scratch (clear_propagated_edges g1), .ok ())
    else (g, .error (.WrongSubgraph e.src .Implementation e.subgraph))

/-- Concrete graph for the C6 witness: two implementation nodes, one
implementation edge, an empty mapping table. -/
def unmappedWitnessGraph : ReflexionGraph where
  nodes := [(0, ⟨"A_Impl", .Implementation, none⟩), (1, ⟨"B_Impl", .Implementation, none⟩)]
  edges := [(0, ⟨0, 0, 1, 3, .Implementation, .Undefined, 0⟩)]
  maps_to := []
  arch_out := []
  impl_out := [(0, [0])]
  propagation_table := []
  next_node_id := 2
  next_edge_id := 1

/-- Concrete graph for the C9 witness: one implementation node already
mapped to architecture node 1, with a second architecture node 2. -/
def mappingWitnessGraph : ReflexionGraph where
  nodes := [(0, ⟨"impl1", .Implementation, none⟩), (1, ⟨"arch1", .Architecture, none⟩),
            (2, ⟨"arch2", .Architecture, none⟩)]
  edges := []
  maps_to := [(0, 1)]
  arch_out := []
  impl_out := []
  propagation_table := []
  next_node_id := 3
  next_edge_id := 0

/-! ### C8: finalization of architecture states -/

/-- Concrete graph for the absence half of C8: a single architecture edge
of kind `K` and no implementation edges. -/
def absenceGraph (K : Nat) : ReflexionGraph where
  nodes := [(0, ⟨"A", .Architecture, none⟩), (1, ⟨"B", .Architecture, none⟩)]
  edges := [(0, ⟨0, 0, 1, K, .Architecture, .Undefined, 0⟩)]
  maps_to := []
  arch_out := [(0, [0])]
  impl_out := []
  propagation_table := []
  next_node_id := 2
  next_edge_id := 1

/-- Concrete graph for the general half of the C8 witness: three edges in
the three finalization situations. -/
def finalizeWitnessGraph : ReflexionGraph where
  nodes := [(0, ⟨"A", .Architecture, none⟩), (1, ⟨"B", .Architecture, none⟩),
            (2, ⟨"X", .Implementation, none⟩), (3, ⟨"Y", .Implementation, none⟩)]
  edges := [(0, ⟨0, 0, 1, 4, .Architecture, .Specified, 0⟩),
            (1, ⟨1, 0, 1, 5, .Architecture, .Specified, 2⟩),
            (2, ⟨2, 2, 3, 4, .Implementation, .Allowed, 0⟩)]
  maps_to := []
  arch_out := [(0, [0, 1])]
  impl_out := [(2, [2])]
  propagation_table := []
  next_node_id := 4
  next_edge_id := 3

/-! ### C1: the convergence scenario -/

/-- The C1 graph family: architecture edge `A → B` of kind `K`
(handles 0 → 1, edge 0), one implementation edge (handle 2 → 3, edge 1)
whose endpoints are mapped onto `A` and `B`, of the same kind, and no
other edges. -/
def convergenceGraph (K : Nat) : ReflexionGraph where
  nodes := [(0, ⟨"A", .Architecture, none⟩), (1, ⟨"B", .Architecture, none⟩),
            (2, ⟨"X", .Implementation, none⟩), (3, ⟨"Y", .Implementation, none⟩)]
  edges := [(0, ⟨0, 0, 1, K, .Architecture, .Undefined, 0⟩),
            (1, ⟨1, 2, 3, K, .Implementation, .Undefined, 0⟩)]
  maps_to := [(2, 0), (3, 1)]
  arch_out := [(0, [0])]
  impl_out := [(2, [1])]
  propagation_table := []
  next_node_id := 4
  next_edge_id := 2

/-! ### C2: the naive incremental updater equals a fresh run -/

/-- The graph "constructed without that edge": the arena entry and the
implementation-adjacency occurrence of the edge are dropped, exactly as
the loader would never have added them. -/
def removeImplEdge (g : ReflexionGraph) (eid : Nat) : ReflexionGraph :=
  match alGet g.edges eid with
  | some e =>
    { g with
      edges := g.edges.filter (fun p => decide (p.1 ≠ eid)),
      impl_out := alUpd g.impl_out e.src (fun v => v.filter (fun x => decide (x ≠ eid))) }
  | none => g

/-- Concrete graph for the C2 witness: two implementation nodes and no
edges. -/
def deltaWitnessGraph : ReflexionGraph where
  nodes := [(0, ⟨"X", .Implementation, none⟩), (1, ⟨"Y", .Implementation, none⟩)]
  edges := []
  maps_to := []
  arch_out := []
  impl_out := []
  propagation_table := []
  next_node_id := 2
  next_edge_id := 0

/-- `deltaWitnessGraph` after the implementation edge 0 → 1 is added. -/
def deltaWitnessAdded : ReflexionGraph where
  nodes := [(0, ⟨"X", .Implementation, none⟩), (1, ⟨"Y", .Implementation, none⟩)]
  edges := [(0, ⟨0, 0, 1, 2, .Implementation, .Undefined, 0⟩)]
  maps_to := []
  arch_out := []
  impl_out := [(0, [0])]
  propagation_table := []
  next_node_id := 2
  next_edge_id := 1

/-! ### Characterization of a full run

The following definitions express, as pure functions of the post-reset
graph, what the loop of step 3 of `run_from_scratch` computes: which
architecture-space triple an implementation edge projects onto, which
architecture edge that triple lifts onto, and the resulting states and
counters. -/

/-- A (source, target, kind) key in architecture space. -/
abbrev Triple := Nat × Nat × Nat

/-- The architecture-space triple an implementation edge projects onto,
or `none` when an endpoint is unmapped. -/
def implTriple (g : ReflexionGraph) (i : Nat) : Option Triple :=
  match alGet g.edges i with
  | some e =>
    match alGet g.maps_to e.src, alGet g.maps_to e.tgt with
    | some a, some b => some (a, b, e.kind)
    | _, _ => none
  | none => none

/-- Total version of the `lift_exact` scan: the first listed architecture
edge with the wanted target and kind (dangling ids are skipped). -/
def findArchD (g : ReflexionGraph) : List Nat → Nat → Nat → Option Nat
  | [], _, _ => none
  | eid :: t, ta, k =>
    match alGet g.edges eid with
    | some e =>
      if e.subgraph = .Architecture ∧ e.tgt = ta ∧ e.kind = k then some eid
      else findArchD g t ta k
    | none => findArchD g t ta k

/-- The architecture edge a triple lifts onto. -/
def archTarget (g : ReflexionGraph) (t : Triple) : Option Nat :=
  findArchD g (archOutList g t.1) t.2.1 t.2.2

/-- First occurrences of a list, in order of first appearance. -/
def firstOccs (l : List Triple) : List Triple :=
  l.foldl (fun acc a => if a ∈ acc then acc else acc ++ [a]) []

/-- The triples of the mapped implementation edges of a worklist. -/
def mappedTriples (g : ReflexionGraph) (l : List Nat) : List Triple :=
  l.filterMap (implTriple g)

/-- The terminal state of a propagated (and of a processed mapped
implementation) edge: `Allowed` when its triple lifts, else `Divergent`. -/
def stOf (g : ReflexionGraph) (t : Triple) : EdgeState :=
  if (archTarget g t).isSome then .Allowed else .Divergent

/-- How many worklist edges project onto a given triple. -/
def cntT (g : ReflexionGraph) (l : List Nat) (t : Triple) : Nat :=
  (mappedTriples g l).countP (fun t2 => decide (t2 = t))

/-- How many worklist edges lift onto a given architecture edge. -/
def liftCnt (g : ReflexionGraph) (l : List Nat) (a : Nat) : Nat :=
  (mappedTriples g l).countP (fun t => decide (archTarget g t = some a))

/-- The terminal state of a processed implementation edge. -/
def verdict (g : ReflexionGraph) (e : Edge) : EdgeState :=
  match alGet g.maps_to e.src, alGet g.maps_to e.tgt with
  | some a, some b => stOf g (a, b, e.kind)
  | _, _ => .Unmapped

/-- The update the loop applies to one pre-existing (architecture or
implementation) edge after the worklist `l` has been processed. -/
def persistEdge (g : ReflexionGraph) (l : List Nat) (p : Nat × Edge) : Nat × Edge :=
  if p.2.subgraph = .Implementation then
    if p.1 ∈ l then (p.1, { p.2 with state := verdict g p.2 }) else p
  else if p.2.subgraph = .Architecture then
    (p.1,
     { p.2 with
       counter := p.2.counter + liftCnt g l p.1,
       state := if liftCnt g l p.1 = 0 then p.2.state else .Convergent })
  else p

/-- Consecutive fresh handles for a list of triples. -/
def propsFrom (n : Nat) : List Triple → List (Nat × Triple)
  | [] => []
  | t :: r => (n, t) :: propsFrom (n + 1) r

/-- The propagated edges the worklist creates: one per distinct projected
triple, in order of first appearance, under consecutive fresh handles. -/
def propsOf (g : ReflexionGraph) (l : List Nat) : List (Nat × Triple) :=
  propsFrom g.next_edge_id (firstOccs (mappedTriples g l))

/-- The propagated edge belonging to a triple after the worklist `l`. -/
def mkPropEdge (g : ReflexionGraph) (l : List Nat) (pid : Nat) (t : Triple) : Edge :=
  ⟨pid, t.1, t.2.1, t.2.2, .Propagated, stOf g t, cntT g l t⟩

/-- The graph the loop of step 3 produces after processing worklist `l`
from the post-reset graph `g`. -/
def builtGraph (g : ReflexionGraph) (l : List Nat) : ReflexionGraph where
  nodes := g.nodes
  edges := g.edges.map (persistEdge g l) ++
    (propsOf g l).map (fun q => (q.1, mkPropEdge g l q.1 q.2))
  maps_to := g.maps_to
  arch_out := (propsOf g l).foldl (fun ao q => aoInsert ao q.2.1 q.1) g.arch_out
  impl_out := g.impl_out
  propagation_table := (propsOf g l).map
    (fun q => (q.1, l.filter (fun j => decide (implTriple g j = some q.2))))
  next_node_id := g.next_node_id
  next_edge_id := g.next_edge_id + (propsOf g l).length

/-- An id naming an implementation edge of `g`. -/
def isImplKey (g : ReflexionGraph) (i : Nat) : Prop :=
  ∃ e, alGet g.edges i = some e ∧ e.subgraph = .Implementation

/-- The shape `init_states ∘ clear_propagated_edges` leaves a well-formed
graph in: no propagated edges, an empty provenance table, freshly reset
states and counters, duplicate-free fresh-bounded edge keys, an adjacency
index into existing edges, and mapping values that are existing
architecture nodes. -/
structure Ready (g : ReflexionGraph) : Prop where
  noProp : ∀ p ∈ g.edges, p.2.subgraph ≠ .Propagated
  tableEmpty : g.propagation_table = []
  archInit : ∀ p ∈ g.edges, p.2.subgraph = .Architecture →
    p.2.state = .Specified ∧ p.2.counter = 0
  implInit : ∀ p ∈ g.edges, p.2.subgraph = .Implementation → p.2.state = .Undefined
  keysNodup : (g.edges.map Prod.fst).Nodup
  keysLt : ∀ p ∈ g.edges, p.1 < g.next_edge_id
  archOutEx : ∀ a, ∀ eid ∈ archOutList g a, (alGet g.edges eid).isSome
  mapsArch : ∀ p ∈ g.maps_to,
    (alGet g.nodes p.2).map (fun nd => nd.subgraph) = some SubgraphKind.Architecture

/-- The input contract `run_from_scratch` needs: duplicate-free edge
handles below the fresh counter, outgoing-adjacency ids that name existing
edges, and mapping values that are existing architecture nodes. -/
structure WFInput (g : ReflexionGraph) : Prop where
  keysNodup : (g.edges.map Prod.fst).Nodup
  keysLt : ∀ p ∈ g.edges, p.1 < g.next_edge_id
  archOutEx : ∀ b ∈ g.arch_out, ∀ eid ∈ b.2, (alGet g.edges eid).isSome
  mapsArch : ∀ p ∈ g.maps_to,
    (alGet g.nodes p.2).map (fun nd => nd.subgraph) = some SubgraphKind.Architecture

/-- The per-edge function of `finalize_architecture_states`, named for reuse. -/
def finalizeEdge (p : Nat × Edge) : Nat × Edge :=
  if p.2.subgraph = .Architecture then
    if p.2.state = .Specified ∧ p.2.counter = 0 then (p.1, { p.2 with state := .Absent })
    else if p.2.state = .Specified ∧ 0 < p.2.counter then
      (p.1, { p.2 with state := .Convergent })
    else p
  else p

/-- Edge-id keyed state and counter assignment: the "byte-identical
edge-state and counter assignments" the idempotence contract talks about. -/
def edgeAssign (g : ReflexionGraph) : List (Nat × EdgeState × Nat) :=
  g.edges.map (fun p => (p.1, p.2.state, p.2.counter))

/-- State and counter assignment of the persistent (architecture and
implementation) edges, keyed by edge id. -/
def persistAssign (g : ReflexionGraph) : List (Nat × EdgeState × Nat) :=
  (g.edges.filter (fun p => decide (p.2.subgraph ≠ .Propagated))).map
    (fun p => (p.1, p.2.state, p.2.counter))

/-- State and counter assignment of the propagated edges keyed by their
architecture-space triple. -/
def propAssign (g : ReflexionGraph) (t : Triple) : List (EdgeState × Nat) :=
  (g.edges.filter (fun p => decide (p.2.subgraph = .Propagated ∧ p.2.src = t.1 ∧
    p.2.tgt = t.2.1 ∧ p.2.kind = t.2.2))).map (fun p => (p.2.state, p.2.counter))

/-- A mapped implementation edge with no matching architecture edge: each
run regenerates its divergent propagated edge under a fresh id. -/
def idShiftGraph : ReflexionGraph where
  nodes := [(0, ⟨"A", .Architecture, none⟩), (1, ⟨"B", .Architecture, none⟩),
            (2, ⟨"X", .Implementation, none⟩), (3, ⟨"Y", .Implementation, none⟩)]
  edges := [(0, ⟨0, 2, 3, 0, .Implementation, .Undefined, 0⟩)]
  maps_to := [(2, 0), (3, 1)]
  arch_out := []
  impl_out := [(2, [0])]
  propagation_table := []
  next_node_id := 4
  next_edge_id := 1

/-- Two implementation edges whose triples first appear in opposite orders
under the two processing orders: the fresh propagated-edge ids swap. -/
def orderGraph : ReflexionGraph where
  nodes := [(0, ⟨"A", .Architecture, none⟩), (1, ⟨"B", .Architecture, none⟩),
            (2, ⟨"C", .Architecture, none⟩), (3, ⟨"X", .Implementation, none⟩),
            (4, ⟨"Y", .Implementation, none⟩), (5, ⟨"Z", .Implementation, none⟩)]
  edges := [(0, ⟨0, 0, 1, 0, .Architecture, .Undefined, 0⟩),
            (1, ⟨1, 3, 4, 0, .Implementation, .Undefined, 0⟩),
            (2, ⟨2, 3, 5, 0, .Implementation, .Undefined, 0⟩)]
  maps_to := [(3, 0), (4, 1), (5, 2)]
  arch_out := [(0, [0])]
  impl_out := [(3, [1, 2])]
  propagation_table := []
  next_node_id := 6
  next_edge_id := 3

/-! ## Theorems -/

/-! ### Association-list lemmas -/

theorem alGet_append_of_some {α : Type} {l1 l2 : List (Nat × α)} {k : Nat} {v : α}
    (h : alGet l1 k = some v) : alGet (l1 ++ l2) k = some v := by
  induction l1 with
  | nil => simp [alGet] at h
  | cons hd tl ih =>
    obtain ⟨k1, v1⟩ := hd
    by_cases hk : k1 = k
    · simp [alGet, hk] at h ⊢
      exact h
    · simp [alGet, hk] at h ⊢
      exact ih h

theorem alGet_append_of_none {α : Type} {l1 : List (Nat × α)} (l2 : List (Nat × α)) {k : Nat}
    (h : alGet l1 k = none) : alGet (l1 ++ l2) k = alGet l2 k := by
  induction l1 with
  | nil => simp [alGet]
  | cons hd tl ih =>
    obtain ⟨k1, v1⟩ := hd
    by_cases hk : k1 = k
    · simp [alGet, hk] at h
    · simp [alGet, hk] at h ⊢
      exact ih h

theorem alUpd_cons {α : Type} (k1 : Nat) (v1 : α) (tl : List (Nat × α)) (k : Nat) (f : α → α) :
    alUpd ((k1, v1) :: tl) k f =
      (if k1 = k then (k1, f v1) else (k1, v1)) :: alUpd tl k f := by
  simp only [alUpd, List.map_cons]

theorem alGet_alUpd_of_some {α : Type} {l : List (Nat × α)} {k : Nat} {v : α} (f : α → α)
    (h : alGet l k = some v) : alGet (alUpd l k f) k = some (f v) := by
  induction l with
  | nil => simp [alGet] at h
  | cons hd tl ih =>
    obtain ⟨k1, v1⟩ := hd
    rw [alUpd_cons]
    by_cases hk : k1 = k
    · rw [if_pos hk]
      subst hk
      simp [alGet] at h
      simp [alGet, h]
    · rw [if_neg hk]
      simp [alGet, hk] at h ⊢
      exact ih h

theorem alGet_alUpd_of_none {α : Type} {l : List (Nat × α)} {k : Nat} (f : α → α)
    (h : alGet l k = none) : alGet (alUpd l k f) k = none := by
  induction l with
  | nil => simp [alGet, alUpd]
  | cons hd tl ih =>
    obtain ⟨k1, v1⟩ := hd
    rw [alUpd_cons]
    by_cases hk : k1 = k
    · subst hk
      simp [alGet] at h
    · rw [if_neg hk]
      simp [alGet, hk] at h ⊢
      exact ih h

theorem alGet_alUpd_ne {α : Type} {l : List (Nat × α)} {k j : Nat} (f : α → α)
    (h : j ≠ k) : alGet (alUpd l k f) j = alGet l j := by
  induction l with
  | nil => simp [alGet, alUpd]
  | cons hd tl ih =>
    obtain ⟨k1, v1⟩ := hd
    rw [alUpd_cons]
    by_cases hk : k1 = k
    · rw [if_pos hk]
      have hne : k1 ≠ j := by omega
      simp [alGet, hne]
      exact ih
    · rw [if_neg hk]
      by_cases hj : k1 = j
      · simp [alGet, hj]
      · simp [alGet, hj]
        exact ih

theorem alGet_alPut_self {α : Type} (l : List (Nat × α)) (k : Nat) (v : α) :
    alGet (alPut l k v) k = some v := by
  unfold alPut
  by_cases h : (alGet l k).isSome
  · obtain ⟨w, hw⟩ := Option.isSome_iff_exists.mp h
    simp [h]
    exact alGet_alUpd_of_some _ hw
  · have hn : alGet l k = none := by
      cases hget : alGet l k
      · rfl
      · simp [hget] at h
    simp [h]
    rw [alGet_append_of_none _ hn]
    simp [alGet]

theorem alGet_alPut_ne {α : Type} (l : List (Nat × α)) (k j : Nat) (v : α) (h : j ≠ k) :
    alGet (alPut l k v) j = alGet l j := by
  unfold alPut
  by_cases hs : (alGet l k).isSome
  · simp [hs]
    exact alGet_alUpd_ne _ h
  · simp [hs]
    cases hget : alGet l j with
    | some w => exact alGet_append_of_some hget
    | none =>
      rw [alGet_append_of_none _ hget]
      have hne : k ≠ j := fun hh => h hh.symm
      simp [alGet, hne]

theorem alGet_map_keyfix_of_some {α : Type} {f : Nat × α → Nat × α}
    (hf : ∀ p, (f p).1 = p.1) {l : List (Nat × α)} {k : Nat} {v : α}
    (h : alGet l k = some v) : alGet (l.map f) k = some (f (k, v)).2 := by
  induction l with
  | nil => simp [alGet] at h
  | cons hd tl ih =>
    obtain ⟨k1, v1⟩ := hd
    by_cases hk : k1 = k
    · simp [alGet, hk] at h
      subst hk
      subst h
      have h1 := hf (k1, v1)
      simp [alGet]
      rw [h1]
      simp
    · simp [alGet, hk] at h
      have h1 := hf (k1, v1)
      simp [alGet]
      rw [h1]
      simp [hk]
      exact ih h

theorem alGet_map_keyfix_of_none {α : Type} {f : Nat × α → Nat × α}
    (hf : ∀ p, (f p).1 = p.1) {l : List (Nat × α)} {k : Nat}
    (h : alGet l k = none) : alGet (l.map f) k = none := by
  induction l with
  | nil => simp [alGet]
  | cons hd tl ih =>
    obtain ⟨k1, v1⟩ := hd
    by_cases hk : k1 = k
    · simp [alGet, hk] at h
    · simp [alGet, hk] at h
      have h1 := hf (k1, v1)
      simp [alGet]
      rw [h1]
      simp [hk]
      exact ih h

theorem alGet_filter_of_some {α : Type} {q : Nat × α → Bool} {l : List (Nat × α)}
    {k : Nat} {v : α} (h : alGet l k = some v) (hq : q (k, v) = true) :
    alGet (l.filter q) k = some v := by
  induction l with
  | nil => simp [alGet] at h
  | cons hd tl ih =>
    obtain ⟨k1, v1⟩ := hd
    by_cases hk : k1 = k
    · simp [alGet, hk] at h
      subst hk; subst h
      simp [List.filter, hq, alGet]
    · simp [alGet, hk] at h
      by_cases hqh : q (k1, v1) = true
      · simp [List.filter, hqh, alGet, hk]
        exact ih h
      · simp only [List.filter_cons]
        simp [hqh]
        exact ih h

theorem alGet_filter_of_none {α : Type} (q : Nat × α → Bool) {l : List (Nat × α)}
    {k : Nat} (h : alGet l k = none) : alGet (l.filter q) k = none := by
  induction l with
  | nil => simp [alGet]
  | cons hd tl ih =>
    obtain ⟨k1, v1⟩ := hd
    by_cases hk : k1 = k
    · simp [alGet, hk] at h
    · simp [alGet, hk] at h
      by_cases hqh : q (k1, v1) = true
      · simp [List.filter, hqh, alGet, hk]
        exact ih h
      · simp only [List.filter_cons]
        simp [hqh]
        exact ih h

theorem alGet_filterKeyNe {α : Type} (l : List (Nat × α)) (k j : Nat) (h : j ≠ k) :
    alGet (l.filter (fun p => decide (p.1 ≠ k))) j = alGet l j := by
  induction l with
  | nil => simp [alGet]
  | cons hd tl ih =>
    obtain ⟨k1, v1⟩ := hd
    simp only [List.filter_cons]
    by_cases hk : k1 = k
    · subst hk
      have hne : k1 ≠ j := fun hh => h hh.symm
      simp [alGet, hne]
      simpa using ih
    · by_cases hj : k1 = j
      · subst hj
        simp [alGet, hk]
      · simp [alGet, hk, hj]
        simpa using ih

/-! ### C6: unmapped endpoints stop propagation -/

/-- C6: for an implementation edge with at least one endpoint absent from
the mapping table, `propagate_impl_edge` sets its state to `Unmapped` and
stops: every other edge is untouched, no propagated edge is created (the
edge list keeps its length and every edge keeps its subgraph), the
propagation table gains no entry, and no counter changes. -/
theorem claim_C6 (g : ReflexionGraph) (eid : Nat) (e : Edge)
    (hlook : alGet g.edges eid = some e)
    (hsub : e.subgraph = .Implementation)
    (hunm : alGet g.maps_to e.src = none ∨ alGet g.maps_to e.tgt = none) :
    propagate_impl_edge g eid = .ok (setEdgeState g eid .Unmapped) ∧
    alGet (setEdgeState g eid .Unmapped).edges eid = some { e with state := .Unmapped } ∧
    (∀ j, j ≠ eid → alGet (setEdgeState g eid .Unmapped).edges j = alGet g.edges j) ∧
    (setEdgeState g eid .Unmapped).propagation_table = g.propagation_table ∧
    (setEdgeState g eid .Unmapped).edges.length = g.edges.length ∧
    (∀ j e2, alGet (setEdgeState g eid .Unmapped).edges j = some e2 →
       ∃ e1, alGet g.edges j = some e1 ∧ e2.counter = e1.counter ∧ e2.subgraph = e1.subgraph) := by
  refine ⟨?_, ?_, ?_, rfl, ?_, ?_⟩
  · rcases hunm with hsrc | htgt
    · simp [propagate_impl_edge, hlook, hsub, hsrc]
    · cases hsrc : alGet g.maps_to e.src with
      | none => simp [propagate_impl_edge, hlook, hsub, hsrc]
      | some a => simp [propagate_impl_edge, hlook, hsub, hsrc, htgt]
  · simpa [setEdgeState] using alGet_alUpd_of_some _ hlook
  · intro j hj
    simpa [setEdgeState] using alGet_alUpd_ne _ hj
  · simp [setEdgeState, alUpd]
  · intro j e2 h2
    by_cases hj : j = eid
    · subst hj
      have := alGet_alUpd_of_some (fun x => { x with state := EdgeState.Unmapped }) hlook
      simp [setEdgeState] at h2
      rw [this] at h2
      obtain rfl : ({ e with state := EdgeState.Unmapped } : Edge) = e2 := by
        simpa using h2
      exact ⟨e, hlook, rfl, rfl⟩
    · rw [show (setEdgeState g eid EdgeState.Unmapped).edges = alUpd g.edges eid
           (fun x => { x with state := EdgeState.Unmapped }) from rfl,
         alGet_alUpd_ne _ hj] at h2
      exact ⟨e2, h2, rfl, rfl⟩

theorem claim_C6_witness :
    propagate_impl_edge unmappedWitnessGraph 0 =
      .ok (setEdgeState unmappedWitnessGraph 0 .Unmapped) ∧
    alGet (setEdgeState unmappedWitnessGraph 0 .Unmapped).edges 0 =
      some ⟨0, 0, 1, 3, .Implementation, .Unmapped, 0⟩ ∧
    (setEdgeState unmappedWitnessGraph 0 .Unmapped).propagation_table = [] := by
  obtain ⟨h1, h2, _, h4, _, _⟩ :=
    claim_C6 unmappedWitnessGraph 0 ⟨0, 0, 1, 3, .Implementation, .Undefined, 0⟩
      (by decide) (by decide) (Or.inl (by decide))
  exact ⟨h1, h2, h4⟩

/-! ### C9 and C10: strict mapping insertion -/

/-- C9: for an implementation node `i` and an architecture node `a`,
`set_mapping` fails with a mapping-conflict error carrying `i`, the old
target and `a` exactly when `i` is already mapped to a different node;
remapping to the identical target succeeds without touching the table;
mapping an unmapped node inserts the entry and succeeds. -/
theorem claim_C9 (g : ReflexionGraph) (i a : Nat)
    (hi : node_subgraph g i = .ok .Implementation)
    (ha : node_subgraph g a = .ok .Architecture) :
    (∀ old, alGet g.maps_to i = some old → old ≠ a →
       set_mapping g i a = (g, .error (.MappingAlreadyExists i old a))) ∧
    (alGet g.maps_to i = some a → set_mapping g i a = (g, .ok ())) ∧
    (alGet g.maps_to i = none →
       set_mapping g i a = ({ g with maps_to := alPut g.maps_to i a }, .ok ()) ∧
       alGet (alPut g.maps_to i a) i = some a ∧
       (∀ j, j ≠ i → alGet (alPut g.maps_to i a) j = alGet g.maps_to j)) ∧
    (∀ err, (set_mapping g i a).2 = .error err ↔
       ∃ old, alGet g.maps_to i = some old ∧ old ≠ a ∧
         err = .MappingAlreadyExists i old a) := by
  have hei : expect_impl_node g i = .ok () := by simp [expect_impl_node, hi]
  have hea : expect_arch_node g a = .ok () := by simp [expect_arch_node, ha]
  refine ⟨?_, ?_, ?_, ?_⟩
  · intro old hold hne
    simp [set_mapping, hei, hea, hold, hne]
  · intro hold
    simp [set_mapping, hei, hea, hold]
  · intro hnone
    refine ⟨by simp [set_mapping, hei, hea, hnone], alGet_alPut_self _ _ _, ?_⟩
    intro j hj
    exact alGet_alPut_ne _ _ _ _ hj
  · intro err
    constructor
    · intro herr
      cases hold : alGet g.maps_to i with
      | none => simp [set_mapping, hei, hea, hold] at herr
      | some old =>
        by_cases hne : old = a
        · simp [set_mapping, hei, hea, hold, hne] at herr
        · simp [set_mapping, hei, hea, hold, hne] at herr
          exact ⟨old, rfl, hne, herr.symm⟩
    · rintro ⟨old, hold, hne, rfl⟩
      simp [set_mapping, hei, hea, hold, hne]

theorem claim_C9_witness :
    set_mapping mappingWitnessGraph 0 2 =
      (mappingWitnessGraph, .error (.MappingAlreadyExists 0 1 2)) ∧
    set_mapping mappingWitnessGraph 0 1 = (mappingWitnessGraph, .ok ()) := by
  obtain ⟨h1, h2, _, _⟩ :=
    claim_C9 mappingWitnessGraph 0 2 rfl rfl
  obtain ⟨_, h2b, _, _⟩ :=
    claim_C9 mappingWitnessGraph 0 1 rfl rfl
  exact ⟨h1 1 (by decide) (by decide), h2b (by decide)⟩

/-- C10: whenever `set_mapping` returns an error (subgraph mismatch on
either argument or a mapping conflict), the graph — in particular the
mapping table — is left exactly as it was before the call. -/
theorem claim_C10 (g : ReflexionGraph) (i a : Nat) (err : GraphError)
    (herr : (set_mapping g i a).2 = .error err) :
    (set_mapping g i a).1 = g ∧ (set_mapping g i a).1.maps_to = g.maps_to := by
  unfold set_mapping at herr ⊢
  cases hei : expect_impl_node g i with
  | error e1 => simp [hei]
  | ok u =>
    cases hea : expect_arch_node g a with
    | error e2 => simp [hei, hea]
    | ok u2 =>
      cases hold : alGet g.maps_to i with
      | none => simp [hei, hea, hold] at herr
      | some old =>
        by_cases hne : old = a
        · simp [hei, hea, hold, hne] at herr
        · simp [hei, hea, hold, hne]

theorem claim_C10_witness :
    (set_mapping mappingWitnessGraph 0 2).1 = mappingWitnessGraph := by
  exact (claim_C10 mappingWitnessGraph 0 2 (.MappingAlreadyExists 0 1 2) rfl).1

/-! ### C7: find-or-create of propagated edges -/

/-- The bucket scan of `get_or_create_propagated_edge` either returns the
first propagated edge matching the wanted target and kind, or reports that
no listed edge matches. -/
theorem findPropIn_spec (g : ReflexionGraph) (ids : List Nat) (ta k : Nat)
    (hex : ∀ eid ∈ ids, ∃ e, alGet g.edges eid = some e) :
    (∃ eid e, findPropIn g ids ta k = .ok (some eid) ∧ eid ∈ ids ∧
       alGet g.edges eid = some e ∧ e.subgraph = .Propagated ∧ e.tgt = ta ∧ e.kind = k) ∨
    (findPropIn g ids ta k = .ok none ∧
       ∀ eid ∈ ids, ∀ e, alGet g.edges eid = some e →
         ¬(e.subgraph = .Propagated ∧ e.tgt = ta ∧ e.kind = k)) := by
  induction ids with
  | nil =>
    right
    exact ⟨rfl, by simp⟩
  | cons hd tl ih =>
    obtain ⟨e, he⟩ := hex hd (List.mem_cons_self hd tl)
    by_cases hm : e.subgraph = .Propagated ∧ e.tgt = ta ∧ e.kind = k
    · left
      exact ⟨hd, e, by simp [findPropIn, he, hm], List.mem_cons_self hd tl, he,
        hm.1, hm.2.1, hm.2.2⟩
    · have hstep : findPropIn g (hd :: tl) ta k = findPropIn g tl ta k := by
        simp [findPropIn, he, hm]
      rcases ih (fun x hx => hex x (List.mem_cons_of_mem hd hx)) with
        ⟨eid, e2, hfind, hmem, hl, h1, h2, h3⟩ | ⟨hfind, hnone⟩
      · left
        exact ⟨eid, e2, hstep ▸ hfind, List.mem_cons_of_mem hd hmem, hl, h1, h2, h3⟩
      · right
        refine ⟨hstep ▸ hfind, ?_⟩
        intro x hx e3 he3
        rcases List.mem_cons.mp hx with rfl | hx2
        · rw [he3] at he
          obtain rfl : e3 = e := Option.some.inj he
          exact hm
        · exact hnone x hx2 e3 he3

/-- C7: `get_or_create_propagated_edge` finds or creates exactly one
`Propagated` edge keyed by the exact (source, target, kind) triple: the
returned edge is `Propagated` with that triple (so an `Architecture` edge
with identical endpoints and kind is never returned), the graph is
unchanged when an existing propagated edge is reused, and otherwise
exactly one fresh propagated edge is appended and no propagated edge with
that key existed in the bucket. -/
theorem claim_C7 (g : ReflexionGraph) (fa ta k : Nat)
    (hex : ∀ eid ∈ archOutList g fa, ∃ e, alGet g.edges eid = some e)
    (hsrc : ∀ eid ∈ archOutList g fa, ∀ e, alGet g.edges eid = some e → e.src = fa)
    (hfa : node_subgraph g fa = .ok .Architecture)
    (hta : node_subgraph g ta = .ok .Architecture)
    (hfresh : alGet g.edges g.next_edge_id = none) :
    ∃ pid g2, get_or_create_propagated_edge g fa ta k = .ok (pid, g2) ∧
      (∃ e, alGet g2.edges pid = some e ∧ e.subgraph = .Propagated ∧
         e.src = fa ∧ e.tgt = ta ∧ e.kind = k) ∧
      ((g2 = g ∧ pid ∈ archOutList g fa) ∨
       (pid = g.next_edge_id ∧
        g2.edges = g.edges ++ [(pid, ⟨pid, fa, ta, k, .Propagated, .Undefined, 0⟩)] ∧
        ∀ eid ∈ archOutList g fa, ∀ e, alGet g.edges eid = some e →
          ¬(e.subgraph = .Propagated ∧ e.tgt = ta ∧ e.kind = k))) := by
  rcases findPropIn_spec g (archOutList g fa) ta k hex with
    ⟨eid, e, hfind, hmem, hl, h1, h2, h3⟩ | ⟨hfind, hnone⟩
  · refine ⟨eid, g, ?_, ⟨e, hl, h1, hsrc eid hmem e hl, h2, h3⟩, Or.inl ⟨rfl, hmem⟩⟩
    simp [get_or_create_propagated_edge, hfind]
  · refine ⟨g.next_edge_id,
      { g with
        edges := g.edges ++
          [(g.next_edge_id, ⟨g.next_edge_id, fa, ta, k, .Propagated, .Undefined, 0⟩)],
        arch_out := aoInsert g.arch_out fa g.next_edge_id,
        next_edge_id := g.next_edge_id + 1 }, ?_, ?_, ?_⟩
    · simp [get_or_create_propagated_edge, hfind, add_edge, hfa, hta, requiredNodeSubgraph]
    · refine ⟨⟨g.next_edge_id, fa, ta, k, .Propagated, .Undefined, 0⟩, ?_, rfl, rfl, rfl, rfl⟩
      rw [alGet_append_of_none _ hfresh]
      simp [alGet]
    · exact Or.inr ⟨rfl, rfl, hnone⟩

theorem claim_C7_witness :
    ∃ pid g2, get_or_create_propagated_edge mappingWitnessGraph 1 2 5 = .ok (pid, g2) ∧
      (∃ e, alGet g2.edges pid = some e ∧ e.subgraph = .Propagated ∧
         e.src = 1 ∧ e.tgt = 2 ∧ e.kind = 5) := by
  obtain ⟨pid, g2, ha, hb, _⟩ :=
    claim_C7 mappingWitnessGraph 1 2 5 (by simp [archOutList, alGet])
      (by simp [archOutList, alGet]) rfl rfl rfl
  exact ⟨pid, g2, ha, hb⟩

/-- C8: `finalize_architecture_states` turns every architecture edge that
is still `Specified` into `Absent` (counter zero) or `Convergent`
(positive counter) and leaves every other edge unchanged; consequently a
graph holding only an architecture edge of kind `K` ends a full run with
that edge `Absent` and counter 0. -/
theorem claim_C8 :
    (∀ g eid e, alGet g.edges eid = some e →
       ((e.subgraph = .Architecture → e.state = .Specified → e.counter = 0 →
          alGet (finalize_architecture_states g).edges eid =
            some { e with state := .Absent }) ∧
        (e.subgraph = .Architecture → e.state = .Specified → 0 < e.counter →
          alGet (finalize_architecture_states g).edges eid =
            some { e with state := .Convergent }) ∧
        (¬(e.subgraph = .Architecture ∧ e.state = .Specified) →
          alGet (finalize_architecture_states g).edges eid = some e))) ∧
    (∀ K, alGet (run_from_scratch (absenceGraph K)).edges 0 =
       some ⟨0, 0, 1, K, .Architecture, .Absent, 0⟩) := by
  constructor
  · intro g eid e hlook
    have hf : ∀ p : Nat × Edge,
        ((fun p : Nat × Edge =>
          if p.2.subgraph = SubgraphKind.Architecture then
            if p.2.state = EdgeState.Specified ∧ p.2.counter = 0 then
              (p.1, { p.2 with state := EdgeState.Absent })
            else if p.2.state = EdgeState.Specified ∧ 0 < p.2.counter then
              (p.1, { p.2 with state := EdgeState.Convergent })
            else p
          else p) p).1 = p.1 := by
      intro p
      dsimp only
      split_ifs <;> rfl
    refine ⟨?_, ?_, ?_⟩
    · intro h1 h2 h3
      have := alGet_map_keyfix_of_some hf hlook
      rw [show (finalize_architecture_states g).edges = g.edges.map _ from rfl, this]
      simp [h1, h2, h3]
    · intro h1 h2 h3
      have := alGet_map_keyfix_of_some hf hlook
      rw [show (finalize_architecture_states g).edges = g.edges.map _ from rfl, this]
      have h4 : ¬(e.counter = 0) := by omega
      simp [h1, h2, h3, h4]
    · intro h1
      have := alGet_map_keyfix_of_some hf hlook
      rw [show (finalize_architecture_states g).edges = g.edges.map _ from rfl, this]
      by_cases ha : e.subgraph = .Architecture
      · have hs : ¬(e.state = .Specified) := fun hs => h1 ⟨ha, hs⟩
        simp [ha, hs]
      · simp [ha]
  · intro K
    rfl

theorem claim_C8_witness :
    alGet (finalize_architecture_states finalizeWitnessGraph).edges 0 =
      some ⟨0, 0, 1, 4, .Architecture, .Absent, 0⟩ ∧
    alGet (finalize_architecture_states finalizeWitnessGraph).edges 1 =
      some ⟨1, 0, 1, 5, .Architecture, .Convergent, 2⟩ ∧
    alGet (finalize_architecture_states finalizeWitnessGraph).edges 2 =
      some ⟨2, 2, 3, 4, .Implementation, .Allowed, 0⟩ ∧
    alGet (run_from_scratch (absenceGraph 7)).edges 0 =
      some ⟨0, 0, 1, 7, .Architecture, .Absent, 0⟩ := by
  obtain ⟨hgen, habs⟩ := claim_C8
  obtain ⟨h1, _, _⟩ :=
    hgen finalizeWitnessGraph 0 ⟨0, 0, 1, 4, .Architecture, .Specified, 0⟩ rfl
  obtain ⟨_, h2, _⟩ :=
    hgen finalizeWitnessGraph 1 ⟨1, 0, 1, 5, .Architecture, .Specified, 2⟩ rfl
  obtain ⟨_, _, h3⟩ :=
    hgen finalizeWitnessGraph 2 ⟨2, 2, 3, 4, .Implementation, .Allowed, 0⟩ rfl
  exact ⟨h1 rfl rfl rfl, h2 rfl rfl (by decide), h3 (by decide), habs 7⟩

/-- C1: after `run_from_scratch` on the convergence graph, the
architecture edge is `Convergent` with counter 1, the implementation edge
is `Allowed`, no edge is `Divergent` or `Absent`, and `count_violations`
returns 0. -/
theorem claim_C1 (K : Nat) :
    alGet (run_from_scratch (convergenceGraph K)).edges 0 =
      some ⟨0, 0, 1, K, .Architecture, .Convergent, 1⟩ ∧
    alGet (run_from_scratch (convergenceGraph K)).edges 1 =
      some ⟨1, 2, 3, K, .Implementation, .Allowed, 0⟩ ∧
    (∀ p ∈ (run_from_scratch (convergenceGraph K)).edges,
       p.2.state ≠ .Divergent ∧ p.2.state ≠ .Absent) ∧
    count_violations (run_from_scratch (convergenceGraph K)) = 0 := by
  have hrun : run_from_scratch (convergenceGraph K) =
      { nodes := [(0, ⟨"A", .Architecture, none⟩), (1, ⟨"B", .Architecture, none⟩),
                  (2, ⟨"X", .Implementation, none⟩), (3, ⟨"Y", .Implementation, none⟩)],
        edges := [(0, ⟨0, 0, 1, K, .Architecture, .Convergent, 1⟩),
                  (1, ⟨1, 2, 3, K, .Implementation, .Allowed, 0⟩),
                  (2, ⟨2, 0, 1, K, .Propagated, .Allowed, 1⟩)],
        maps_to := [(2, 0), (3, 1)],
        arch_out := [(0, [0, 2])],
        impl_out := [(2, [1])],
        propagation_table := [(2, [1])],
        next_node_id := 4,
        next_edge_id := 3 } := by
    simp [run_from_scratch, clear_propagated_edges, init_states, implEdgeIds, processList,
      propagate_and_lift, propagate_impl_edge, get_or_create_propagated_edge, findPropIn,
      archOutList, alGet, add_edge, node_subgraph, requiredNodeSubgraph, aoInsert, alUpd,
      setEdgeState, incCounter, markConvergent, tableInsert, setInsert, findTableEntry,
      lift_exact, findArchIn, finalize_architecture_states, isPropIdIn, convergenceGraph]
  refine ⟨by rw [hrun]; rfl, by rw [hrun]; rfl, ?_, by rw [hrun]; rfl⟩
  rw [hrun]
  intro p hp
  simp at hp
  rcases hp with rfl | rfl | rfl <;> simp

theorem claim_C1_witness :
    alGet (run_from_scratch (convergenceGraph 7)).edges 0 =
      some ⟨0, 0, 1, 7, .Architecture, .Convergent, 1⟩ ∧
    count_violations (run_from_scratch (convergenceGraph 7)) = 0 ∧
    ((0, (⟨0, 0, 1, 7, .Architecture, .Convergent, 1⟩ : Edge)) ∈
        (run_from_scratch (convergenceGraph 7)).edges →
      (⟨0, 0, 1, 7, .Architecture, .Convergent, 1⟩ : Edge).state ≠ .Divergent) := by
  refine ⟨(claim_C1 7).1, (claim_C1 7).2.2.2, ?_⟩
  intro hmem
  exact ((claim_C1 7).2.2.1 _ hmem).1

theorem alGet_filterKeyEq_none {α : Type} (l : List (Nat × α)) (k : Nat) :
    alGet (l.filter (fun p => decide (p.1 ≠ k))) k = none := by
  induction l with
  | nil => simp [alGet]
  | cons hd tl ih =>
    obtain ⟨k1, v1⟩ := hd
    by_cases hk : k1 = k
    · subst hk
      simpa using ih
    · have hp : (decide ((k1, v1).1 ≠ k) : Bool) = true := by simp [hk]
      simp only [List.filter_cons, hp, if_true]
      simp [alGet, hk]
      simpa using ih

/-- Appending a non-propagated entry to the edge arena does not change
which ids look like propagated edges (lookup prefers earlier entries). -/
theorem isPropIdIn_append (edges : List (Nat × Edge)) (eid : Nat) (e2 : Edge)
    (hsub : e2.subgraph ≠ .Propagated) (x : Nat) :
    isPropIdIn (edges ++ [(eid, e2)]) x = isPropIdIn edges x := by
  unfold isPropIdIn
  cases hx : alGet edges x with
  | some v => rw [alGet_append_of_some hx]
  | none =>
    rw [alGet_append_of_none _ hx]
    by_cases hex : eid = x
    · simp [alGet, hex, hsub]
    · simp [alGet, hex]

/-- Dropping one non-propagated entry from the edge arena does not change
which ids look like propagated edges. -/
theorem isPropIdIn_removeKey (edges : List (Nat × Edge)) (eid : Nat) (e : Edge)
    (hlook : alGet edges eid = some e)
    (hsub : e.subgraph ≠ .Propagated) (x : Nat) :
    isPropIdIn (edges.filter (fun p => decide (p.1 ≠ eid))) x = isPropIdIn edges x := by
  unfold isPropIdIn
  by_cases hx : x = eid
  · subst hx
    rw [alGet_filterKeyEq_none, hlook]
    simp [hsub]
  · rw [alGet_filterKeyNe _ _ _ hx]

/-- Field-wise extensionality for the graph record. -/
theorem rgraph_fields_eq {a b : ReflexionGraph}
    (h1 : a.nodes = b.nodes) (h2 : a.edges = b.edges) (h3 : a.maps_to = b.maps_to)
    (h4 : a.arch_out = b.arch_out) (h5 : a.impl_out = b.impl_out)
    (h6 : a.propagation_table = b.propagation_table)
    (h7 : a.next_node_id = b.next_node_id) (h8 : a.next_edge_id = b.next_edge_id) :
    a = b := by
  cases a
  cases b
  simp_all

/-- Adding an implementation edge to the arena commutes with clearing
propagated edges, at the level of explicit records. -/
theorem clear_add_record (g : ReflexionGraph) (e : Edge) (hsub : e.subgraph = .Implementation) :
    clear_propagated_edges
      { g with
        edges := g.edges ++ [(g.next_edge_id, { e with id := g.next_edge_id })],
        arch_out := if e.subgraph = .Implementation then g.arch_out
                    else aoInsert g.arch_out e.src g.next_edge_id,
        impl_out := if e.subgraph = .Implementation then aoInsert g.impl_out e.src g.next_edge_id
                    else g.impl_out,
        next_edge_id := g.next_edge_id + 1 } =
    { clear_propagated_edges g with
      edges := (clear_propagated_edges g).edges ++
        [((clear_propagated_edges g).next_edge_id,
           { e with id := (clear_propagated_edges g).next_edge_id })],
      arch_out := if e.subgraph = .Implementation then (clear_propagated_edges g).arch_out
                  else aoInsert (clear_propagated_edges g).arch_out e.src
                         (clear_propagated_edges g).next_edge_id,
      impl_out := if e.subgraph = .Implementation then
                    aoInsert (clear_propagated_edges g).impl_out e.src
                      (clear_propagated_edges g).next_edge_id
                  else (clear_propagated_edges g).impl_out,
      next_edge_id := (clear_propagated_edges g).next_edge_id + 1 } := by
  have hne : ({ e with id := g.next_edge_id } : Edge).subgraph ≠ .Propagated := by
    simp [hsub]
  apply rgraph_fields_eq
  · rfl
  · show (g.edges ++ [(g.next_edge_id, { e with id := g.next_edge_id })]).filter
        (fun p => decide (p.2.subgraph ≠ .Propagated)) =
      g.edges.filter (fun p => decide (p.2.subgraph ≠ .Propagated)) ++
        [(g.next_edge_id, { e with id := g.next_edge_id })]
    rw [List.filter_append]
    congr 1
    simp [hsub]
  · rfl
  · show (if e.subgraph = .Implementation then g.arch_out
        else aoInsert g.arch_out e.src g.next_edge_id).map
        (fun b => (b.1, b.2.filter (fun eid =>
          !(isPropIdIn (g.edges ++ [(g.next_edge_id, { e with id := g.next_edge_id })]) eid)))) =
      if e.subgraph = .Implementation then
        g.arch_out.map (fun b => (b.1, b.2.filter (fun eid => !(isPropIdIn g.edges eid))))
      else aoInsert (g.arch_out.map
        (fun b => (b.1, b.2.filter (fun eid => !(isPropIdIn g.edges eid))))) e.src g.next_edge_id
    rw [if_pos hsub, if_pos hsub]
    have hfun : (fun eid =>
        !(isPropIdIn (g.edges ++ [(g.next_edge_id, { e with id := g.next_edge_id })]) eid)) =
        (fun eid => !(isPropIdIn g.edges eid)) := by
      funext x
      rw [isPropIdIn_append _ _ _ hne x]
    rw [hfun]
  · show (if e.subgraph = .Implementation then aoInsert g.impl_out e.src g.next_edge_id
        else g.impl_out) =
      if e.subgraph = .Implementation then aoInsert g.impl_out e.src g.next_edge_id
      else g.impl_out
    rfl
  · rfl
  · rfl
  · rfl

/-- Adding an implementation edge commutes with clearing propagated
edges: the fresh handle agrees and the resulting graphs are equal. -/
theorem clear_add_impl_comm (g : ReflexionGraph) (e : Edge) (eid : Nat) (g2 : ReflexionGraph)
    (hsub : e.subgraph = .Implementation)
    (hadd : add_edge (clear_propagated_edges g) e = .ok (eid, g2)) :
    ∃ g1, add_edge g e = .ok (eid, g1) ∧ clear_propagated_edges g1 = g2 := by
  have hsrcn : node_subgraph (clear_propagated_edges g) e.src = node_subgraph g e.src := rfl
  have htgtn : node_subgraph (clear_propagated_edges g) e.tgt = node_subgraph g e.tgt := rfl
  unfold add_edge at hadd ⊢
  rw [hsrcn, htgtn] at hadd
  cases hs : node_subgraph g e.src with
  | error err => rw [hs] at hadd; simp at hadd
  | ok ssg =>
    rw [hs] at hadd
    cases ht : node_subgraph g e.tgt with
    | error err => rw [ht] at hadd; simp at hadd
    | ok tsg =>
      rw [ht] at hadd
      dsimp only at hadd ⊢
      by_cases h1 : ssg = requiredNodeSubgraph e.subgraph
      · by_cases h2 : tsg = requiredNodeSubgraph e.subgraph
        · rw [if_pos h1, if_pos h2] at hadd
          obtain ⟨heid, hg2⟩ := Prod.mk.inj (Except.ok.inj hadd)
          have heid2 : eid = g.next_edge_id :=
            heid.symm.trans (rfl : (clear_propagated_edges g).next_edge_id = g.next_edge_id)
          subst heid2
          rw [if_pos h1, if_pos h2]
          refine ⟨_, rfl, ?_⟩
          rw [← hg2]
          exact clear_add_record g e hsub
        · rw [if_pos h1, if_neg h2] at hadd; simp at hadd
      · rw [if_neg h1] at hadd; simp at hadd

/-- Removing an implementation edge commutes with clearing propagated
edges, at the level of explicit records. -/
theorem clear_remove_record (g : ReflexionGraph) (eid : Nat) (e : Edge)
    (hlook : alGet g.edges eid = some e) (hsub : e.subgraph = .Implementation) :
    clear_propagated_edges
      { g with
        edges := g.edges.filter (fun p => decide (p.1 ≠ eid)),
        impl_out := alUpd g.impl_out e.src (fun v => v.filter (fun x => decide (x ≠ eid))) } =
    removeImplEdge (clear_propagated_edges g) eid := by
  have hlook2 : alGet (clear_propagated_edges g).edges eid = some e := by
    show alGet (g.edges.filter _) eid = some e
    exact alGet_filter_of_some hlook (by simp [hsub])
  unfold removeImplEdge
  rw [hlook2]
  apply rgraph_fields_eq
  · rfl
  · show (g.edges.filter (fun p => decide (p.1 ≠ eid))).filter
        (fun p => decide (p.2.subgraph ≠ .Propagated)) =
      (g.edges.filter (fun p => decide (p.2.subgraph ≠ .Propagated))).filter
        (fun p => decide (p.1 ≠ eid))
    rw [List.filter_filter, List.filter_filter]
    congr 1
    funext p
    exact Bool.and_comm _ _
  · rfl
  · show g.arch_out.map (fun b => (b.1, b.2.filter (fun x =>
        !(isPropIdIn (g.edges.filter (fun p => decide (p.1 ≠ eid))) x)))) =
      g.arch_out.map (fun b => (b.1, b.2.filter (fun x => !(isPropIdIn g.edges x))))
    have hfun : (fun x => !(isPropIdIn (g.edges.filter (fun p => decide (p.1 ≠ eid))) x)) =
        (fun x => !(isPropIdIn g.edges x)) := by
      funext x
      rw [isPropIdIn_removeKey _ _ _ hlook (by simp [hsub]) x]
    rw [hfun]
  · rfl
  · rfl
  · rfl
  · rfl

/-- C2: the naive incremental updater matches a fresh construction plus a
single full run.  Adding: `add_impl_edge_and_recompute g e` returns the
same handle and exactly the same graph as adding `e` to the
propagated-edge-free construction of `g` and calling `run_from_scratch`
once.  Removing: `remove_impl_edge_and_recompute g eid` returns exactly
the graph obtained by constructing `g` without that edge and running
once. -/
theorem claim_C2 :
    (∀ g e eid g2, e.subgraph = .Implementation →
       add_edge (clear_propagated_edges g) e = .ok (eid, g2) →
       add_impl_edge_and_recompute g e = (run_from_scratch g2, .ok eid)) ∧
    (∀ g eid e, alGet g.edges eid = some e → e.subgraph = .Implementation →
       remove_impl_edge_and_recompute g eid =
         (run_from_scratch (removeImplEdge (clear_propagated_edges g) eid), .ok ())) := by
  constructor
  · intro g e eid g2 hsub hadd
    obtain ⟨g1, hadd1, hclear⟩ := clear_add_impl_comm g e eid g2 hsub hadd
    unfold add_impl_edge_and_recompute
    rw [if_pos hsub, hadd1]
    dsimp only
    rw [hclear]
  · intro g eid e hlook hsub
    unfold remove_impl_edge_and_recompute
    rw [hlook]
    dsimp only
    rw [if_pos hsub, clear_remove_record g eid e hlook hsub]

theorem claim_C2_witness :
    add_impl_edge_and_recompute deltaWitnessGraph ⟨0, 0, 1, 2, .Implementation, .Undefined, 0⟩ =
      (run_from_scratch deltaWitnessAdded, .ok 0) ∧
    remove_impl_edge_and_recompute deltaWitnessAdded 0 =
      (run_from_scratch (removeImplEdge (clear_propagated_edges deltaWitnessAdded) 0), .ok ()) := by
  constructor
  · exact claim_C2.1 deltaWitnessGraph _ 0 deltaWitnessAdded rfl rfl
  · exact claim_C2.2 deltaWitnessAdded 0 _ rfl rfl

/-! ### Generic association-list facts -/

theorem alGet_mem {α : Type} {l : List (Nat × α)} {k : Nat} {v : α}
    (h : alGet l k = some v) : (k, v) ∈ l := by
  induction l with
  | nil => simp [alGet] at h
  | cons hd tl ih =>
    obtain ⟨k1, v1⟩ := hd
    by_cases hk : k1 = k
    · subst hk
      simp [alGet] at h
      simp [h]
    · simp [alGet, hk] at h
      exact List.mem_cons_of_mem _ (ih h)

theorem alGet_none_of_bound {α : Type} {l : List (Nat × α)} {n k : Nat}
    (hb : ∀ p ∈ l, p.1 < n) (hk : n ≤ k) : alGet l k = none := by
  cases hget : alGet l k with
  | none => rfl
  | some v =>
    have := hb _ (alGet_mem hget)
    omega

theorem alGet_of_mem_nodup {α : Type} {l : List (Nat × α)} {k : Nat} {v : α}
    (hmem : (k, v) ∈ l) (hnd : (l.map Prod.fst).Nodup) : alGet l k = some v := by
  induction l with
  | nil => simp at hmem
  | cons hd tl ih =>
    obtain ⟨k1, v1⟩ := hd
    rcases List.mem_cons.mp hmem with heq | htl
    · obtain ⟨rfl, rfl⟩ := Prod.mk.inj heq.symm
      simp [alGet]
    · rw [List.map_cons, List.nodup_cons] at hnd
      have hk : k1 ≠ k := by
        intro h
        subst h
        exact hnd.1 (List.mem_map.mpr ⟨(k1, v), htl, rfl⟩)
      simp [alGet, hk]
      exact ih htl hnd.2

theorem alUpd_of_forall_ne {α : Type} (l : List (Nat × α)) (k : Nat) (f : α → α)
    (h : ∀ p ∈ l, p.1 ≠ k) : alUpd l k f = l := by
  unfold alUpd
  conv_rhs => rw [← List.map_id l]
  exact List.map_congr_left (fun p hp => by simp [h p hp])

theorem alUpd_append {α : Type} (l1 l2 : List (Nat × α)) (k : Nat) (f : α → α) :
    alUpd (l1 ++ l2) k f = alUpd l1 k f ++ alUpd l2 k f := by
  simp [alUpd]

/-! ### Facts about the characterization pieces -/

theorem persistEdge_key (g : ReflexionGraph) (l : List Nat) (p : Nat × Edge) :
    (persistEdge g l p).1 = p.1 := by
  unfold persistEdge
  split_ifs <;> rfl

theorem persistEdge_subgraph (g : ReflexionGraph) (l : List Nat) (p : Nat × Edge) :
    (persistEdge g l p).2.subgraph = p.2.subgraph := by
  unfold persistEdge
  split_ifs <;> rfl

theorem persistEdge_tgt (g : ReflexionGraph) (l : List Nat) (p : Nat × Edge) :
    (persistEdge g l p).2.tgt = p.2.tgt := by
  unfold persistEdge
  split_ifs <;> rfl

theorem persistEdge_kind (g : ReflexionGraph) (l : List Nat) (p : Nat × Edge) :
    (persistEdge g l p).2.kind = p.2.kind := by
  unfold persistEdge
  split_ifs <;> rfl

theorem persistEdge_src (g : ReflexionGraph) (l : List Nat) (p : Nat × Edge) :
    (persistEdge g l p).2.src = p.2.src := by
  unfold persistEdge
  split_ifs <;> rfl

theorem mem_firstOccs {x : Triple} {l : List Triple} : x ∈ firstOccs l ↔ x ∈ l := by
  suffices h : ∀ acc, x ∈ l.foldl (fun acc a => if a ∈ acc then acc else acc ++ [a]) acc ↔
      x ∈ acc ∨ x ∈ l by
    simpa [firstOccs] using h []
  induction l with
  | nil => intro acc; simp
  | cons hd tl ih =>
    intro acc
    simp only [List.foldl_cons]
    by_cases hh : hd ∈ acc
    · rw [if_pos hh, ih acc]
      constructor
      · rintro (h | h)
        · exact Or.inl h
        · exact Or.inr (List.mem_cons_of_mem _ h)
      · rintro (h | h)
        · exact Or.inl h
        · rcases List.mem_cons.mp h with rfl | h2
          · exact Or.inl hh
          · exact Or.inr h2
    · rw [if_neg hh, ih (acc ++ [hd])]
      constructor
      · rintro (h | h)
        · rcases List.mem_append.mp h with h1 | h1
          · exact Or.inl h1
          · simp only [List.mem_singleton] at h1
            subst h1
            exact Or.inr (List.mem_cons_self _ _)
        · exact Or.inr (List.mem_cons_of_mem _ h)
      · rintro (h | h)
        · exact Or.inl (List.mem_append.mpr (Or.inl h))
        · rcases List.mem_cons.mp h with rfl | h2
          · exact Or.inl (List.mem_append.mpr (Or.inr (by simp)))
          · exact Or.inr h2

theorem nodup_firstOccs (l : List Triple) : (firstOccs l).Nodup := by
  suffices h : ∀ acc : List Triple, acc.Nodup →
      (l.foldl (fun acc a => if a ∈ acc then acc else acc ++ [a]) acc).Nodup by
    exact h [] List.nodup_nil
  induction l with
  | nil => intro acc hacc; simpa
  | cons hd tl ih =>
    intro acc hacc
    simp only [List.foldl_cons]
    by_cases hh : hd ∈ acc
    · rw [if_pos hh]
      exact ih acc hacc
    · rw [if_neg hh]
      refine ih _ ?_
      rw [List.nodup_append]
      exact ⟨hacc, List.nodup_singleton _, by simpa using hh⟩

theorem firstOccs_append_mem {l : List Triple} {x : Triple} (h : x ∈ firstOccs l) :
    firstOccs (l ++ [x]) = firstOccs l := by
  unfold firstOccs at h ⊢
  rw [List.foldl_append]
  simp [h]

theorem firstOccs_append_not_mem {l : List Triple} {x : Triple} (h : ¬ x ∈ firstOccs l) :
    firstOccs (l ++ [x]) = firstOccs l ++ [x] := by
  unfold firstOccs at h ⊢
  rw [List.foldl_append]
  simp [h]

theorem propsFrom_append (n : Nat) (ts : List Triple) (t : Triple) :
    propsFrom n (ts ++ [t]) = propsFrom n ts ++ [(n + ts.length, t)] := by
  induction ts generalizing n with
  | nil => simp [propsFrom]
  | cons hd tl ih =>
    simp only [List.cons_append, propsFrom, List.append_eq, ih (n + 1), List.length_cons]
    have hn : n + 1 + tl.length = n + (tl.length + 1) := by omega
    rw [hn]

theorem propsFrom_key_bound {n : Nat} {ts : List Triple} {q : Nat × Triple}
    (h : q ∈ propsFrom n ts) : n ≤ q.1 ∧ q.1 < n + ts.length := by
  induction ts generalizing n with
  | nil => simp [propsFrom] at h
  | cons hd tl ih =>
    simp only [propsFrom, List.mem_cons] at h
    rcases h with rfl | h
    · simp
    · have := ih h
      simp only [List.length_cons]
      omega

theorem propsFrom_mem_triple {n : Nat} {ts : List Triple} {q : Nat × Triple}
    (h : q ∈ propsFrom n ts) : q.2 ∈ ts := by
  induction ts generalizing n with
  | nil => simp [propsFrom] at h
  | cons hd tl ih =>
    simp only [propsFrom, List.mem_cons] at h
    rcases h with rfl | h
    · simp
    · exact List.mem_cons_of_mem _ (ih h)

theorem propsFrom_keys_nodup (n : Nat) (ts : List Triple) :
    ((propsFrom n ts).map Prod.fst).Nodup := by
  induction ts generalizing n with
  | nil => simp [propsFrom]
  | cons hd tl ih =>
    simp only [propsFrom, List.map_cons, List.nodup_cons]
    refine ⟨?_, ih (n + 1)⟩
    intro hmem
    obtain ⟨q, hq, hq1⟩ := List.mem_map.mp hmem
    have := propsFrom_key_bound hq
    omega

theorem aoInsert_bucket (ao : List (Nat × List Nat)) (k id x : Nat) :
    (alGet (aoInsert ao k id) x).getD [] =
      if x = k then (alGet ao x).getD [] ++ [id] else (alGet ao x).getD [] := by
  unfold aoInsert
  by_cases hs : (alGet ao k).isSome
  · obtain ⟨v, hv⟩ := Option.isSome_iff_exists.mp hs
    rw [if_pos hs]
    by_cases hx : x = k
    · subst hx
      rw [alGet_alUpd_of_some _ hv, hv]
      simp
    · rw [alGet_alUpd_ne _ hx, if_neg hx]
  · have hn : alGet ao k = none := by
      cases h : alGet ao k
      · rfl
      · simp [h] at hs
    rw [if_neg hs]
    by_cases hx : x = k
    · subst hx
      rw [alGet_append_of_none _ hn, hn]
      simp [alGet]
    · rw [if_neg hx]
      cases h2 : alGet ao x with
      | some v => rw [alGet_append_of_some h2]
      | none =>
        rw [alGet_append_of_none _ h2]
        have hkx : k ≠ x := fun h => hx h.symm
        simp [alGet, hkx, h2]

theorem archOut_foldl (ps : List (Nat × Triple)) (ao : List (Nat × List Nat)) (x : Nat) :
    (alGet (ps.foldl (fun ao q => aoInsert ao q.2.1 q.1) ao) x).getD [] =
      (alGet ao x).getD [] ++ (ps.filter (fun q => decide (q.2.1 = x))).map Prod.fst := by
  induction ps generalizing ao with
  | nil => simp
  | cons q r ih =>
    simp only [List.foldl_cons]
    rw [ih]
    by_cases hq : q.2.1 = x
    · rw [aoInsert_bucket]
      rw [if_pos hq.symm]
      have : (q :: r).filter (fun q2 => decide (q2.2.1 = x)) =
          q :: r.filter (fun q2 => decide (q2.2.1 = x)) := by
        simp [List.filter_cons, hq]
      rw [this, List.map_cons, List.append_assoc]
      rfl
    · rw [aoInsert_bucket]
      have hxq : ¬ x = q.2.1 := fun h => hq h.symm
      rw [if_neg hxq]
      have : (q :: r).filter (fun q2 => decide (q2.2.1 = x)) =
          r.filter (fun q2 => decide (q2.2.1 = x)) := by
        simp [List.filter_cons, hq]
      rw [this]

/-! ### Lookups into the built graph -/

theorem builtGraph_edges_lookup_persist (g : ReflexionGraph) (l : List Nat) {j : Nat} {e : Edge}
    (hj : alGet g.edges j = some e) :
    alGet (builtGraph g l).edges j = some (persistEdge g l (j, e)).2 := by
  show alGet (g.edges.map (persistEdge g l) ++ _) j = _
  have h1 : alGet (g.edges.map (persistEdge g l)) j = some (persistEdge g l (j, e)).2 :=
    alGet_map_keyfix_of_some (persistEdge_key g l) hj
  exact alGet_append_of_some h1

theorem builtGraph_edges_lookup_prop (g : ReflexionGraph) (l : List Nat) {pid : Nat} {t : Triple}
    (hq : (pid, t) ∈ propsOf g l)
    (hlt : ∀ p ∈ g.edges, p.1 < g.next_edge_id) :
    alGet (builtGraph g l).edges pid = some (mkPropEdge g l pid t) := by
  show alGet (g.edges.map (persistEdge g l) ++
    (propsOf g l).map (fun q => (q.1, mkPropEdge g l q.1 q.2))) pid = _
  have h1 : alGet (g.edges.map (persistEdge g l)) pid = none := by
    refine alGet_none_of_bound ?_ (propsFrom_key_bound hq).1
    intro p hp
    obtain ⟨p0, hp0, rfl⟩ := List.mem_map.mp hp
    rw [persistEdge_key]
    exact hlt p0 hp0
  rw [alGet_append_of_none _ h1]
  refine alGet_of_mem_nodup (List.mem_map.mpr ⟨(pid, t), hq, rfl⟩) ?_
  have h2 : ((propsOf g l).map (fun q => (q.1, mkPropEdge g l q.1 q.2))).map Prod.fst =
      (propsOf g l).map Prod.fst := by
    rw [List.map_map]
    rfl
  rw [h2]
  exact propsFrom_keys_nodup _ _

theorem builtGraph_archOutList (g : ReflexionGraph) (l : List Nat) (x : Nat) :
    archOutList (builtGraph g l) x =
      archOutList g x ++ ((propsOf g l).filter (fun q => decide (q.2.1 = x))).map Prod.fst := by
  show (alGet ((propsOf g l).foldl (fun ao q => aoInsert ao q.2.1 q.1) g.arch_out) x).getD [] = _
  exact archOut_foldl _ _ _

/-! ### Scan lemmas -/

theorem findPropIn_append_skip (g : ReflexionGraph) (ids1 ids2 : List Nat) (ta k : Nat)
    (h : ∀ eid ∈ ids1, ∃ e, alGet g.edges eid = some e ∧
       ¬(e.subgraph = .Propagated ∧ e.tgt = ta ∧ e.kind = k)) :
    findPropIn g (ids1 ++ ids2) ta k = findPropIn g ids2 ta k := by
  induction ids1 with
  | nil => rfl
  | cons hd tl ih =>
    obtain ⟨e, he, hnm⟩ := h hd (List.mem_cons_self hd tl)
    simp only [List.cons_append, findPropIn, he, if_neg hnm]
    exact ih (fun x hx => h x (List.mem_cons_of_mem hd hx))

theorem findPropIn_props_none (g2 : ReflexionGraph) (ps : List (Nat × Triple)) (ta k : Nat)
    (hlook : ∀ q ∈ ps, ∃ st c, alGet g2.edges q.1 =
       some ⟨q.1, q.2.1, q.2.2.1, q.2.2.2, .Propagated, st, c⟩)
    (hnm : ∀ q ∈ ps, ¬(q.2.2.1 = ta ∧ q.2.2.2 = k)) :
    findPropIn g2 (ps.map Prod.fst) ta k = .ok none := by
  induction ps with
  | nil => rfl
  | cons q r ih =>
    obtain ⟨st, c, hq⟩ := hlook q (List.mem_cons_self q r)
    have hq2 := hnm q (List.mem_cons_self q r)
    simp only [List.map_cons, findPropIn, hq]
    rw [if_neg (by simp [hq2])]
    exact ih (fun x hx => hlook x (List.mem_cons_of_mem q hx))
      (fun x hx => hnm x (List.mem_cons_of_mem q hx))

theorem findPropIn_props_found (g2 : ReflexionGraph) (ps1 ps2 : List (Nat × Triple))
    (pid : Nat) (t : Triple) (ta k : Nat)
    (hlook : ∀ q ∈ ps1 ++ (pid, t) :: ps2, ∃ st c, alGet g2.edges q.1 =
       some ⟨q.1, q.2.1, q.2.2.1, q.2.2.2, .Propagated, st, c⟩)
    (hnm : ∀ q ∈ ps1, ¬(q.2.2.1 = ta ∧ q.2.2.2 = k))
    (hm1 : t.2.1 = ta) (hm2 : t.2.2 = k) :
    findPropIn g2 ((ps1 ++ (pid, t) :: ps2).map Prod.fst) ta k = .ok (some pid) := by
  induction ps1 with
  | nil =>
    obtain ⟨st, c, hq⟩ := hlook (pid, t) (by simp)
    simp only [List.nil_append, List.map_cons, findPropIn, hq]
    rw [if_pos ⟨by simp, hm1, hm2⟩]
  | cons q r ih =>
    obtain ⟨st, c, hq⟩ := hlook q (List.mem_cons_self _ _)
    have hq2 := hnm q (List.mem_cons_self _ _)
    simp only [List.cons_append, List.map_cons, findPropIn, hq]
    rw [if_neg (by simp [hq2])]
    exact ih (fun x hx => hlook x (List.mem_cons_of_mem q hx))
      (fun x hx => hnm x (List.mem_cons_of_mem q hx))

theorem findArchIn_congr (g g2 : ReflexionGraph) (ids : List Nat) (ta k : Nat)
    (h : ∀ eid ∈ ids, ∃ e1 e2, alGet g.edges eid = some e1 ∧ alGet g2.edges eid = some e2 ∧
       e2.subgraph = e1.subgraph ∧ e2.tgt = e1.tgt ∧ e2.kind = e1.kind) :
    findArchIn g2 ids ta k = .ok (findArchD g ids ta k) := by
  induction ids with
  | nil => rfl
  | cons hd tl ih =>
    obtain ⟨e1, e2, h1, h2, hs, htg, hk⟩ := h hd (List.mem_cons_self hd tl)
    simp only [findArchIn, findArchD, h1, h2]
    by_cases hc : e1.subgraph = .Architecture ∧ e1.tgt = ta ∧ e1.kind = k
    · rw [if_pos (by rw [hs, htg, hk]; exact hc), if_pos hc]
    · rw [if_neg (by rw [hs, htg, hk]; exact hc), if_neg hc]
      exact ih (fun x hx => h x (List.mem_cons_of_mem hd hx))

theorem findArchIn_append_some (g2 : ReflexionGraph) (ids1 ids2 : List Nat) (ta k x : Nat)
    (h1 : findArchIn g2 ids1 ta k = .ok (some x)) :
    findArchIn g2 (ids1 ++ ids2) ta k = .ok (some x) := by
  induction ids1 with
  | nil => simp [findArchIn] at h1
  | cons hd tl ih =>
    cases hl : alGet g2.edges hd with
    | none =>
      simp only [findArchIn, hl] at h1
      exact absurd h1 (by simp)
    | some e =>
      simp only [findArchIn, hl] at h1
      simp only [List.cons_append, findArchIn, hl]
      by_cases hc : e.subgraph = .Architecture ∧ e.tgt = ta ∧ e.kind = k
      · rw [if_pos hc] at h1
        rw [if_pos hc]
        exact h1
      · rw [if_neg hc] at h1
        rw [if_neg hc]
        exact ih h1

theorem findArchIn_append_none (g2 : ReflexionGraph) (ids1 ids2 : List Nat) (ta k : Nat)
    (h1 : findArchIn g2 ids1 ta k = .ok none) :
    findArchIn g2 (ids1 ++ ids2) ta k = findArchIn g2 ids2 ta k := by
  induction ids1 with
  | nil => rfl
  | cons hd tl ih =>
    cases hl : alGet g2.edges hd with
    | none =>
      simp only [findArchIn, hl] at h1
      exact absurd h1 (by simp)
    | some e =>
      simp only [findArchIn, hl] at h1
      simp only [List.cons_append, findArchIn, hl]
      by_cases hc : e.subgraph = .Architecture ∧ e.tgt = ta ∧ e.kind = k
      · rw [if_pos hc] at h1
        simp at h1
      · rw [if_neg hc] at h1
        rw [if_neg hc]
        exact ih h1

theorem findArchIn_props_skip (g2 : ReflexionGraph) (ids : List Nat) (ta k : Nat)
    (h : ∀ eid ∈ ids, ∃ e, alGet g2.edges eid = some e ∧ e.subgraph = .Propagated) :
    findArchIn g2 ids ta k = .ok none := by
  induction ids with
  | nil => rfl
  | cons hd tl ih =>
    obtain ⟨e, he, hs⟩ := h hd (List.mem_cons_self hd tl)
    simp only [findArchIn, he]
    rw [if_neg (by simp [hs])]
    exact ih (fun x hx => h x (List.mem_cons_of_mem hd hx))

theorem findArchD_some (g : ReflexionGraph) (ids : List Nat) (ta k aid : Nat)
    (h : findArchD g ids ta k = some aid) :
    aid ∈ ids ∧ ∃ e, alGet g.edges aid = some e ∧ e.subgraph = .Architecture ∧
      e.tgt = ta ∧ e.kind = k := by
  induction ids with
  | nil => simp [findArchD] at h
  | cons hd tl ih =>
    cases hl : alGet g.edges hd with
    | none =>
      simp only [findArchD, hl] at h
      obtain ⟨hmem, rest⟩ := ih h
      exact ⟨List.mem_cons_of_mem hd hmem, rest⟩
    | some e =>
      simp only [findArchD, hl] at h
      by_cases hc : e.subgraph = .Architecture ∧ e.tgt = ta ∧ e.kind = k
      · rw [if_pos hc] at h
        obtain rfl : hd = aid := by simpa using h
        exact ⟨List.mem_cons_self _ _, e, hl, hc.1, hc.2.1, hc.2.2⟩
      · rw [if_neg hc] at h
        obtain ⟨hmem, rest⟩ := ih h
        exact ⟨List.mem_cons_of_mem hd hmem, rest⟩

theorem find_first_key (ts1 ts2 : List (Nat × List Nat)) (pid : Nat) (s : List Nat) (i : Nat)
    (h1 : ∀ q ∈ ts1, i ∉ q.2) (h2 : i ∈ s) :
    ((ts1 ++ (pid, s) :: ts2).find? (fun p => decide (i ∈ p.2))).map (fun p => p.1) =
      some pid := by
  induction ts1 with
  | nil =>
    rw [List.nil_append, List.find?_cons_of_pos _ (by simp [h2])]
    rfl
  | cons q r ih =>
    rw [List.cons_append,
      List.find?_cons_of_neg _ (by simp [h1 q (List.mem_cons_self q r)])]
    exact ih (fun x hx => h1 x (List.mem_cons_of_mem q hx))

theorem findTableEntry_split (g2 : ReflexionGraph) (ts1 ts2 : List (Nat × List Nat))
    (pid : Nat) (s : List Nat) (i : Nat)
    (htab : g2.propagation_table = ts1 ++ (pid, s) :: ts2)
    (h1 : ∀ q ∈ ts1, i ∉ q.2) (h2 : i ∈ s) :
    findTableEntry g2 i = some pid := by
  unfold findTableEntry
  rw [htab]
  exact find_first_key ts1 ts2 pid s i h1 h2

/-! ### Worklist-extension facts -/

theorem persistEdge_impl_eq (g : ReflexionGraph) (l : List Nat) (p : Nat × Edge)
    (hsub : p.2.subgraph = .Implementation) :
    persistEdge g l p =
      if p.1 ∈ l then (p.1, { p.2 with state := verdict g p.2 }) else p := by
  unfold persistEdge
  rw [if_pos hsub]

theorem persistEdge_arch_eq (g : ReflexionGraph) (l : List Nat) (p : Nat × Edge)
    (hsub : p.2.subgraph = .Architecture) :
    persistEdge g l p =
      (p.1,
       { p.2 with
         counter := p.2.counter + liftCnt g l p.1,
         state := if liftCnt g l p.1 = 0 then p.2.state else .Convergent }) := by
  unfold persistEdge
  rw [if_neg (by simp [hsub]), if_pos hsub]

theorem mappedTriples_snoc (g : ReflexionGraph) (l : List Nat) (i : Nat) :
    mappedTriples g (l ++ [i]) =
      mappedTriples g l ++ (implTriple g i).toList := by
  unfold mappedTriples
  rw [List.filterMap_append]
  cases h : implTriple g i <;> simp [h]

theorem implTriple_elim (g : ReflexionGraph) {i : Nat} {e : Edge} {t : Triple}
    (hi : alGet g.edges i = some e) (ht : implTriple g i = some t) :
    alGet g.maps_to e.src = some t.1 ∧ alGet g.maps_to e.tgt = some t.2.1 ∧
      e.kind = t.2.2 := by
  simp only [implTriple, hi] at ht
  cases hm1 : alGet g.maps_to e.src with
  | none => rw [hm1] at ht; simp at ht
  | some a =>
    rw [hm1] at ht
    cases hm2 : alGet g.maps_to e.tgt with
    | none => rw [hm2] at ht; simp at ht
    | some b =>
      rw [hm2] at ht
      obtain rfl : (a, b, e.kind) = t := by simpa using ht
      exact ⟨rfl, rfl, rfl⟩

theorem implTriple_none_elim (g : ReflexionGraph) {i : Nat} {e : Edge}
    (hi : alGet g.edges i = some e) (ht : implTriple g i = none) :
    alGet g.maps_to e.src = none ∨
      (∃ a, alGet g.maps_to e.src = some a ∧ alGet g.maps_to e.tgt = none) := by
  simp only [implTriple, hi] at ht
  cases hm1 : alGet g.maps_to e.src with
  | none => exact Or.inl rfl
  | some a =>
    rw [hm1] at ht
    cases hm2 : alGet g.maps_to e.tgt with
    | none => exact Or.inr ⟨a, rfl, rfl⟩
    | some b => rw [hm2] at ht; simp at ht

theorem verdict_of_none (g : ReflexionGraph) {i : Nat} {e : Edge}
    (hi : alGet g.edges i = some e) (ht : implTriple g i = none) :
    verdict g e = .Unmapped := by
  unfold verdict
  rcases implTriple_none_elim g hi ht with h | ⟨a, h1, h2⟩
  · rw [h]
  · rw [h1, h2]

theorem verdict_of_some (g : ReflexionGraph) {i : Nat} {e : Edge} {t : Triple}
    (hi : alGet g.edges i = some e) (ht : implTriple g i = some t) :
    verdict g e = stOf g t := by
  obtain ⟨h1, h2, h3⟩ := implTriple_elim g hi ht
  unfold verdict
  rw [h1, h2, h3]

theorem cntT_snoc_none (g : ReflexionGraph) (l : List Nat) (i : Nat)
    (h : implTriple g i = none) (t : Triple) : cntT g (l ++ [i]) t = cntT g l t := by
  unfold cntT
  rw [mappedTriples_snoc, h]
  simp

theorem cntT_snoc_self (g : ReflexionGraph) (l : List Nat) (i : Nat) (t : Triple)
    (h : implTriple g i = some t) : cntT g (l ++ [i]) t = cntT g l t + 1 := by
  unfold cntT
  rw [mappedTriples_snoc, h, List.countP_append]
  simp

theorem cntT_snoc_other (g : ReflexionGraph) (l : List Nat) (i : Nat) (t t2 : Triple)
    (h : implTriple g i = some t) (hne : t2 ≠ t) :
    cntT g (l ++ [i]) t2 = cntT g l t2 := by
  unfold cntT
  rw [mappedTriples_snoc, h, List.countP_append]
  simp [Ne.symm hne]

theorem liftCnt_snoc_none (g : ReflexionGraph) (l : List Nat) (i : Nat)
    (h : implTriple g i = none) (a : Nat) : liftCnt g (l ++ [i]) a = liftCnt g l a := by
  unfold liftCnt
  rw [mappedTriples_snoc, h]
  simp

theorem liftCnt_snoc_miss (g : ReflexionGraph) (l : List Nat) (i : Nat) (t : Triple)
    (h : implTriple g i = some t) (a : Nat) (ha : archTarget g t ≠ some a) :
    liftCnt g (l ++ [i]) a = liftCnt g l a := by
  unfold liftCnt
  rw [mappedTriples_snoc, h, List.countP_append]
  simp [ha]

theorem liftCnt_snoc_hit (g : ReflexionGraph) (l : List Nat) (i : Nat) (t : Triple)
    (h : implTriple g i = some t) (a : Nat) (ha : archTarget g t = some a) :
    liftCnt g (l ++ [i]) a = liftCnt g l a + 1 := by
  unfold liftCnt
  rw [mappedTriples_snoc, h, List.countP_append]
  simp [ha]

theorem propsFrom_snds (n : Nat) (ts : List Triple) :
    (propsFrom n ts).map Prod.snd = ts := by
  induction ts generalizing n with
  | nil => rfl
  | cons hd tl ih => simp [propsFrom, ih]

theorem propsFrom_exists_of_mem {n : Nat} {ts : List Triple} {t : Triple} (h : t ∈ ts) :
    ∃ pid, (pid, t) ∈ propsFrom n ts := by
  induction ts generalizing n with
  | nil => simp at h
  | cons hd tl ih =>
    rcases List.mem_cons.mp h with rfl | h2
    · exact ⟨n, List.mem_cons_self _ _⟩
    · obtain ⟨pid, hp⟩ := ih h2 (n := n + 1)
      exact ⟨pid, List.mem_cons_of_mem _ hp⟩

theorem alUpd_alUpd_same {α : Type} (l : List (Nat × α)) (k : Nat) (f h : α → α) :
    alUpd (alUpd l k f) k h = alUpd l k (fun v => h (f v)) := by
  unfold alUpd
  rw [List.map_map]
  refine List.map_congr_left ?_
  intro p _
  by_cases hk : p.1 = k
  · simp [Function.comp, hk]
  · simp [Function.comp, hk]

/-! ### The effect of one more worklist element on the pre-existing edges -/

theorem persist_map_untouched (g : ReflexionGraph) (l : List Nat) (i : Nat)
    {p : Nat × Edge} (hpi : p.1 ≠ i)
    (hcnt : liftCnt g (l ++ [i]) p.1 = liftCnt g l p.1) :
    persistEdge g (l ++ [i]) p = persistEdge g l p := by
  by_cases himp : p.2.subgraph = .Implementation
  · rw [persistEdge_impl_eq _ _ _ himp, persistEdge_impl_eq _ _ _ himp]
    by_cases hm : p.1 ∈ l
    · rw [if_pos (List.mem_append_left _ hm), if_pos hm]
    · rw [if_neg (by simp [hm, hpi]), if_neg hm]
  · by_cases harch : p.2.subgraph = .Architecture
    · rw [persistEdge_arch_eq _ _ _ harch, persistEdge_arch_eq _ _ _ harch, hcnt]
    · unfold persistEdge
      rw [if_neg himp, if_neg harch, if_neg himp, if_neg harch]

theorem persist_entry_value (g : ReflexionGraph) {i : Nat} {e : Edge} {p : Nat × Edge}
    (hi : alGet g.edges i = some e) (hnd : (g.edges.map Prod.fst).Nodup)
    (hp : p ∈ g.edges) (hpi : p.1 = i) : p = (i, e) := by
  have h1 : alGet g.edges p.1 = some p.2 := alGet_of_mem_nodup (by simpa using hp) hnd
  rw [hpi, hi] at h1
  obtain rfl : e = p.2 := Option.some.inj h1
  rw [← hpi]

theorem persist_map_snoc_unmapped (g : ReflexionGraph) (l : List Nat) (i : Nat) (e : Edge)
    (hi : alGet g.edges i = some e) (hsub : e.subgraph = .Implementation) (hil : i ∉ l)
    (hnd : (g.edges.map Prod.fst).Nodup) (hnone : implTriple g i = none) :
    g.edges.map (persistEdge g (l ++ [i])) =
      alUpd (g.edges.map (persistEdge g l)) i
        (fun e2 => { e2 with state := EdgeState.Unmapped }) := by
  unfold alUpd
  rw [List.map_map]
  refine List.map_congr_left ?_
  intro p hp
  show persistEdge g (l ++ [i]) p =
    (fun q : Nat × Edge =>
      if q.1 = i then (q.1, { q.2 with state := EdgeState.Unmapped }) else q)
      (persistEdge g l p)
  by_cases hpi : p.1 = i
  · obtain rfl : p = (i, e) := persist_entry_value g hi hnd hp hpi
    rw [persistEdge_impl_eq _ _ _ hsub, persistEdge_impl_eq _ _ _ hsub]
    rw [if_pos (List.mem_append_right _ (by simp)), if_neg (by simpa using hil)]
    simp only [eq_self_iff_true, if_true]
    rw [verdict_of_none g hi hnone]
  · rw [persist_map_untouched g l i hpi (liftCnt_snoc_none g l i hnone p.1)]
    have hkey : (persistEdge g l p).1 = p.1 := persistEdge_key g l p
    simp only [hkey, if_neg hpi]

theorem persist_map_snoc_divergent (g : ReflexionGraph) (l : List Nat) (i : Nat) (e : Edge)
    (t : Triple)
    (hi : alGet g.edges i = some e) (hsub : e.subgraph = .Implementation) (hil : i ∉ l)
    (hnd : (g.edges.map Prod.fst).Nodup) (ht : implTriple g i = some t)
    (hmiss : archTarget g t = none) :
    g.edges.map (persistEdge g (l ++ [i])) =
      alUpd (g.edges.map (persistEdge g l)) i
        (fun e2 => { e2 with state := EdgeState.Divergent }) := by
  unfold alUpd
  rw [List.map_map]
  refine List.map_congr_left ?_
  intro p hp
  show persistEdge g (l ++ [i]) p =
    (fun q : Nat × Edge =>
      if q.1 = i then (q.1, { q.2 with state := EdgeState.Divergent }) else q)
      (persistEdge g l p)
  by_cases hpi : p.1 = i
  · obtain rfl : p = (i, e) := persist_entry_value g hi hnd hp hpi
    rw [persistEdge_impl_eq _ _ _ hsub, persistEdge_impl_eq _ _ _ hsub]
    rw [if_pos (List.mem_append_right _ (by simp)), if_neg (by simpa using hil)]
    simp only [eq_self_iff_true, if_true]
    rw [verdict_of_some g hi ht]
    unfold stOf
    rw [hmiss]
    simp
  · rw [persist_map_untouched g l i hpi
      (liftCnt_snoc_miss g l i t ht p.1 (by simp [hmiss]))]
    have hkey : (persistEdge g l p).1 = p.1 := persistEdge_key g l p
    simp only [hkey, if_neg hpi]

theorem persist_map_snoc_convergent (g : ReflexionGraph) (l : List Nat) (i : Nat) (e : Edge)
    (t : Triple) (aid : Nat)
    (hi : alGet g.edges i = some e) (hsub : e.subgraph = .Implementation) (hil : i ∉ l)
    (hnd : (g.edges.map Prod.fst).Nodup) (ht : implTriple g i = some t)
    (hhit : archTarget g t = some aid)
    (hanei : aid ≠ i) :
    g.edges.map (persistEdge g (l ++ [i])) =
      alUpd (alUpd (g.edges.map (persistEdge g l)) aid
        (fun e2 => { e2 with counter := e2.counter + 1, state := EdgeState.Convergent })) i
        (fun e2 => { e2 with state := EdgeState.Allowed }) := by
  unfold alUpd
  rw [List.map_map, List.map_map]
  refine List.map_congr_left ?_
  intro p hp
  show persistEdge g (l ++ [i]) p =
    (fun q : Nat × Edge =>
      if q.1 = i then (q.1, { q.2 with state := EdgeState.Allowed }) else q)
      ((fun q : Nat × Edge =>
        if q.1 = aid then
          (q.1, { q.2 with counter := q.2.counter + 1, state := EdgeState.Convergent })
        else q)
        (persistEdge g l p))
  by_cases hpi : p.1 = i
  · obtain rfl : p = (i, e) := persist_entry_value g hi hnd hp hpi
    rw [persistEdge_impl_eq _ _ _ hsub, persistEdge_impl_eq _ _ _ hsub]
    rw [if_pos (List.mem_append_right _ (by simp)), if_neg (by simpa using hil)]
    simp only [if_neg (show (i : Nat) ≠ aid from fun h => hanei h.symm), eq_self_iff_true, if_true]
    rw [verdict_of_some g hi ht]
    unfold stOf
    rw [hhit]
    simp
  · by_cases hpa : p.1 = aid
    · have harch : p.2.subgraph = .Architecture := by
        obtain ⟨_, ea, hea, hs, _, _⟩ :=
          findArchD_some g (archOutList g t.1) t.2.1 t.2.2 aid hhit
        have h1 : alGet g.edges p.1 = some p.2 := alGet_of_mem_nodup (by simpa using hp) hnd
        rw [hpa, hea] at h1
        obtain rfl : ea = p.2 := Option.some.inj h1
        exact hs
      rw [persistEdge_arch_eq _ _ _ harch, persistEdge_arch_eq _ _ _ harch]
      simp only [if_pos hpa, if_neg hpi]
      rw [hpa]
      rw [liftCnt_snoc_hit g l i t ht aid hhit]
      have hc : p.2.counter + (liftCnt g l aid + 1) = p.2.counter + liftCnt g l aid + 1 := by
        omega
      rw [hc]
      have hs2 : (if liftCnt g l aid + 1 = 0 then p.2.state else EdgeState.Convergent) =
          EdgeState.Convergent := by simp
      rw [hs2]
    · rw [persist_map_untouched g l i hpi
        (liftCnt_snoc_miss g l i t ht p.1 (by simp [hhit, Ne.symm hpa]))]
      have hkey : (persistEdge g l p).1 = p.1 := persistEdge_key g l p
      simp only [hkey, if_neg hpi, if_neg hpa]

/-! ### The step lemma: processing one more implementation edge -/

theorem builtGraph_maps (g : ReflexionGraph) (l : List Nat) :
    (builtGraph g l).maps_to = g.maps_to := rfl

theorem builtGraph_lookup_unprocessed (g : ReflexionGraph) (l : List Nat) {i : Nat} {e : Edge}
    (hi : alGet g.edges i = some e) (hsub : e.subgraph = .Implementation) (hil : i ∉ l) :
    alGet (builtGraph g l).edges i = some e := by
  rw [builtGraph_edges_lookup_persist g l hi]
  rw [persistEdge_impl_eq _ _ _ hsub, if_neg (by simpa using hil)]

theorem props_keys_ge (g : ReflexionGraph) (l : List Nat) :
    ∀ p ∈ (propsOf g l).map (fun q => (q.1, mkPropEdge g l q.1 q.2)),
      g.next_edge_id ≤ p.1 := by
  intro p hp
  obtain ⟨q, hq, rfl⟩ := List.mem_map.mp hp
  exact (propsFrom_key_bound hq).1

theorem step_unmapped (g : ReflexionGraph) (R : Ready g) (l : List Nat) (i : Nat) (e : Edge)
    (hi : alGet g.edges i = some e) (hsub : e.subgraph = .Implementation) (hil : i ∉ l)
    (hnone : implTriple g i = none) :
    (propagate_and_lift (builtGraph g l) i).1 = builtGraph g (l ++ [i]) := by
  have hiLt : i < g.next_edge_id := R.keysLt _ (alGet_mem hi)
  have hE : alGet (builtGraph g l).edges i = some e :=
    builtGraph_lookup_unprocessed g l hi hsub hil
  have hrun : propagate_impl_edge (builtGraph g l) i =
      .ok (setEdgeState (builtGraph g l) i .Unmapped) := by
    rcases implTriple_none_elim g hi hnone with hm | ⟨a, hm1, hm2⟩
    · simp [propagate_impl_edge, hE, hsub, builtGraph_maps, hm]
    · simp [propagate_impl_edge, hE, hsub, builtGraph_maps, hm1, hm2]
  have hstate : alGet (setEdgeState (builtGraph g l) i .Unmapped).edges i =
      some { e with state := .Unmapped } := by
    show alGet (alUpd (builtGraph g l).edges i
      (fun x => { x with state := EdgeState.Unmapped })) i =
      some { e with state := EdgeState.Unmapped }
    exact alGet_alUpd_of_some _ hE
  have hred : (propagate_and_lift (builtGraph g l) i).1 =
      setEdgeState (builtGraph g l) i .Unmapped := by
    unfold propagate_and_lift
    rw [hrun]
    dsimp only
    rw [hstate]
    dsimp only
    rw [if_pos rfl]
  rw [hred]
  have hprops : propsOf g (l ++ [i]) = propsOf g l := by
    unfold propsOf
    rw [mappedTriples_snoc, hnone]
    simp
  apply rgraph_fields_eq
  · rfl
  · show alUpd ((builtGraph g l).edges) i (fun e2 => { e2 with state := EdgeState.Unmapped }) =
      (builtGraph g (l ++ [i])).edges
    show alUpd (g.edges.map (persistEdge g l) ++
        (propsOf g l).map (fun q => (q.1, mkPropEdge g l q.1 q.2))) i
        (fun e2 => { e2 with state := EdgeState.Unmapped }) =
      g.edges.map (persistEdge g (l ++ [i])) ++
        (propsOf g (l ++ [i])).map (fun q => (q.1, mkPropEdge g (l ++ [i]) q.1 q.2))
    rw [alUpd_append]
    congr 1
    · exact (persist_map_snoc_unmapped g l i e hi hsub hil R.keysNodup hnone).symm
    · rw [alUpd_of_forall_ne _ _ _
        (fun p hp => by have := props_keys_ge g l p hp; omega)]
      rw [hprops]
      refine (List.map_congr_left ?_).symm
      intro q hq
      unfold mkPropEdge
      rw [cntT_snoc_none g l i hnone q.2]
  · rfl
  · show (builtGraph g l).arch_out = (builtGraph g (l ++ [i])).arch_out
    show (propsOf g l).foldl (fun ao q => aoInsert ao q.2.1 q.1) g.arch_out =
      (propsOf g (l ++ [i])).foldl (fun ao q => aoInsert ao q.2.1 q.1) g.arch_out
    rw [hprops]
  · rfl
  · show (builtGraph g l).propagation_table = (builtGraph g (l ++ [i])).propagation_table
    show (propsOf g l).map
        (fun q => (q.1, l.filter (fun j => decide (implTriple g j = some q.2)))) =
      (propsOf g (l ++ [i])).map
        (fun q => (q.1, (l ++ [i]).filter (fun j => decide (implTriple g j = some q.2))))
    rw [hprops]
    refine List.map_congr_left ?_
    intro q hq
    rw [List.filter_append]
    simp [hnone]
  · rfl
  · show g.next_edge_id + (propsOf g l).length =
      g.next_edge_id + (propsOf g (l ++ [i])).length
    rw [hprops]

/-! ### Find-or-create on the built graph -/

theorem bucket_skip (g : ReflexionGraph) (R : Ready g) (l : List Nat) (a ta k : Nat) :
    ∀ eid ∈ archOutList g a, ∃ e2, alGet (builtGraph g l).edges eid = some e2 ∧
      ¬(e2.subgraph = .Propagated ∧ e2.tgt = ta ∧ e2.kind = k) := by
  intro eid hmem
  obtain ⟨e1, he1⟩ := Option.isSome_iff_exists.mp (R.archOutEx a eid hmem)
  refine ⟨(persistEdge g l (eid, e1)).2, builtGraph_edges_lookup_persist g l he1, ?_⟩
  rintro ⟨hp, -, -⟩
  rw [persistEdge_subgraph] at hp
  exact R.noProp _ (alGet_mem he1) hp

theorem props_snds_nodup (g : ReflexionGraph) (l : List Nat) :
    ((propsOf g l).map Prod.snd).Nodup := by
  unfold propsOf
  rw [propsFrom_snds]
  exact nodup_firstOccs _

theorem props_lookup_shape (g : ReflexionGraph) (R : Ready g) (l : List Nat) :
    ∀ q ∈ propsOf g l, ∃ st c, alGet (builtGraph g l).edges q.1 =
      some ⟨q.1, q.2.1, q.2.2.1, q.2.2.2, .Propagated, st, c⟩ := by
  intro q hqm
  refine ⟨stOf g q.2, cntT g l q.2, ?_⟩
  have := builtGraph_edges_lookup_prop g l (by exact hqm) R.keysLt
  · exact this

theorem goc_reuse (g : ReflexionGraph) (R : Ready g) (l : List Nat) (t : Triple) (pid : Nat)
    (hq : (pid, t) ∈ propsOf g l) :
    get_or_create_propagated_edge (builtGraph g l) t.1 t.2.1 t.2.2 =
      .ok (pid, builtGraph g l) := by
  obtain ⟨qs1, qs2, hsplit⟩ := List.append_of_mem hq
  have hfil : (propsOf g l).filter (fun q => decide (q.2.1 = t.1)) =
      qs1.filter (fun q => decide (q.2.1 = t.1)) ++
        (pid, t) :: qs2.filter (fun q => decide (q.2.1 = t.1)) := by
    rw [hsplit, List.filter_append, List.filter_cons]
    simp
  have hsnds := props_snds_nodup g l
  rw [hsplit] at hsnds
  have htq1 : t ∉ qs1.map Prod.snd := by
    rw [List.map_append, List.map_cons] at hsnds
    have hdisj := (List.nodup_append.mp hsnds).2.2
    intro hmem
    exact hdisj hmem (List.mem_cons_self _ _)
  have hlookAll : ∀ q ∈ qs1.filter (fun q => decide (q.2.1 = t.1)) ++
      (pid, t) :: qs2.filter (fun q => decide (q.2.1 = t.1)),
      ∃ st c, alGet (builtGraph g l).edges q.1 =
        some ⟨q.1, q.2.1, q.2.2.1, q.2.2.2, .Propagated, st, c⟩ := by
    intro q hqm
    refine props_lookup_shape g R l q ?_
    rw [← hfil] at hqm
    exact List.mem_of_mem_filter hqm
  have hnm : ∀ q ∈ qs1.filter (fun q => decide (q.2.1 = t.1)),
      ¬(q.2.2.1 = t.2.1 ∧ q.2.2.2 = t.2.2) := by
    rintro q hqm ⟨hb, hc⟩
    have ha : q.2.1 = t.1 := by simpa using List.of_mem_filter hqm
    have hqt : q.2 = t := Prod.ext ha (Prod.ext hb hc)
    exact htq1 (List.mem_map.mpr ⟨q, List.mem_of_mem_filter hqm, hqt⟩)
  unfold get_or_create_propagated_edge
  rw [builtGraph_archOutList]
  rw [findPropIn_append_skip _ _ _ _ _ (bucket_skip g R l t.1 t.2.1 t.2.2)]
  rw [hfil]
  rw [findPropIn_props_found (builtGraph g l) _ _ pid t t.2.1 t.2.2 hlookAll hnm rfl rfl]

theorem goc_create (g : ReflexionGraph) (R : Ready g) (l : List Nat) (t : Triple)
    (hnot : t ∉ firstOccs (mappedTriples g l))
    (ha1 : node_subgraph g t.1 = .ok .Architecture)
    (ha2 : node_subgraph g t.2.1 = .ok .Architecture) :
    get_or_create_propagated_edge (builtGraph g l) t.1 t.2.1 t.2.2 =
      .ok ((builtGraph g l).next_edge_id,
        { builtGraph g l with
          edges := (builtGraph g l).edges ++
            [((builtGraph g l).next_edge_id,
              ⟨(builtGraph g l).next_edge_id, t.1, t.2.1, t.2.2, .Propagated, .Undefined, 0⟩)],
          arch_out := aoInsert (builtGraph g l).arch_out t.1 (builtGraph g l).next_edge_id,
          next_edge_id := (builtGraph g l).next_edge_id + 1 }) := by
  have hnm : ∀ q ∈ (propsOf g l).filter (fun q => decide (q.2.1 = t.1)),
      ¬(q.2.2.1 = t.2.1 ∧ q.2.2.2 = t.2.2) := by
    rintro q hqm ⟨hb, hc⟩
    have ha : q.2.1 = t.1 := by simpa using List.of_mem_filter hqm
    have hqt : q.2 = t := Prod.ext ha (Prod.ext hb hc)
    refine hnot ?_
    have : t ∈ (propsOf g l).map Prod.snd :=
      List.mem_map.mpr ⟨q, List.mem_of_mem_filter hqm, hqt⟩
    unfold propsOf at this
    rwa [propsFrom_snds] at this
  have hlook : ∀ q ∈ (propsOf g l).filter (fun q => decide (q.2.1 = t.1)),
      ∃ st c, alGet (builtGraph g l).edges q.1 =
        some ⟨q.1, q.2.1, q.2.2.1, q.2.2.2, .Propagated, st, c⟩ :=
    fun q hqm => props_lookup_shape g R l q (List.mem_of_mem_filter hqm)
  unfold get_or_create_propagated_edge
  rw [builtGraph_archOutList]
  rw [findPropIn_append_skip _ _ _ _ _ (bucket_skip g R l t.1 t.2.1 t.2.2)]
  rw [findPropIn_props_none (builtGraph g l) _ t.2.1 t.2.2 hlook hnm]
  have h1 : node_subgraph (builtGraph g l) t.1 = .ok SubgraphKind.Architecture := ha1
  have h2 : node_subgraph (builtGraph g l) t.2.1 = .ok SubgraphKind.Architecture := ha2
  simp [add_edge, h1, h2, requiredNodeSubgraph]

/-! ### Normalizing the edge-arena update sequences -/

theorem alUpd_keys {α : Type} (l : List (Nat × α)) (k : Nat) (f : α → α) :
    (alUpd l k f).map Prod.fst = l.map Prod.fst := by
  unfold alUpd
  rw [List.map_map]
  refine List.map_congr_left ?_
  intro p _
  by_cases hk : p.1 = k <;> simp [Function.comp, hk]

theorem alUpd_mem_bound {α : Type} (l : List (Nat × α)) (k n : Nat) (f : α → α)
    (h : ∀ p ∈ l, p.1 < n) : ∀ p ∈ alUpd l k f, p.1 < n := by
  intro p hp
  unfold alUpd at hp
  obtain ⟨p0, hp0, rfl⟩ := List.mem_map.mp hp
  have := h p0 hp0
  by_cases hk : p0.1 = k <;> simp [hk] <;> omega

theorem alUpd_mem_ge {α : Type} (l : List (Nat × α)) (k n : Nat) (f : α → α)
    (h : ∀ p ∈ l, n ≤ p.1) : ∀ p ∈ alUpd l k f, n ≤ p.1 := by
  intro p hp
  unfold alUpd at hp
  obtain ⟨p0, hp0, rfl⟩ := List.mem_map.mp hp
  have := h p0 hp0
  by_cases hk : p0.1 = k <;> simp [hk] <;> omega

theorem edges_norm4 (MAP PROPS : List (Nat × Edge)) (n pid aid i : Nat)
    (h1 : ∀ p ∈ MAP, p.1 < n) (h2 : ∀ p ∈ PROPS, n ≤ p.1)
    (hpid : n ≤ pid) (haid : aid < n) (hi : i < n)
    (f1 f2 f3 f4 : Edge → Edge) :
    alUpd (alUpd (alUpd (alUpd (MAP ++ PROPS) pid f1) aid f2) pid f3) i f4 =
      alUpd (alUpd MAP aid f2) i f4 ++ alUpd PROPS pid (fun v => f3 (f1 v)) := by
  rw [alUpd_append, alUpd_append, alUpd_append, alUpd_append]
  rw [alUpd_of_forall_ne MAP pid f1 (fun p hp => by have := h1 p hp; omega)]
  rw [alUpd_of_forall_ne (alUpd PROPS pid f1) aid f2
    (fun p hp => by have := alUpd_mem_ge PROPS pid n f1 h2 p hp; omega)]
  rw [alUpd_of_forall_ne (alUpd MAP aid f2) pid f3
    (fun p hp => by have := alUpd_mem_bound MAP aid n f2 h1 p hp; omega)]
  rw [alUpd_of_forall_ne (alUpd (alUpd PROPS pid f1) pid f3) i f4
    (fun p hp => by
      have := alUpd_mem_ge (alUpd PROPS pid f1) pid n f3
        (alUpd_mem_ge PROPS pid n f1 h2) p hp
      omega)]
  rw [alUpd_alUpd_same]

theorem edges_norm3 (MAP PROPS : List (Nat × Edge)) (n pid i : Nat)
    (h1 : ∀ p ∈ MAP, p.1 < n) (h2 : ∀ p ∈ PROPS, n ≤ p.1)
    (hpid : n ≤ pid) (hi : i < n)
    (f1 f3 f4 : Edge → Edge) :
    alUpd (alUpd (alUpd (MAP ++ PROPS) pid f1) pid f3) i f4 =
      alUpd MAP i f4 ++ alUpd PROPS pid (fun v => f3 (f1 v)) := by
  rw [alUpd_append, alUpd_append, alUpd_append]
  rw [alUpd_of_forall_ne MAP pid f1 (fun p hp => by have := h1 p hp; omega)]
  rw [alUpd_of_forall_ne MAP pid f3 (fun p hp => by have := h1 p hp; omega)]
  rw [alUpd_of_forall_ne (alUpd (alUpd PROPS pid f1) pid f3) i f4
    (fun p hp => by
      have := alUpd_mem_ge (alUpd PROPS pid f1) pid n f3
        (alUpd_mem_ge PROPS pid n f1 h2) p hp
      omega)]
  rw [alUpd_alUpd_same]

theorem map_keys_lt (g : ReflexionGraph) (l : List Nat)
    (hb : ∀ p ∈ g.edges, p.1 < g.next_edge_id) :
    ∀ p ∈ g.edges.map (persistEdge g l), p.1 < g.next_edge_id := by
  intro p hp
  obtain ⟨p0, hp0, rfl⟩ := List.mem_map.mp hp
  rw [persistEdge_key]
  exact hb p0 hp0

theorem propsFrom_length (n : Nat) (ts : List Triple) :
    (propsFrom n ts).length = ts.length := by
  induction ts generalizing n with
  | nil => rfl
  | cons hd tl ih => simp [propsFrom, ih]

theorem props_mem_firstOccs (g : ReflexionGraph) (l : List Nat) {pid : Nat} {t : Triple}
    (hq : (pid, t) ∈ propsOf g l) : t ∈ firstOccs (mappedTriples g l) :=
  propsFrom_mem_triple hq

theorem propsOf_snoc_mem (g : ReflexionGraph) (l : List Nat) (i : Nat) (t : Triple)
    (ht : implTriple g i = some t) (hmem : t ∈ firstOccs (mappedTriples g l)) :
    propsOf g (l ++ [i]) = propsOf g l := by
  unfold propsOf
  rw [mappedTriples_snoc, ht]
  show propsFrom g.next_edge_id (firstOccs (mappedTriples g l ++ [t])) = _
  rw [firstOccs_append_mem hmem]

theorem propsOf_snoc_not_mem (g : ReflexionGraph) (l : List Nat) (i : Nat) (t : Triple)
    (ht : implTriple g i = some t) (hmem : t ∉ firstOccs (mappedTriples g l)) :
    propsOf g (l ++ [i]) =
      propsOf g l ++ [(g.next_edge_id + (propsOf g l).length, t)] := by
  unfold propsOf
  rw [mappedTriples_snoc, ht]
  show propsFrom g.next_edge_id (firstOccs (mappedTriples g l ++ [t])) = _
  rw [firstOccs_append_not_mem hmem, propsFrom_append, propsFrom_length]

theorem cntT_zero_of_not_mem (g : ReflexionGraph) (l : List Nat) (t : Triple)
    (h : t ∉ firstOccs (mappedTriples g l)) : cntT g l t = 0 := by
  unfold cntT
  rw [List.countP_eq_zero]
  intro t2 hmem
  simp only [decide_eq_true_eq]
  intro heq
  subst heq
  exact h (mem_firstOccs.mpr hmem)

theorem props_triple_ne (g : ReflexionGraph) (l : List Nat) {q : Nat × Triple}
    {pid : Nat} {t : Triple}
    (hq : q ∈ propsOf g l) (hp : (pid, t) ∈ propsOf g l) (hk : q.1 ≠ pid) :
    q.2 ≠ t := by
  intro heq
  have hinj := List.inj_on_of_nodup_map (props_snds_nodup g l)
  have := hinj hq hp (by simpa using heq)
  rw [this] at hk
  exact hk rfl

theorem props_map_snoc_reuse (g : ReflexionGraph) (l : List Nat) (i : Nat) (t : Triple)
    (pid : Nat) (F : Edge → Edge)
    (ht : implTriple g i = some t) (hq : (pid, t) ∈ propsOf g l)
    (hF : F (mkPropEdge g l pid t) = mkPropEdge g (l ++ [i]) pid t) :
    alUpd ((propsOf g l).map (fun q => (q.1, mkPropEdge g l q.1 q.2))) pid F =
      (propsOf g (l ++ [i])).map (fun q => (q.1, mkPropEdge g (l ++ [i]) q.1 q.2)) := by
  rw [propsOf_snoc_mem g l i t ht (props_mem_firstOccs g l hq)]
  unfold alUpd
  rw [List.map_map]
  refine List.map_congr_left ?_
  intro q hqm
  by_cases hk : q.1 = pid
  · have hqt : q = (pid, t) := by
      have h1 : alGet (propsOf g l) q.1 = some q.2 :=
        alGet_of_mem_nodup (by simpa using hqm) (propsFrom_keys_nodup _ _)
      have h2 : alGet (propsOf g l) pid = some t :=
        alGet_of_mem_nodup hq (propsFrom_keys_nodup _ _)
      rw [hk, h2] at h1
      exact Prod.ext hk (Option.some.inj h1).symm
    rw [hqt]
    simp only [Function.comp, eq_self_iff_true, if_true]
    rw [hF]
  · simp only [Function.comp]
    rw [if_neg hk]
    have hne : q.2 ≠ t := props_triple_ne g l hqm hq hk
    unfold mkPropEdge
    rw [cntT_snoc_other g l i t q.2 ht hne]

theorem table_snoc_reuse (g : ReflexionGraph) (l : List Nat) (i : Nat) (t : Triple)
    (pid : Nat)
    (ht : implTriple g i = some t) (hq : (pid, t) ∈ propsOf g l) (hil : i ∉ l) :
    alUpd ((propsOf g l).map
        (fun q => (q.1, l.filter (fun j => decide (implTriple g j = some q.2))))) pid
        (fun s => setInsert s i) =
      (propsOf g (l ++ [i])).map
        (fun q => (q.1, (l ++ [i]).filter (fun j => decide (implTriple g j = some q.2)))) := by
  rw [propsOf_snoc_mem g l i t ht (props_mem_firstOccs g l hq)]
  unfold alUpd
  rw [List.map_map]
  refine List.map_congr_left ?_
  intro q hqm
  by_cases hk : q.1 = pid
  · have hqt : q = (pid, t) := by
      have h1 : alGet (propsOf g l) q.1 = some q.2 :=
        alGet_of_mem_nodup (by simpa using hqm) (propsFrom_keys_nodup _ _)
      have h2 : alGet (propsOf g l) pid = some t :=
        alGet_of_mem_nodup hq (propsFrom_keys_nodup _ _)
      rw [hk, h2] at h1
      exact Prod.ext hk (Option.some.inj h1).symm
    rw [hqt]
    simp only [Function.comp, eq_self_iff_true, if_true]
    have hnotin : i ∉ l.filter (fun j => decide (implTriple g j = some t)) := by
      intro hmem
      exact hil (List.mem_of_mem_filter hmem)
    unfold setInsert
    rw [if_neg hnotin, List.filter_append]
    congr 1
    simp [ht]
  · simp only [Function.comp]
    rw [if_neg hk]
    have hne : q.2 ≠ t := props_triple_ne g l hqm hq hk
    rw [List.filter_append]
    have : [i].filter (fun j => decide (implTriple g j = some q.2)) = [] := by
      simp [ht, Ne.symm hne]
    rw [this, List.append_nil]

theorem setInsert_mem_self (s : List Nat) (i : Nat) : i ∈ setInsert s i := by
  unfold setInsert
  by_cases h : i ∈ s
  · rwa [if_pos h]
  · rw [if_neg h]
    simp

theorem step_mapped_reuse (g : ReflexionGraph) (R : Ready g) (l : List Nat) (i : Nat)
    (e : Edge) (t : Triple) (pid : Nat)
    (hi : alGet g.edges i = some e) (hsub : e.subgraph = .Implementation) (hil : i ∉ l)
    (ht : implTriple g i = some t) (hq : (pid, t) ∈ propsOf g l) :
    (propagate_and_lift (builtGraph g l) i).1 = builtGraph g (l ++ [i]) := by
  obtain ⟨hm1, hm2, hk3⟩ := implTriple_elim g hi ht
  have hiLt : i < g.next_edge_id := R.keysLt _ (alGet_mem hi)
  have hpidGe : g.next_edge_id ≤ pid := (propsFrom_key_bound hq).1
  have hE : alGet (builtGraph g l).edges i = some e :=
    builtGraph_lookup_unprocessed g l hi hsub hil
  have hstU : e.state = .Undefined := R.implInit _ (alGet_mem hi) hsub
  have hprop : propagate_impl_edge (builtGraph g l) i =
      .ok (tableInsert (incCounter (builtGraph g l) pid) pid i) := by
    unfold propagate_impl_edge
    rw [hE]
    dsimp only
    rw [if_pos hsub, builtGraph_maps, hm1]
    dsimp only
    rw [hm2]
    dsimp only
    rw [hk3, goc_reuse g R l t pid hq]
  have hIl : alGet (tableInsert (incCounter (builtGraph g l) pid) pid i).edges i =
      some e := by
    show alGet (alUpd (builtGraph g l).edges pid
      (fun v => { v with counter := v.counter + 1 })) i = some e
    rw [alGet_alUpd_ne _ (by omega : i ≠ pid)]
    exact hE
  have htblGet : alGet (builtGraph g l).propagation_table pid =
      some (l.filter (fun j => decide (implTriple g j = some t))) := by
    apply alGet_of_mem_nodup
    · exact List.mem_map.mpr ⟨(pid, t), hq, rfl⟩
    · have hcomp : (((propsOf g l).map (fun q =>
          (q.1, l.filter (fun j => decide (implTriple g j = some q.2))))).map Prod.fst) =
          (propsOf g l).map Prod.fst := by
        rw [List.map_map]
        rfl
      show (((propsOf g l).map _).map Prod.fst).Nodup
      rw [hcomp]
      exact propsFrom_keys_nodup _ _
  have hg2table : (tableInsert (incCounter (builtGraph g l) pid) pid i).propagation_table =
      alUpd (builtGraph g l).propagation_table pid (fun s => setInsert s i) := by
    have h1 : (tableInsert (incCounter (builtGraph g l) pid) pid i).propagation_table =
        if (alGet (incCounter (builtGraph g l) pid).propagation_table pid).isSome then
          alUpd (incCounter (builtGraph g l) pid).propagation_table pid
            (fun s => setInsert s i)
        else (incCounter (builtGraph g l) pid).propagation_table ++ [(pid, [i])] := rfl
    rw [h1]
    rw [show (incCounter (builtGraph g l) pid).propagation_table =
      (builtGraph g l).propagation_table from rfl]
    rw [htblGet]
    simp
  obtain ⟨qs1, qs2, hsplit⟩ := List.append_of_mem hq
  have hknd := propsFrom_keys_nodup g.next_edge_id (firstOccs (mappedTriples g l))
  have hpidq1 : ∀ q ∈ qs1, q.1 ≠ pid := by
    intro q hqm heq
    have : (propsOf g l).map Prod.fst = qs1.map Prod.fst ++ pid :: qs2.map Prod.fst := by
      rw [hsplit]
      simp
    rw [show propsOf g l = propsFrom g.next_edge_id (firstOccs (mappedTriples g l))
      from rfl] at this
    rw [this] at hknd
    have hnd2 := (List.nodup_append.mp hknd).2.2
    exact hnd2 (List.mem_map.mpr ⟨q, hqm, heq⟩) (List.mem_cons_self _ _)
  have htabFind : findTableEntry (tableInsert (incCounter (builtGraph g l) pid) pid i) i =
      some pid := by
    refine findTableEntry_split _
      (qs1.map (fun q => (q.1, l.filter (fun j => decide (implTriple g j = some q.2)))))
      (qs2.map (fun q => (q.1, l.filter (fun j => decide (implTriple g j = some q.2)))))
      pid (setInsert (l.filter (fun j => decide (implTriple g j = some t))) i) i ?_ ?_
      (setInsert_mem_self _ _)
    · rw [hg2table]
      rw [show (builtGraph g l).propagation_table = (propsOf g l).map
        (fun q => (q.1, l.filter (fun j => decide (implTriple g j = some q.2)))) from rfl]
      rw [hsplit, List.map_append, List.map_cons]
      rw [alUpd_append]
      rw [alUpd_of_forall_ne _ pid _ (by
        intro p hp
        obtain ⟨q, hqm, rfl⟩ := List.mem_map.mp hp
        exact hpidq1 q hqm)]
      have hcons : alUpd ((pid, l.filter (fun j => decide (implTriple g j = some t))) ::
          qs2.map (fun q => (q.1, l.filter (fun j => decide (implTriple g j = some q.2)))))
          pid (fun s => setInsert s i) =
          (pid, setInsert (l.filter (fun j => decide (implTriple g j = some t))) i) ::
          qs2.map (fun q => (q.1, l.filter (fun j => decide (implTriple g j = some q.2)))) := by
        rw [alUpd_cons, if_pos rfl]
        congr 1
        apply alUpd_of_forall_ne
        intro p hp
        obtain ⟨q, hqm, rfl⟩ := List.mem_map.mp hp
        intro heq
        have hq2 : (propsOf g l).map Prod.fst =
            qs1.map Prod.fst ++ pid :: qs2.map Prod.fst := by
          rw [hsplit]
          simp
        rw [show propsOf g l = propsFrom g.next_edge_id (firstOccs (mappedTriples g l))
          from rfl] at hq2
        rw [hq2] at hknd
        have := ((List.nodup_append.mp hknd).2.1)
        rw [List.nodup_cons] at this
        exact this.1 (List.mem_map.mpr ⟨q, hqm, heq⟩)
      rw [hcons]
    · intro q hqm
      obtain ⟨q0, hq0, rfl⟩ := List.mem_map.mp hqm
      intro hmem
      exact hil (List.mem_of_mem_filter hmem)
  have hPl : alGet (tableInsert (incCounter (builtGraph g l) pid) pid i).edges pid =
      some ⟨pid, t.1, t.2.1, t.2.2, .Propagated, stOf g t, cntT g l t + 1⟩ := by
    show alGet (alUpd (builtGraph g l).edges pid
      (fun v => { v with counter := v.counter + 1 })) pid = _
    rw [alGet_alUpd_of_some _ (builtGraph_edges_lookup_prop g l hq R.keysLt)]
    rfl
  have hcongr : ∀ eid ∈ archOutList g t.1, ∃ e1 e2, alGet g.edges eid = some e1 ∧
      alGet (tableInsert (incCounter (builtGraph g l) pid) pid i).edges eid = some e2 ∧
      e2.subgraph = e1.subgraph ∧ e2.tgt = e1.tgt ∧ e2.kind = e1.kind := by
    intro eid hmem
    obtain ⟨e1, he1⟩ := Option.isSome_iff_exists.mp (R.archOutEx t.1 eid hmem)
    have heidLt : eid < g.next_edge_id := R.keysLt _ (alGet_mem he1)
    refine ⟨e1, (persistEdge g l (eid, e1)).2, he1, ?_,
      persistEdge_subgraph g l _, persistEdge_tgt g l _, persistEdge_kind g l _⟩
    show alGet (alUpd (builtGraph g l).edges pid
      (fun v => { v with counter := v.counter + 1 })) eid = _
    rw [alGet_alUpd_ne _ (by omega : eid ≠ pid)]
    exact builtGraph_edges_lookup_persist g l he1
  have hbucketlook : ∀ eid ∈ ((propsOf g l).filter
      (fun q => decide (q.2.1 = t.1))).map Prod.fst,
      ∃ e2, alGet (tableInsert (incCounter (builtGraph g l) pid) pid i).edges eid =
        some e2 ∧ e2.subgraph = .Propagated := by
    intro eid hmem
    obtain ⟨q, hq2, rfl⟩ := List.mem_map.mp hmem
    have hq3 : q ∈ propsOf g l := List.mem_of_mem_filter hq2
    by_cases hqp : q.1 = pid
    · rw [hqp]
      exact ⟨_, hPl, rfl⟩
    · refine ⟨mkPropEdge g l q.1 q.2, ?_, rfl⟩
      show alGet (alUpd (builtGraph g l).edges pid
        (fun v => { v with counter := v.counter + 1 })) q.1 = _
      rw [alGet_alUpd_ne _ hqp]
      exact builtGraph_edges_lookup_prop g l (by simpa using hq3) R.keysLt
  have hlift : lift_exact (tableInsert (incCounter (builtGraph g l) pid) pid i)
      t.1 t.2.1 t.2.2 = .ok (archTarget g t) := by
    unfold lift_exact
    rw [show archOutList (tableInsert (incCounter (builtGraph g l) pid) pid i) t.1 =
      archOutList (builtGraph g l) t.1 from rfl]
    rw [builtGraph_archOutList]
    have hpart1 := findArchIn_congr g _ (archOutList g t.1) t.2.1 t.2.2 hcongr
    cases harch : archTarget g t with
    | some aid =>
      rw [findArchIn_append_some _ _ _ _ _ aid (by
        rw [hpart1]
        rw [show findArchD g (archOutList g t.1) t.2.1 t.2.2 = archTarget g t from rfl,
          harch])]
    | none =>
      rw [findArchIn_append_none _ _ _ _ _ (by
        rw [hpart1]
        rw [show findArchD g (archOutList g t.1) t.2.1 t.2.2 = archTarget g t from rfl,
          harch])]
      rw [findArchIn_props_skip _ _ t.2.1 t.2.2 hbucketlook]
  have hRED : (propagate_and_lift (builtGraph g l) i).1 =
      (match archTarget g t with
       | some aid => setEdgeState (setEdgeState
           (markConvergent (tableInsert (incCounter (builtGraph g l) pid) pid i) aid)
           pid .Allowed) i .Allowed
       | none => setEdgeState (setEdgeState
           (tableInsert (incCounter (builtGraph g l) pid) pid i) pid .Divergent)
           i .Divergent) := by
    unfold propagate_and_lift
    rw [hprop]
    dsimp only
    rw [hIl]
    dsimp only
    rw [if_neg (by simp [hstU])]
    rw [htabFind]
    dsimp only
    rw [hPl]
    dsimp only
    rw [hlift]
    cases harch : archTarget g t <;> dsimp only
  rw [hRED]
  cases harch : archTarget g t with
  | none =>
    apply rgraph_fields_eq
    · rfl
    · show alUpd (alUpd (alUpd ((builtGraph g l).edges) pid
        (fun v => { v with counter := v.counter + 1 })) pid
        (fun v => { v with state := EdgeState.Divergent })) i
        (fun v => { v with state := EdgeState.Divergent }) =
        (builtGraph g (l ++ [i])).edges
      rw [show (builtGraph g l).edges = g.edges.map (persistEdge g l) ++
        (propsOf g l).map (fun q => (q.1, mkPropEdge g l q.1 q.2)) from rfl]
      rw [edges_norm3 _ _ g.next_edge_id pid i (map_keys_lt g l R.keysLt)
        (props_keys_ge g l) hpidGe hiLt _ _ _]
      show _ = g.edges.map (persistEdge g (l ++ [i])) ++
        (propsOf g (l ++ [i])).map (fun q => (q.1, mkPropEdge g (l ++ [i]) q.1 q.2))
      congr 1
      · exact (persist_map_snoc_divergent g l i e t hi hsub hil R.keysNodup ht harch).symm
      · refine props_map_snoc_reuse g l i t pid _ ht hq ?_
        show ({ { mkPropEdge g l pid t with
            counter := (mkPropEdge g l pid t).counter + 1 } with
            state := EdgeState.Divergent } : Edge) = mkPropEdge g (l ++ [i]) pid t
        unfold mkPropEdge stOf
        rw [harch, cntT_snoc_self g l i t ht]
        simp
    · rfl
    · show (propsOf g l).foldl (fun ao q => aoInsert ao q.2.1 q.1) g.arch_out =
        (propsOf g (l ++ [i])).foldl (fun ao q => aoInsert ao q.2.1 q.1) g.arch_out
      rw [propsOf_snoc_mem g l i t ht (props_mem_firstOccs g l hq)]
    · rfl
    · show (tableInsert (incCounter (builtGraph g l) pid) pid i).propagation_table =
        (builtGraph g (l ++ [i])).propagation_table
      rw [hg2table]
      exact table_snoc_reuse g l i t pid ht hq hil
    · rfl
    · show g.next_edge_id + (propsOf g l).length =
        g.next_edge_id + (propsOf g (l ++ [i])).length
      rw [propsOf_snoc_mem g l i t ht (props_mem_firstOccs g l hq)]
  | some aid =>
    obtain ⟨haidmem, ea, hea, heaarch, heatgt, heakind⟩ :=
      findArchD_some g (archOutList g t.1) t.2.1 t.2.2 aid harch
    have haidLt : aid < g.next_edge_id := R.keysLt _ (alGet_mem hea)
    have hanei : aid ≠ i := by
      intro heq
      rw [heq, hi] at hea
      obtain rfl : e = ea := Option.some.inj hea
      rw [hsub] at heaarch
      exact absurd heaarch (by simp)
    apply rgraph_fields_eq
    · rfl
    · show alUpd (alUpd (alUpd (alUpd ((builtGraph g l).edges) pid
        (fun v => { v with counter := v.counter + 1 })) aid
        (fun v => { v with counter := v.counter + 1, state := EdgeState.Convergent })) pid
        (fun v => { v with state := EdgeState.Allowed })) i
        (fun v => { v with state := EdgeState.Allowed }) =
        (builtGraph g (l ++ [i])).edges
      rw [show (builtGraph g l).edges = g.edges.map (persistEdge g l) ++
        (propsOf g l).map (fun q => (q.1, mkPropEdge g l q.1 q.2)) from rfl]
      rw [edges_norm4 _ _ g.next_edge_id pid aid i (map_keys_lt g l R.keysLt)
        (props_keys_ge g l) hpidGe haidLt hiLt _ _ _ _]
      show _ = g.edges.map (persistEdge g (l ++ [i])) ++
        (propsOf g (l ++ [i])).map (fun q => (q.1, mkPropEdge g (l ++ [i]) q.1 q.2))
      congr 1
      · exact (persist_map_snoc_convergent g l i e t aid hi hsub hil R.keysNodup ht
          harch hanei).symm
      · refine props_map_snoc_reuse g l i t pid _ ht hq ?_
        show ({ { mkPropEdge g l pid t with
            counter := (mkPropEdge g l pid t).counter + 1 } with
            state := EdgeState.Allowed } : Edge) = mkPropEdge g (l ++ [i]) pid t
        unfold mkPropEdge stOf
        rw [harch, cntT_snoc_self g l i t ht]
        simp
    · rfl
    · show (propsOf g l).foldl (fun ao q => aoInsert ao q.2.1 q.1) g.arch_out =
        (propsOf g (l ++ [i])).foldl (fun ao q => aoInsert ao q.2.1 q.1) g.arch_out
      rw [propsOf_snoc_mem g l i t ht (props_mem_firstOccs g l hq)]
    · rfl
    · show (tableInsert (incCounter (builtGraph g l) pid) pid i).propagation_table =
        (builtGraph g (l ++ [i])).propagation_table
      rw [hg2table]
      exact table_snoc_reuse g l i t pid ht hq hil
    · rfl
    · show g.next_edge_id + (propsOf g l).length =
        g.next_edge_id + (propsOf g (l ++ [i])).length
      rw [propsOf_snoc_mem g l i t ht (props_mem_firstOccs g l hq)]

theorem props_map_snoc_create (g : ReflexionGraph) (l : List Nat) (i : Nat) (t : Triple)
    (ht : implTriple g i = some t) (hnot : t ∉ firstOccs (mappedTriples g l)) :
    (propsOf g (l ++ [i])).map (fun q => (q.1, mkPropEdge g (l ++ [i]) q.1 q.2)) =
      (propsOf g l).map (fun q => (q.1, mkPropEdge g l q.1 q.2)) ++
        [(g.next_edge_id + (propsOf g l).length,
          mkPropEdge g (l ++ [i]) (g.next_edge_id + (propsOf g l).length) t)] := by
  rw [propsOf_snoc_not_mem g l i t ht hnot, List.map_append]
  congr 1
  refine List.map_congr_left ?_
  intro q hqm
  have hne : q.2 ≠ t := by
    intro heq
    refine hnot ?_
    have hm : q.2 ∈ (propsOf g l).map Prod.snd := List.mem_map.mpr ⟨q, hqm, rfl⟩
    unfold propsOf at hm
    rw [propsFrom_snds] at hm
    rwa [heq] at hm
  unfold mkPropEdge
  rw [cntT_snoc_other g l i t q.2 ht hne]

theorem not_mapped_in_list (g : ReflexionGraph) (l : List Nat) (t : Triple)
    (hnot : t ∉ firstOccs (mappedTriples g l)) :
    ∀ j ∈ l, ¬ (implTriple g j = some t) := by
  intro j hj hjt
  refine hnot (mem_firstOccs.mpr ?_)
  unfold mappedTriples
  exact List.mem_filterMap.mpr ⟨j, hj, hjt⟩

theorem table_snoc_create (g : ReflexionGraph) (l : List Nat) (i : Nat) (t : Triple)
    (ht : implTriple g i = some t) (hnot : t ∉ firstOccs (mappedTriples g l)) :
    (propsOf g l).map
        (fun q => (q.1, l.filter (fun j => decide (implTriple g j = some q.2)))) ++
      [(g.next_edge_id + (propsOf g l).length, [i])] =
      (propsOf g (l ++ [i])).map
        (fun q => (q.1, (l ++ [i]).filter (fun j => decide (implTriple g j = some q.2)))) := by
  rw [propsOf_snoc_not_mem g l i t ht hnot, List.map_append]
  congr 1
  · refine List.map_congr_left ?_
    intro q hqm
    have hne : q.2 ≠ t := by
      intro heq
      refine hnot ?_
      have hm : q.2 ∈ (propsOf g l).map Prod.snd := List.mem_map.mpr ⟨q, hqm, rfl⟩
      unfold propsOf at hm
      rw [propsFrom_snds] at hm
      rwa [heq] at hm
    rw [List.filter_append]
    have h0 : [i].filter (fun j => decide (implTriple g j = some q.2)) = [] := by
      simp [ht, Ne.symm hne]
    rw [h0, List.append_nil]
  · simp only [List.map_cons, List.map_nil]
    have h1 : l.filter (fun j => decide (implTriple g j = some t)) = [] := by
      rw [List.filter_eq_nil_iff]
      intro j hj
      simpa using not_mapped_in_list g l t hnot j hj
    rw [List.filter_append, h1, List.nil_append]
    simp [ht]

theorem edges_normC3 (MAP PROPS : List (Nat × Edge)) (x : Nat × Edge) (n N i : Nat)
    (h1 : ∀ p ∈ MAP, p.1 < n) (h2 : ∀ p ∈ PROPS, n ≤ p.1 ∧ p.1 < N) (hx : x.1 = N)
    (hn : n ≤ N) (hi : i < n) (f1 f2 : Edge → Edge) :
    alUpd (alUpd (MAP ++ PROPS ++ [x]) N f1) i f2 =
      alUpd MAP i f2 ++ PROPS ++ [(x.1, f1 x.2)] := by
  simp only [alUpd_append]
  rw [alUpd_of_forall_ne MAP N f1 (fun p hp => by have := h1 p hp; omega)]
  rw [alUpd_of_forall_ne PROPS N f1 (fun p hp => by have := h2 p hp; omega)]
  rw [alUpd_of_forall_ne PROPS i f2 (fun p hp => by have := h2 p hp; omega)]
  have hsing1 : alUpd [x] N f1 = [(x.1, f1 x.2)] := by
    simp [alUpd, hx]
  rw [hsing1]
  have hsing2 : alUpd [(x.1, f1 x.2)] i f2 = [(x.1, f1 x.2)] := by
    simp [alUpd]
    intro hxi
    omega
  rw [hsing2]

theorem edges_normC4 (MAP PROPS : List (Nat × Edge)) (x : Nat × Edge) (n N aid i : Nat)
    (h1 : ∀ p ∈ MAP, p.1 < n) (h2 : ∀ p ∈ PROPS, n ≤ p.1 ∧ p.1 < N) (hx : x.1 = N)
    (hn : n ≤ N) (haid : aid < n) (hi : i < n) (f1 f2 f3 : Edge → Edge) :
    alUpd (alUpd (alUpd (MAP ++ PROPS ++ [x]) aid f1) N f2) i f3 =
      alUpd (alUpd MAP aid f1) i f3 ++ PROPS ++ [(x.1, f2 x.2)] := by
  simp only [alUpd_append]
  rw [alUpd_of_forall_ne PROPS aid f1 (fun p hp => by have := h2 p hp; omega)]
  rw [alUpd_of_forall_ne PROPS N f2 (fun p hp => by have := h2 p hp; omega)]
  rw [alUpd_of_forall_ne PROPS i f3 (fun p hp => by have := h2 p hp; omega)]
  rw [alUpd_of_forall_ne (alUpd MAP aid f1) N f2
    (fun p hp => by have := alUpd_mem_bound MAP aid n f1 h1 p hp; omega)]
  have hsing0 : alUpd [x] aid f1 = [x] := by
    simp [alUpd]
    intro hxa
    omega
  rw [hsing0]
  have hsing1 : alUpd [x] N f2 = [(x.1, f2 x.2)] := by
    simp [alUpd, hx]
  rw [hsing1]
  have hsing2 : alUpd [(x.1, f2 x.2)] i f3 = [(x.1, f2 x.2)] := by
    simp [alUpd]
    intro hxi
    omega
  rw [hsing2]

theorem step_mapped_create (g : ReflexionGraph) (R : Ready g) (l : List Nat) (i : Nat)
    (e : Edge) (t : Triple)
    (hi : alGet g.edges i = some e) (hsub : e.subgraph = .Implementation) (hil : i ∉ l)
    (ht : implTriple g i = some t) (hnot : t ∉ firstOccs (mappedTriples g l)) :
    (propagate_and_lift (builtGraph g l) i).1 = builtGraph g (l ++ [i]) := by
  obtain ⟨hm1, hm2, hk3⟩ := implTriple_elim g hi ht
  have hiLt : i < g.next_edge_id := R.keysLt _ (alGet_mem hi)
  have hstU : e.state = .Undefined := R.implInit _ (alGet_mem hi) hsub
  have hNE : (builtGraph g l).next_edge_id =
      g.next_edge_id + (propsOf g l).length := rfl
  have hlen : (propsOf g l).length = (firstOccs (mappedTriples g l)).length :=
    propsFrom_length _ _
  have hMAPlt : ∀ p ∈ g.edges.map (persistEdge g l), p.1 < g.next_edge_id :=
    map_keys_lt g l R.keysLt
  have hPROPSbd : ∀ p ∈ (propsOf g l).map (fun q => (q.1, mkPropEdge g l q.1 q.2)),
      g.next_edge_id ≤ p.1 ∧ p.1 < (builtGraph g l).next_edge_id := by
    intro p hp
    obtain ⟨q, hq, rfl⟩ := List.mem_map.mp hp
    have hb := propsFrom_key_bound hq
    rw [hNE]
    omega
  have hBlt : ∀ p ∈ (builtGraph g l).edges, p.1 < (builtGraph g l).next_edge_id := by
    intro p hp
    rcases List.mem_append.mp hp with hp1 | hp2
    · have := hMAPlt p hp1
      rw [hNE]
      omega
    · exact (hPROPSbd p hp2).2
  have ha1 : node_subgraph g t.1 = .ok SubgraphKind.Architecture := by
    have hma := R.mapsArch _ (alGet_mem hm1)
    cases hn : alGet g.nodes t.1 with
    | none =>
      rw [show ((e.src, t.1) : Nat × Nat).2 = t.1 from rfl, hn] at hma
      simp at hma
    | some nd =>
      rw [show ((e.src, t.1) : Nat × Nat).2 = t.1 from rfl, hn] at hma
      simp at hma
      simp [node_subgraph, hn, hma]
  have ha2 : node_subgraph g t.2.1 = .ok SubgraphKind.Architecture := by
    have hma := R.mapsArch _ (alGet_mem hm2)
    cases hn : alGet g.nodes t.2.1 with
    | none =>
      rw [show ((e.tgt, t.2.1) : Nat × Nat).2 = t.2.1 from rfl, hn] at hma
      simp at hma
    | some nd =>
      rw [show ((e.tgt, t.2.1) : Nat × Nat).2 = t.2.1 from rfl, hn] at hma
      simp at hma
      simp [node_subgraph, hn, hma]
  have hgoc := goc_create g R l t hnot ha1 ha2
  have hE : alGet (builtGraph g l).edges i = some e :=
    builtGraph_lookup_unprocessed g l hi hsub hil
  have hprop : propagate_impl_edge (builtGraph g l) i =
      .ok (tableInsert (incCounter
        { builtGraph g l with
          edges := (builtGraph g l).edges ++
            [((builtGraph g l).next_edge_id,
              ⟨(builtGraph g l).next_edge_id, t.1, t.2.1, t.2.2, .Propagated, .Undefined, 0⟩)],
          arch_out := aoInsert (builtGraph g l).arch_out t.1 (builtGraph g l).next_edge_id,
          next_edge_id := (builtGraph g l).next_edge_id + 1 }
        (builtGraph g l).next_edge_id) (builtGraph g l).next_edge_id i) := by
    unfold propagate_impl_edge
    rw [hE]
    dsimp only
    rw [if_pos hsub, builtGraph_maps, hm1]
    dsimp only
    rw [hm2]
    dsimp only
    rw [hk3, hgoc]
    dsimp only
    rfl
  have hG3edges : (tableInsert (incCounter
      { builtGraph g l with
        edges := (builtGraph g l).edges ++
          [((builtGraph g l).next_edge_id,
            ⟨(builtGraph g l).next_edge_id, t.1, t.2.1, t.2.2, .Propagated, .Undefined, 0⟩)],
        arch_out := aoInsert (builtGraph g l).arch_out t.1 (builtGraph g l).next_edge_id,
        next_edge_id := (builtGraph g l).next_edge_id + 1 }
      (builtGraph g l).next_edge_id) (builtGraph g l).next_edge_id i).edges =
      (builtGraph g l).edges ++
        [((builtGraph g l).next_edge_id,
          ⟨(builtGraph g l).next_edge_id, t.1, t.2.1, t.2.2, .Propagated, .Undefined, 1⟩)] := by
    show alUpd ((builtGraph g l).edges ++
      [((builtGraph g l).next_edge_id,
        ⟨(builtGraph g l).next_edge_id, t.1, t.2.1, t.2.2, .Propagated, .Undefined, 0⟩)])
      (builtGraph g l).next_edge_id (fun v => { v with counter := v.counter + 1 }) = _
    rw [alUpd_append]
    rw [alUpd_of_forall_ne _ (builtGraph g l).next_edge_id _
      (fun p hp => by have := hBlt p hp; omega)]
    congr 1
    simp [alUpd]
  have hBNone : alGet (builtGraph g l).edges (builtGraph g l).next_edge_id = none :=
    alGet_none_of_bound hBlt le_rfl
  have hIl : alGet (tableInsert (incCounter
      { builtGraph g l with
        edges := (builtGraph g l).edges ++
          [((builtGraph g l).next_edge_id,
            ⟨(builtGraph g l).next_edge_id, t.1, t.2.1, t.2.2, .Propagated, .Undefined, 0⟩)],
        arch_out := aoInsert (builtGraph g l).arch_out t.1 (builtGraph g l).next_edge_id,
        next_edge_id := (builtGraph g l).next_edge_id + 1 }
      (builtGraph g l).next_edge_id) (builtGraph g l).next_edge_id i).edges i = some e := by
    rw [hG3edges]
    exact alGet_append_of_some hE
  have hTblLt : ∀ p ∈ (builtGraph g l).propagation_table,
      p.1 < (builtGraph g l).next_edge_id := by
    intro p hp
    have hp2 : p ∈ (propsOf g l).map
        (fun q => (q.1, l.filter (fun j => decide (implTriple g j = some q.2)))) := hp
    obtain ⟨q, hq, rfl⟩ := List.mem_map.mp hp2
    have hb := propsFrom_key_bound hq
    rw [hNE]
    omega
  have htblNone : alGet (builtGraph g l).propagation_table
      (builtGraph g l).next_edge_id = none := alGet_none_of_bound hTblLt le_rfl
  have hG3table : (tableInsert (incCounter
      { builtGraph g l with
        edges := (builtGraph g l).edges ++
          [((builtGraph g l).next_edge_id,
            ⟨(builtGraph g l).next_edge_id, t.1, t.2.1, t.2.2, .Propagated, .Undefined, 0⟩)],
        arch_out := aoInsert (builtGraph g l).arch_out t.1 (builtGraph g l).next_edge_id,
        next_edge_id := (builtGraph g l).next_edge_id + 1 }
      (builtGraph g l).next_edge_id) (builtGraph g l).next_edge_id i).propagation_table =
      (builtGraph g l).propagation_table ++ [((builtGraph g l).next_edge_id, [i])] := by
    show (if (alGet (builtGraph g l).propagation_table
        (builtGraph g l).next_edge_id).isSome then
        alUpd (builtGraph g l).propagation_table (builtGraph g l).next_edge_id
          (fun s => setInsert s i)
      else (builtGraph g l).propagation_table ++
        [((builtGraph g l).next_edge_id, [i])]) = _
    rw [htblNone]
    simp
  have htabFind : findTableEntry (tableInsert (incCounter
      { builtGraph g l with
        edges := (builtGraph g l).edges ++
          [((builtGraph g l).next_edge_id,
            ⟨(builtGraph g l).next_edge_id, t.1, t.2.1, t.2.2, .Propagated, .Undefined, 0⟩)],
        arch_out := aoInsert (builtGraph g l).arch_out t.1 (builtGraph g l).next_edge_id,
        next_edge_id := (builtGraph g l).next_edge_id + 1 }
      (builtGraph g l).next_edge_id) (builtGraph g l).next_edge_id i) i =
      some (builtGraph g l).next_edge_id := by
    refine findTableEntry_split _ (builtGraph g l).propagation_table []
      (builtGraph g l).next_edge_id [i] i ?_ ?_ (by simp)
    · rw [hG3table]
    · intro q hqm hmemi
      have hqm2 : q ∈ (propsOf g l).map
          (fun q => (q.1, l.filter (fun j => decide (implTriple g j = some q.2)))) := hqm
      obtain ⟨q0, hq0, rfl⟩ := List.mem_map.mp hqm2
      exact hil (List.mem_of_mem_filter hmemi)
  have hNl : alGet (tableInsert (incCounter
      { builtGraph g l with
        edges := (builtGraph g l).edges ++
          [((builtGraph g l).next_edge_id,
            ⟨(builtGraph g l).next_edge_id, t.1, t.2.1, t.2.2, .Propagated, .Undefined, 0⟩)],
        arch_out := aoInsert (builtGraph g l).arch_out t.1 (builtGraph g l).next_edge_id,
        next_edge_id := (builtGraph g l).next_edge_id + 1 }
      (builtGraph g l).next_edge_id) (builtGraph g l).next_edge_id i).edges
      (builtGraph g l).next_edge_id =
      some ⟨(builtGraph g l).next_edge_id, t.1, t.2.1, t.2.2, .Propagated, .Undefined, 1⟩ := by
    rw [hG3edges]
    rw [alGet_append_of_none _ hBNone]
    simp [alGet]
  have hcongr : ∀ eid ∈ archOutList g t.1, ∃ e1 e2, alGet g.edges eid = some e1 ∧
      alGet (tableInsert (incCounter
        { builtGraph g l with
          edges := (builtGraph g l).edges ++
            [((builtGraph g l).next_edge_id,
              ⟨(builtGraph g l).next_edge_id, t.1, t.2.1, t.2.2, .Propagated, .Undefined, 0⟩)],
          arch_out := aoInsert (builtGraph g l).arch_out t.1 (builtGraph g l).next_edge_id,
          next_edge_id := (builtGraph g l).next_edge_id + 1 }
        (builtGraph g l).next_edge_id) (builtGraph g l).next_edge_id i).edges eid = some e2 ∧
      e2.subgraph = e1.subgraph ∧ e2.tgt = e1.tgt ∧ e2.kind = e1.kind := by
    intro eid hmem
    obtain ⟨e1, he1⟩ := Option.isSome_iff_exists.mp (R.archOutEx t.1 eid hmem)
    refine ⟨e1, (persistEdge g l (eid, e1)).2, he1, ?_,
      persistEdge_subgraph g l _, persistEdge_tgt g l _, persistEdge_kind g l _⟩
    rw [hG3edges]
    exact alGet_append_of_some (builtGraph_edges_lookup_persist g l he1)
  have hskipAll : ∀ eid ∈ ((propsOf g l).filter
      (fun q => decide (q.2.1 = t.1))).map Prod.fst ++ [(builtGraph g l).next_edge_id],
      ∃ e2, alGet (tableInsert (incCounter
        { builtGraph g l with
          edges := (builtGraph g l).edges ++
            [((builtGraph g l).next_edge_id,
              ⟨(builtGraph g l).next_edge_id, t.1, t.2.1, t.2.2, .Propagated, .Undefined, 0⟩)],
          arch_out := aoInsert (builtGraph g l).arch_out t.1 (builtGraph g l).next_edge_id,
          next_edge_id := (builtGraph g l).next_edge_id + 1 }
        (builtGraph g l).next_edge_id) (builtGraph g l).next_edge_id i).edges eid =
        some e2 ∧ e2.subgraph = .Propagated := by
    intro eid hmem
    rcases List.mem_append.mp hmem with hmem1 | hmem2
    · obtain ⟨q, hq2, rfl⟩ := List.mem_map.mp hmem1
      refine ⟨mkPropEdge g l q.1 q.2, ?_, rfl⟩
      rw [hG3edges]
      exact alGet_append_of_some (builtGraph_edges_lookup_prop g l
        (by simpa using List.mem_of_mem_filter hq2) R.keysLt)
    · have heq : eid = (builtGraph g l).next_edge_id := by simpa using hmem2
      rw [heq]
      exact ⟨_, hNl, rfl⟩
  have hlift : lift_exact (tableInsert (incCounter
      { builtGraph g l with
        edges := (builtGraph g l).edges ++
          [((builtGraph g l).next_edge_id,
            ⟨(builtGraph g l).next_edge_id, t.1, t.2.1, t.2.2, .Propagated, .Undefined, 0⟩)],
        arch_out := aoInsert (builtGraph g l).arch_out t.1 (builtGraph g l).next_edge_id,
        next_edge_id := (builtGraph g l).next_edge_id + 1 }
      (builtGraph g l).next_edge_id) (builtGraph g l).next_edge_id i)
      t.1 t.2.1 t.2.2 = .ok (archTarget g t) := by
    unfold lift_exact
    rw [show archOutList (tableInsert (incCounter
      { builtGraph g l with
        edges := (builtGraph g l).edges ++
          [((builtGraph g l).next_edge_id,
            ⟨(builtGraph g l).next_edge_id, t.1, t.2.1, t.2.2, .Propagated, .Undefined, 0⟩)],
        arch_out := aoInsert (builtGraph g l).arch_out t.1 (builtGraph g l).next_edge_id,
        next_edge_id := (builtGraph g l).next_edge_id + 1 }
      (builtGraph g l).next_edge_id) (builtGraph g l).next_edge_id i) t.1 =
      (alGet (aoInsert (builtGraph g l).arch_out t.1 (builtGraph g l).next_edge_id)
        t.1).getD [] from rfl]
    rw [aoInsert_bucket]
    rw [if_pos rfl]
    rw [show (alGet (builtGraph g l).arch_out t.1).getD [] =
      archOutList (builtGraph g l) t.1 from rfl]
    rw [builtGraph_archOutList]
    rw [List.append_assoc]
    have hpart1 := findArchIn_congr g _ (archOutList g t.1) t.2.1 t.2.2 hcongr
    cases harch : archTarget g t with
    | some aid =>
      rw [findArchIn_append_some _ _ _ _ _ aid (by
        rw [hpart1]
        rw [show findArchD g (archOutList g t.1) t.2.1 t.2.2 = archTarget g t from rfl,
          harch])]
    | none =>
      rw [findArchIn_append_none _ _ _ _ _ (by
        rw [hpart1]
        rw [show findArchD g (archOutList g t.1) t.2.1 t.2.2 = archTarget g t from rfl,
          harch])]
      rw [findArchIn_props_skip _ _ t.2.1 t.2.2 hskipAll]
  have hRED : (propagate_and_lift (builtGraph g l) i).1 =
      (match archTarget g t with
       | some aid => setEdgeState (setEdgeState
           (markConvergent (tableInsert (incCounter
             { builtGraph g l with
               edges := (builtGraph g l).edges ++
                 [((builtGraph g l).next_edge_id,
                   ⟨(builtGraph g l).next_edge_id, t.1, t.2.1, t.2.2, .Propagated,
                     .Undefined, 0⟩)],
               arch_out := aoInsert (builtGraph g l).arch_out t.1
                 (builtGraph g l).next_edge_id,
               next_edge_id := (builtGraph g l).next_edge_id + 1 }
             (builtGraph g l).next_edge_id) (builtGraph g l).next_edge_id i) aid)
           (builtGraph g l).next_edge_id .Allowed) i .Allowed
       | none => setEdgeState (setEdgeState
           (tableInsert (incCounter
             { builtGraph g l with
               edges := (builtGraph g l).edges ++
                 [((builtGraph g l).next_edge_id,
                   ⟨(builtGraph g l).next_edge_id, t.1, t.2.1, t.2.2, .Propagated,
                     .Undefined, 0⟩)],
               arch_out := aoInsert (builtGraph g l).arch_out t.1
                 (builtGraph g l).next_edge_id,
               next_edge_id := (builtGraph g l).next_edge_id + 1 }
             (builtGraph g l).next_edge_id) (builtGraph g l).next_edge_id i)
           (builtGraph g l).next_edge_id .Divergent) i .Divergent) := by
    unfold propagate_and_lift
    rw [hprop]
    dsimp only
    rw [hIl]
    dsimp only
    rw [if_neg (by simp [hstU])]
    rw [htabFind]
    dsimp only
    rw [hNl]
    dsimp only
    rw [hlift]
    cases harch : archTarget g t <;> dsimp only
  rw [hRED]
  cases harch : archTarget g t with
  | none =>
    apply rgraph_fields_eq
    · rfl
    · show alUpd (alUpd (tableInsert (incCounter
        { builtGraph g l with
          edges := (builtGraph g l).edges ++
            [((builtGraph g l).next_edge_id,
              ⟨(builtGraph g l).next_edge_id, t.1, t.2.1, t.2.2, .Propagated, .Undefined, 0⟩)],
          arch_out := aoInsert (builtGraph g l).arch_out t.1 (builtGraph g l).next_edge_id,
          next_edge_id := (builtGraph g l).next_edge_id + 1 }
        (builtGraph g l).next_edge_id) (builtGraph g l).next_edge_id i).edges
        (builtGraph g l).next_edge_id (fun v => { v with state := EdgeState.Divergent })) i
        (fun v => { v with state := EdgeState.Divergent }) = (builtGraph g (l ++ [i])).edges
      rw [hG3edges]
      rw [show (builtGraph g l).edges = g.edges.map (persistEdge g l) ++
        (propsOf g l).map (fun q => (q.1, mkPropEdge g l q.1 q.2)) from rfl]
      rw [edges_normC3 _ _ _ g.next_edge_id (builtGraph g l).next_edge_id i hMAPlt
        hPROPSbd rfl (by rw [hNE]; omega) hiLt _ _]
      rw [List.append_assoc]
      show alUpd (g.edges.map (persistEdge g l)) i
          (fun v => { v with state := EdgeState.Divergent }) ++
        ((propsOf g l).map (fun q => (q.1, mkPropEdge g l q.1 q.2)) ++
          [(g.next_edge_id + (propsOf g l).length,
            ⟨g.next_edge_id + (propsOf g l).length, t.1, t.2.1, t.2.2, .Propagated,
              .Divergent, 1⟩)]) =
        g.edges.map (persistEdge g (l ++ [i])) ++
          (propsOf g (l ++ [i])).map (fun q => (q.1, mkPropEdge g (l ++ [i]) q.1 q.2))
      congr 1
      · exact (persist_map_snoc_divergent g l i e t hi hsub hil R.keysNodup ht harch).symm
      · rw [props_map_snoc_create g l i t ht hnot]
        congr 1
        have hc : cntT g (l ++ [i]) t = 1 := by
          rw [cntT_snoc_self g l i t ht, cntT_zero_of_not_mem g l t hnot]
        simp [mkPropEdge, stOf, harch, hc]
    · rfl
    · show aoInsert ((propsOf g l).foldl (fun ao q => aoInsert ao q.2.1 q.1) g.arch_out)
        t.1 (g.next_edge_id + (propsOf g l).length) =
        (propsOf g (l ++ [i])).foldl (fun ao q => aoInsert ao q.2.1 q.1) g.arch_out
      rw [propsOf_snoc_not_mem g l i t ht hnot, List.foldl_append]
      rfl
    · rfl
    · show (tableInsert (incCounter
        { builtGraph g l with
          edges := (builtGraph g l).edges ++
            [((builtGraph g l).next_edge_id,
              ⟨(builtGraph g l).next_edge_id, t.1, t.2.1, t.2.2, .Propagated, .Undefined, 0⟩)],
          arch_out := aoInsert (builtGraph g l).arch_out t.1 (builtGraph g l).next_edge_id,
          next_edge_id := (builtGraph g l).next_edge_id + 1 }
        (builtGraph g l).next_edge_id) (builtGraph g l).next_edge_id i).propagation_table =
        (builtGraph g (l ++ [i])).propagation_table
      rw [hG3table, hNE]
      exact table_snoc_create g l i t ht hnot
    · rfl
    · show (builtGraph g l).next_edge_id + 1 =
        g.next_edge_id + (propsOf g (l ++ [i])).length
      rw [hNE, propsOf_snoc_not_mem g l i t ht hnot, List.length_append,
        List.length_singleton]
      omega
  | some aid =>
    obtain ⟨haidmem, ea, hea, heaarch, heatgt, heakind⟩ :=
      findArchD_some g (archOutList g t.1) t.2.1 t.2.2 aid harch
    have haidLt : aid < g.next_edge_id := R.keysLt _ (alGet_mem hea)
    have hanei : aid ≠ i := by
      intro heq
      rw [heq, hi] at hea
      obtain rfl : e = ea := Option.some.inj hea
      rw [hsub] at heaarch
      exact absurd heaarch (by simp)
    apply rgraph_fields_eq
    · rfl
    · show alUpd (alUpd (alUpd (tableInsert (incCounter
        { builtGraph g l with
          edges := (builtGraph g l).edges ++
            [((builtGraph g l).next_edge_id,
              ⟨(builtGraph g l).next_edge_id, t.1, t.2.1, t.2.2, .Propagated, .Undefined, 0⟩)],
          arch_out := aoInsert (builtGraph g l).arch_out t.1 (builtGraph g l).next_edge_id,
          next_edge_id := (builtGraph g l).next_edge_id + 1 }
        (builtGraph g l).next_edge_id) (builtGraph g l).next_edge_id i).edges aid
        (fun v => { v with counter := v.counter + 1, state := EdgeState.Convergent }))
        (builtGraph g l).next_edge_id (fun v => { v with state := EdgeState.Allowed })) i
        (fun v => { v with state := EdgeState.Allowed }) = (builtGraph g (l ++ [i])).edges
      rw [hG3edges]
      rw [show (builtGraph g l).edges = g.edges.map (persistEdge g l) ++
        (propsOf g l).map (fun q => (q.1, mkPropEdge g l q.1 q.2)) from rfl]
      rw [edges_normC4 _ _ _ g.next_edge_id (builtGraph g l).next_edge_id aid i hMAPlt
        hPROPSbd rfl (by rw [hNE]; omega) haidLt hiLt _ _ _]
      rw [List.append_assoc]
      show alUpd (alUpd (g.edges.map (persistEdge g l)) aid
          (fun v => { v with counter := v.counter + 1, state := EdgeState.Convergent })) i
          (fun v => { v with state := EdgeState.Allowed }) ++
        ((propsOf g l).map (fun q => (q.1, mkPropEdge g l q.1 q.2)) ++
          [(g.next_edge_id + (propsOf g l).length,
            ⟨g.next_edge_id + (propsOf g l).length, t.1, t.2.1, t.2.2, .Propagated,
              .Allowed, 1⟩)]) =
        g.edges.map (persistEdge g (l ++ [i])) ++
          (propsOf g (l ++ [i])).map (fun q => (q.1, mkPropEdge g (l ++ [i]) q.1 q.2))
      congr 1
      · exact (persist_map_snoc_convergent g l i e t aid hi hsub hil R.keysNodup ht
          harch hanei).symm
      · rw [props_map_snoc_create g l i t ht hnot]
        congr 1
        have hc : cntT g (l ++ [i]) t = 1 := by
          rw [cntT_snoc_self g l i t ht, cntT_zero_of_not_mem g l t hnot]
        simp [mkPropEdge, stOf, harch, hc]
    · rfl
    · show aoInsert ((propsOf g l).foldl (fun ao q => aoInsert ao q.2.1 q.1) g.arch_out)
        t.1 (g.next_edge_id + (propsOf g l).length) =
        (propsOf g (l ++ [i])).foldl (fun ao q => aoInsert ao q.2.1 q.1) g.arch_out
      rw [propsOf_snoc_not_mem g l i t ht hnot, List.foldl_append]
      rfl
    · rfl
    · show (tableInsert (incCounter
        { builtGraph g l with
          edges := (builtGraph g l).edges ++
            [((builtGraph g l).next_edge_id,
              ⟨(builtGraph g l).next_edge_id, t.1, t.2.1, t.2.2, .Propagated, .Undefined, 0⟩)],
          arch_out := aoInsert (builtGraph g l).arch_out t.1 (builtGraph g l).next_edge_id,
          next_edge_id := (builtGraph g l).next_edge_id + 1 }
        (builtGraph g l).next_edge_id) (builtGraph g l).next_edge_id i).propagation_table =
        (builtGraph g (l ++ [i])).propagation_table
      rw [hG3table, hNE]
      exact table_snoc_create g l i t ht hnot
    · rfl
    · show (builtGraph g l).next_edge_id + 1 =
        g.next_edge_id + (propsOf g (l ++ [i])).length
      rw [hNE, propsOf_snoc_not_mem g l i t ht hnot, List.length_append,
        List.length_singleton]
      omega

theorem persistEdge_nil (g : ReflexionGraph) (p : Nat × Edge) :
    persistEdge g [] p = p := by
  unfold persistEdge
  by_cases h1 : p.2.subgraph = .Implementation
  · rw [if_pos h1, if_neg (List.not_mem_nil p.1)]
  · rw [if_neg h1]
    by_cases h2 : p.2.subgraph = .Architecture
    · rw [if_pos h2]
      rfl
    · rw [if_neg h2]

theorem builtGraph_nil (g : ReflexionGraph) (R : Ready g) : builtGraph g [] = g := by
  apply rgraph_fields_eq
  · rfl
  · show g.edges.map (persistEdge g []) ++
      (propsOf g []).map (fun q => (q.1, mkPropEdge g [] q.1 q.2)) = g.edges
    rw [show propsOf g [] = ([] : List (Nat × Triple)) from rfl, List.map_nil,
      List.append_nil]
    conv_rhs => rw [← List.map_id g.edges]
    exact List.map_congr_left (fun p _ => persistEdge_nil g p)
  · rfl
  · show (propsOf g []).foldl (fun ao q => aoInsert ao q.2.1 q.1) g.arch_out = g.arch_out
    rw [show propsOf g [] = ([] : List (Nat × Triple)) from rfl]
    rfl
  · rfl
  · show (propsOf g []).map
      (fun q => (q.1, [].filter (fun j => decide (implTriple g j = some q.2)))) =
      g.propagation_table
    rw [show propsOf g [] = ([] : List (Nat × Triple)) from rfl, List.map_nil]
    exact R.tableEmpty.symm
  · rfl
  · show g.next_edge_id + (propsOf g []).length = g.next_edge_id
    rw [show propsOf g [] = ([] : List (Nat × Triple)) from rfl]
    rfl

theorem processList_eq_built (g : ReflexionGraph) (R : Ready g) (l : List Nat)
    (hnd : l.Nodup) (himpl : ∀ i ∈ l, isImplKey g i) :
    processList g l = builtGraph g l := by
  induction l using List.reverseRecOn with
  | nil => exact (builtGraph_nil g R).symm
  | append_singleton l i ih =>
    have hnd2 : l.Nodup := (List.nodup_append.mp hnd).1
    have hil : i ∉ l := by
      have hdisj := (List.nodup_append.mp hnd).2.2
      intro hmem
      exact hdisj hmem (List.mem_cons_self i [])
    have himpl2 : ∀ j ∈ l, isImplKey g j := fun j hj => himpl j (List.mem_append_left _ hj)
    have hstep : processList g (l ++ [i]) = (propagate_and_lift (processList g l) i).1 := by
      unfold processList
      rw [List.foldl_append]
      rfl
    rw [hstep, ih hnd2 himpl2]
    obtain ⟨e, hi, hsub⟩ := himpl i (List.mem_append_right _ (List.mem_cons_self i []))
    cases ht : implTriple g i with
    | none => exact step_unmapped g R l i e hi hsub hil ht
    | some t =>
      by_cases hmem : t ∈ firstOccs (mappedTriples g l)
      · obtain ⟨pid, hq⟩ := propsFrom_exists_of_mem hmem
        exact step_mapped_reuse g R l i e t pid hi hsub hil ht hq
      · exact step_mapped_create g R l i e t hi hsub hil ht hmem

/-! ### Congruence of the classification quantities in the graph container -/

theorem implTriple_congr (g1 g2 : ReflexionGraph) (hE : g2.edges = g1.edges)
    (hM : g2.maps_to = g1.maps_to) (i : Nat) : implTriple g2 i = implTriple g1 i := by
  simp only [implTriple, hE, hM]

theorem filterMap_congr_mem {α β : Type} (f g : α → Option β) (l : List α)
    (h : ∀ x ∈ l, f x = g x) : l.filterMap f = l.filterMap g := by
  induction l with
  | nil => rfl
  | cons hd tl ih =>
    rw [List.filterMap_cons, List.filterMap_cons, h hd (List.mem_cons_self hd tl),
      ih (fun x hx => h x (List.mem_cons_of_mem hd hx))]

theorem mappedTriples_congr (g1 g2 : ReflexionGraph) (hE : g2.edges = g1.edges)
    (hM : g2.maps_to = g1.maps_to) (l : List Nat) :
    mappedTriples g2 l = mappedTriples g1 l := by
  unfold mappedTriples
  exact filterMap_congr_mem _ _ l (fun i _ => implTriple_congr g1 g2 hE hM i)

theorem findArchD_congr_edges (g1 g2 : ReflexionGraph) (hE : g2.edges = g1.edges)
    (ids : List Nat) (ta k : Nat) : findArchD g2 ids ta k = findArchD g1 ids ta k := by
  induction ids with
  | nil => rfl
  | cons hd tl ih =>
    cases halg : alGet g1.edges hd with
    | none =>
      simp only [findArchD, hE, halg]
      exact ih
    | some e =>
      simp only [findArchD, hE, halg]
      by_cases hc : e.subgraph = .Architecture ∧ e.tgt = ta ∧ e.kind = k
      · rw [if_pos hc, if_pos hc]
      · rw [if_neg hc, if_neg hc]
        exact ih

theorem archTarget_congr (g1 g2 : ReflexionGraph) (hE : g2.edges = g1.edges)
    (hA : ∀ a, archOutList g2 a = archOutList g1 a) (t : Triple) :
    archTarget g2 t = archTarget g1 t := by
  unfold archTarget
  rw [hA t.1, findArchD_congr_edges g1 g2 hE]

theorem stOf_congr (g1 g2 : ReflexionGraph) (hE : g2.edges = g1.edges)
    (hA : ∀ a, archOutList g2 a = archOutList g1 a) (t : Triple) :
    stOf g2 t = stOf g1 t := by
  unfold stOf
  rw [archTarget_congr g1 g2 hE hA]

theorem cntT_congr (g1 g2 : ReflexionGraph) (hE : g2.edges = g1.edges)
    (hM : g2.maps_to = g1.maps_to) (l : List Nat) (t : Triple) :
    cntT g2 l t = cntT g1 l t := by
  unfold cntT
  rw [mappedTriples_congr g1 g2 hE hM]

theorem liftCnt_congr (g1 g2 : ReflexionGraph) (hE : g2.edges = g1.edges)
    (hM : g2.maps_to = g1.maps_to) (hA : ∀ a, archOutList g2 a = archOutList g1 a)
    (l : List Nat) (a : Nat) : liftCnt g2 l a = liftCnt g1 l a := by
  unfold liftCnt
  rw [mappedTriples_congr g1 g2 hE hM]
  exact List.countP_congr
    (fun t _ => by rw [archTarget_congr g1 g2 hE hA])

theorem verdict_congr (g1 g2 : ReflexionGraph) (hE : g2.edges = g1.edges)
    (hM : g2.maps_to = g1.maps_to) (hA : ∀ a, archOutList g2 a = archOutList g1 a)
    (e : Edge) : verdict g2 e = verdict g1 e := by
  cases h1 : alGet g1.maps_to e.src with
  | none => simp only [verdict, hM, h1]
  | some a =>
    cases h2 : alGet g1.maps_to e.tgt with
    | none => simp only [verdict, hM, h1, h2]
    | some b =>
      simp only [verdict, hM, h1, h2]
      exact stOf_congr g1 g2 hE hA (a, b, e.kind)

theorem persistEdge_congr (g1 g2 : ReflexionGraph) (hE : g2.edges = g1.edges)
    (hM : g2.maps_to = g1.maps_to) (hA : ∀ a, archOutList g2 a = archOutList g1 a)
    (l : List Nat) (p : Nat × Edge) : persistEdge g2 l p = persistEdge g1 l p := by
  unfold persistEdge
  rw [verdict_congr g1 g2 hE hM hA p.2, liftCnt_congr g1 g2 hE hM hA l p.1]

theorem implEdgeIds_congr (g1 g2 : ReflexionGraph) (hE : g2.edges = g1.edges) :
    implEdgeIds g2 = implEdgeIds g1 := by
  unfold implEdgeIds
  rw [hE]

/-! ### Permutation invariance of the classification quantities -/

theorem mappedTriples_perm (g : ReflexionGraph) {l1 l2 : List Nat} (h : l1.Perm l2) :
    (mappedTriples g l1).Perm (mappedTriples g l2) := h.filterMap _

theorem cntT_perm (g : ReflexionGraph) {l1 l2 : List Nat} (h : l1.Perm l2) (t : Triple) :
    cntT g l1 t = cntT g l2 t := (mappedTriples_perm g h).countP_eq _

theorem liftCnt_perm (g : ReflexionGraph) {l1 l2 : List Nat} (h : l1.Perm l2) (a : Nat) :
    liftCnt g l1 a = liftCnt g l2 a := (mappedTriples_perm g h).countP_eq _

theorem persistEdge_perm (g : ReflexionGraph) {l1 l2 : List Nat} (h : l1.Perm l2)
    (p : Nat × Edge) : persistEdge g l1 p = persistEdge g l2 p := by
  unfold persistEdge
  rw [liftCnt_perm g h p.1]
  simp only [h.mem_iff]

theorem wf_archOutEx (g : ReflexionGraph) (wf : WFInput g) :
    ∀ a, ∀ eid ∈ archOutList g a, (alGet g.edges eid).isSome := by
  intro a eid hmem
  unfold archOutList at hmem
  cases halg : alGet g.arch_out a with
  | none =>
    rw [halg] at hmem
    simp at hmem
  | some b =>
    rw [halg] at hmem
    exact wf.archOutEx (a, b) (alGet_mem halg) eid hmem

theorem init_key (p : Nat × Edge) :
    ((fun p : Nat × Edge =>
      match p.2.subgraph with
      | .Architecture => (p.1, { p.2 with state := .Specified, counter := 0 })
      | .Implementation => (p.1, { p.2 with state := .Undefined })
      | .Propagated => p) p).1 = p.1 := by
  cases h : p.2.subgraph <;> simp [h]

theorem init_subgraph (p : Nat × Edge) :
    ((fun p : Nat × Edge =>
      match p.2.subgraph with
      | .Architecture => (p.1, { p.2 with state := .Specified, counter := 0 })
      | .Implementation => (p.1, { p.2 with state := .Undefined })
      | .Propagated => p) p).2.subgraph = p.2.subgraph := by
  cases h : p.2.subgraph <;> simp [h]

theorem ready_of_wf (g : ReflexionGraph) (wf : WFInput g) :
    Ready (init_states (clear_propagated_edges g)) := by
  constructor
  · intro q hq
    obtain ⟨p, hpf, rfl⟩ := List.mem_map.mp hq
    have hP : p.2.subgraph ≠ .Propagated := by
      simpa using List.of_mem_filter hpf
    rw [init_subgraph p]
    exact hP
  · rfl
  · intro q hq harch
    obtain ⟨p, hpf, rfl⟩ := List.mem_map.mp hq
    rw [init_subgraph p] at harch
    simp [harch]
  · intro q hq himp
    obtain ⟨p, hpf, rfl⟩ := List.mem_map.mp hq
    rw [init_subgraph p] at himp
    simp [himp]
  · have hkeys : (init_states (clear_propagated_edges g)).edges.map Prod.fst =
        (g.edges.filter (fun p => decide (p.2.subgraph ≠ .Propagated))).map Prod.fst := by
      show ((g.edges.filter _).map _).map Prod.fst = _
      rw [List.map_map]
      exact List.map_congr_left (fun p _ => init_key p)
    rw [hkeys]
    exact List.Nodup.sublist ((List.filter_sublist _).map _) wf.keysNodup
  · intro q hq
    obtain ⟨p, hpf, rfl⟩ := List.mem_map.mp hq
    rw [init_key p]
    exact wf.keysLt p (List.mem_of_mem_filter hpf)
  · intro a eid hmem
    have hmem2 : eid ∈ (alGet (g.arch_out.map (fun b =>
        (b.1, b.2.filter (fun eid => !(isPropIdIn g.edges eid))))) a).getD [] := hmem
    cases halg : alGet g.arch_out a with
    | none =>
      have hnone : alGet (g.arch_out.map (fun b =>
          (b.1, b.2.filter (fun eid => !(isPropIdIn g.edges eid))))) a = none := by
        refine alGet_map_keyfix_of_none ?_ halg
        intro p
        rfl
      rw [hnone] at hmem2
      simp at hmem2
    | some b =>
      have hsome : alGet (g.arch_out.map (fun b =>
          (b.1, b.2.filter (fun eid => !(isPropIdIn g.edges eid))))) a =
          some (b.filter (fun eid => !(isPropIdIn g.edges eid))) := by
        refine alGet_map_keyfix_of_some ?_ halg
        intro p
        rfl
      rw [hsome] at hmem2
      simp only [Option.getD_some] at hmem2
      have hb : eid ∈ b := List.mem_of_mem_filter hmem2
      have hpred : isPropIdIn g.edges eid = false := by
        simpa using List.of_mem_filter hmem2
      have hex : (alGet g.edges eid).isSome :=
        wf.archOutEx (a, b) (alGet_mem halg) eid hb
      obtain ⟨e0, he0⟩ := Option.isSome_iff_exists.mp hex
      have hnp : e0.subgraph ≠ .Propagated := by
        intro hcon
        have htrue : isPropIdIn g.edges eid = true := by
          unfold isPropIdIn
          rw [he0]
          simp [hcon]
        rw [hpred] at htrue
        exact absurd htrue (by simp)
      have h1 : alGet (g.edges.filter
          (fun p => decide (p.2.subgraph ≠ .Propagated))) eid = some e0 :=
        alGet_filter_of_some he0 (by simpa using hnp)
      have h2 := alGet_map_keyfix_of_some (init_key) h1
      rw [show (init_states (clear_propagated_edges g)).edges =
        (g.edges.filter (fun p => decide (p.2.subgraph ≠ .Propagated))).map
          (fun p : Nat × Edge =>
            match p.2.subgraph with
            | .Architecture => (p.1, { p.2 with state := .Specified, counter := 0 })
            | .Implementation => (p.1, { p.2 with state := .Undefined })
            | .Propagated => p) from rfl, h2]
      rfl
  · intro p hp
    exact wf.mapsArch p hp

theorem filterMap_if_sublist_keys (L : List (Nat × Edge)) :
    List.Sublist (L.filterMap
      (fun p => if p.2.subgraph = .Implementation then some p.1 else none))
      (L.map Prod.fst) := by
  induction L with
  | nil => simp
  | cons hd tl ih =>
    rw [List.filterMap_cons, List.map_cons]
    by_cases h : hd.2.subgraph = .Implementation
    · rw [if_pos h]
      exact ih.cons₂ hd.1
    · rw [if_neg h]
      exact ih.cons hd.1

theorem implEdgeIds_sublist_keys (g : ReflexionGraph) :
    List.Sublist (implEdgeIds g) (g.edges.map Prod.fst) :=
  filterMap_if_sublist_keys g.edges

theorem implEdgeIds_nodup (g : ReflexionGraph) (h : (g.edges.map Prod.fst).Nodup) :
    (implEdgeIds g).Nodup := List.Nodup.sublist (implEdgeIds_sublist_keys g) h

theorem implEdgeIds_are_impl (g : ReflexionGraph) (hnd : (g.edges.map Prod.fst).Nodup) :
    ∀ i ∈ implEdgeIds g, isImplKey g i := by
  intro i hi
  unfold implEdgeIds at hi
  obtain ⟨p, hp, hif⟩ := List.mem_filterMap.mp hi
  by_cases h : p.2.subgraph = .Implementation
  · rw [if_pos h] at hif
    obtain rfl : p.1 = i := Option.some.inj hif
    exact ⟨p.2, alGet_of_mem_nodup hp hnd, h⟩
  · rw [if_neg h] at hif
    simp at hif

theorem finalF_key (p : Nat × Edge) :
    ((fun p : Nat × Edge => if p.2.subgraph = .Architecture then
        if p.2.state = .Specified ∧ p.2.counter = 0 then (p.1, { p.2 with state := .Absent })
        else if p.2.state = .Specified ∧ 0 < p.2.counter then
          (p.1, { p.2 with state := .Convergent })
        else p
      else p) p).1 = p.1 := by
  dsimp only
  by_cases h1 : p.2.subgraph = .Architecture
  · rw [if_pos h1]
    by_cases h2 : p.2.state = .Specified ∧ p.2.counter = 0
    · rw [if_pos h2]
    · rw [if_neg h2]
      by_cases h3 : p.2.state = .Specified ∧ 0 < p.2.counter
      · rw [if_pos h3]
      · rw [if_neg h3]
  · rw [if_neg h1]

theorem finalF_subgraph (p : Nat × Edge) :
    ((fun p : Nat × Edge => if p.2.subgraph = .Architecture then
        if p.2.state = .Specified ∧ p.2.counter = 0 then (p.1, { p.2 with state := .Absent })
        else if p.2.state = .Specified ∧ 0 < p.2.counter then
          (p.1, { p.2 with state := .Convergent })
        else p
      else p) p).2.subgraph = p.2.subgraph := by
  dsimp only
  by_cases h1 : p.2.subgraph = .Architecture
  · rw [if_pos h1]
    by_cases h2 : p.2.state = .Specified ∧ p.2.counter = 0
    · rw [if_pos h2]
    · rw [if_neg h2]
      by_cases h3 : p.2.state = .Specified ∧ 0 < p.2.counter
      · rw [if_pos h3]
      · rw [if_neg h3]
  · rw [if_neg h1]

theorem reclear_edges (g : ReflexionGraph) (R : Ready g) (l : List Nat) :
    (init_states (clear_propagated_edges
      (finalize_architecture_states (builtGraph g l)))).edges = g.edges := by
  show (((g.edges.map (persistEdge g l) ++
      (propsOf g l).map (fun q => (q.1, mkPropEdge g l q.1 q.2))).map
      (fun p : Nat × Edge => if p.2.subgraph = .Architecture then
        if p.2.state = .Specified ∧ p.2.counter = 0 then (p.1, { p.2 with state := .Absent })
        else if p.2.state = .Specified ∧ 0 < p.2.counter then
          (p.1, { p.2 with state := .Convergent })
        else p
      else p)).filter
      (fun p => decide (p.2.subgraph ≠ .Propagated))).map
      (fun p : Nat × Edge =>
        match p.2.subgraph with
        | .Architecture => (p.1, { p.2 with state := .Specified, counter := 0 })
        | .Implementation => (p.1, { p.2 with state := .Undefined })
        | .Propagated => p) = g.edges
  rw [List.map_append, List.filter_append]
  have hkeep : ∀ q ∈ (g.edges.map (persistEdge g l)).map
      (fun p : Nat × Edge => if p.2.subgraph = .Architecture then
        if p.2.state = .Specified ∧ p.2.counter = 0 then (p.1, { p.2 with state := .Absent })
        else if p.2.state = .Specified ∧ 0 < p.2.counter then
          (p.1, { p.2 with state := .Convergent })
        else p
      else p),
      decide (q.2.subgraph ≠ SubgraphKind.Propagated) = true := by
    intro q hq
    obtain ⟨q1, hq1, rfl⟩ := List.mem_map.mp hq
    obtain ⟨p, hp, rfl⟩ := List.mem_map.mp hq1
    rw [finalF_subgraph, persistEdge_subgraph]
    simpa using R.noProp p hp
  have hdrop : ∀ q ∈ ((propsOf g l).map (fun q => (q.1, mkPropEdge g l q.1 q.2))).map
      (fun p : Nat × Edge => if p.2.subgraph = .Architecture then
        if p.2.state = .Specified ∧ p.2.counter = 0 then (p.1, { p.2 with state := .Absent })
        else if p.2.state = .Specified ∧ 0 < p.2.counter then
          (p.1, { p.2 with state := .Convergent })
        else p
      else p),
      ¬ (decide (q.2.subgraph ≠ SubgraphKind.Propagated) = true) := by
    intro q hq
    obtain ⟨q1, hq1, rfl⟩ := List.mem_map.mp hq
    obtain ⟨q0, hq0, rfl⟩ := List.mem_map.mp hq1
    rw [finalF_subgraph]
    simp [mkPropEdge]
  rw [List.filter_eq_self.mpr hkeep, List.filter_eq_nil_iff.mpr hdrop, List.append_nil]
  rw [List.map_map, List.map_map]
  conv_rhs => rw [← List.map_id g.edges]
  refine List.map_congr_left ?_
  intro p hp
  obtain ⟨pid, pe⟩ := p
  obtain ⟨e1, e2, e3, e4, esg, est, ec⟩ := pe
  cases esg with
  | Architecture =>
    obtain ⟨h1, h2⟩ := R.archInit _ hp rfl
    subst h1
    subst h2
    by_cases hlc : liftCnt g l pid = 0 <;>
      simp [persistEdge, hlc]
  | Implementation =>
    have h1 : est = .Undefined := R.implInit _ hp rfl
    subst h1
    by_cases hm : pid ∈ l <;>
      simp [persistEdge, hm]
  | Propagated => exact absurd rfl (R.noProp _ hp)

theorem reclear_archOut (g : ReflexionGraph) (R : Ready g) (l : List Nat) (a : Nat) :
    archOutList (init_states (clear_propagated_edges
      (finalize_architecture_states (builtGraph g l)))) a = archOutList g a := by
  have hB := builtGraph_archOutList g l a
  have hEfin : (finalize_architecture_states (builtGraph g l)).edges =
      (builtGraph g l).edges.map
      (fun p : Nat × Edge => if p.2.subgraph = .Architecture then
        if p.2.state = .Specified ∧ p.2.counter = 0 then (p.1, { p.2 with state := .Absent })
        else if p.2.state = .Specified ∧ 0 < p.2.counter then
          (p.1, { p.2 with state := .Convergent })
        else p
      else p) := rfl
  cases halg : alGet (builtGraph g l).arch_out a with
  | none =>
    unfold archOutList at hB
    rw [halg] at hB
    simp only [Option.getD_none] at hB
    have h0 : archOutList g a = [] := (List.append_eq_nil.mp hB.symm).1
    show (alGet ((builtGraph g l).arch_out.map (fun b =>
      (b.1, b.2.filter (fun eid => !(isPropIdIn
        (finalize_architecture_states (builtGraph g l)).edges eid))))) a).getD [] = _
    have hnone : alGet ((builtGraph g l).arch_out.map (fun b =>
        (b.1, b.2.filter (fun eid => !(isPropIdIn
          (finalize_architecture_states (builtGraph g l)).edges eid))))) a = none := by
      refine alGet_map_keyfix_of_none ?_ halg
      intro p
      rfl
    rw [hnone, h0]
    rfl
  | some b =>
    unfold archOutList at hB
    rw [halg] at hB
    simp only [Option.getD_some] at hB
    show (alGet ((builtGraph g l).arch_out.map (fun b =>
      (b.1, b.2.filter (fun eid => !(isPropIdIn
        (finalize_architecture_states (builtGraph g l)).edges eid))))) a).getD [] = _
    have hsome : alGet ((builtGraph g l).arch_out.map (fun b =>
        (b.1, b.2.filter (fun eid => !(isPropIdIn
          (finalize_architecture_states (builtGraph g l)).edges eid))))) a =
        some (b.filter (fun eid => !(isPropIdIn
          (finalize_architecture_states (builtGraph g l)).edges eid))) := by
      refine alGet_map_keyfix_of_some ?_ halg
      intro p
      rfl
    rw [hsome]
    simp only [Option.getD_some]
    rw [hB, List.filter_append]
    rw [show ((alGet g.arch_out a).getD [] : List Nat) = archOutList g a from rfl]
    have hkeep : ∀ eid ∈ archOutList g a,
        (!(isPropIdIn (finalize_architecture_states (builtGraph g l)).edges eid)) = true := by
      intro eid hmem
      obtain ⟨e0, he0⟩ := Option.isSome_iff_exists.mp (R.archOutEx a eid hmem)
      have hlook := builtGraph_edges_lookup_persist g l he0
      have hlook2 := alGet_map_keyfix_of_some finalF_key hlook
      rw [← hEfin] at hlook2
      have hsg2 : ((fun p : Nat × Edge => if p.2.subgraph = .Architecture then
          if p.2.state = .Specified ∧ p.2.counter = 0 then
            (p.1, { p.2 with state := .Absent })
          else if p.2.state = .Specified ∧ 0 < p.2.counter then
            (p.1, { p.2 with state := .Convergent })
          else p
        else p) (eid, (persistEdge g l (eid, e0)).2)).2.subgraph = e0.subgraph := by
        rw [finalF_subgraph]
        exact persistEdge_subgraph g l (eid, e0)
      unfold isPropIdIn
      rw [hlook2]
      show (!(decide (((fun p : Nat × Edge => if p.2.subgraph = .Architecture then
          if p.2.state = .Specified ∧ p.2.counter = 0 then
            (p.1, { p.2 with state := .Absent })
          else if p.2.state = .Specified ∧ 0 < p.2.counter then
            (p.1, { p.2 with state := .Convergent })
          else p
        else p) (eid, (persistEdge g l (eid, e0)).2)).2.subgraph =
          SubgraphKind.Propagated))) = true
      rw [hsg2]
      simpa using R.noProp (eid, e0) (alGet_mem he0)
    have hdrop : ∀ eid ∈ ((propsOf g l).filter (fun q => decide (q.2.1 = a))).map Prod.fst,
        ¬ ((!(isPropIdIn (finalize_architecture_states (builtGraph g l)).edges eid)) = true) := by
      intro eid hmem
      obtain ⟨q, hq2, rfl⟩ := List.mem_map.mp hmem
      have hq3 : q ∈ propsOf g l := List.mem_of_mem_filter hq2
      have hlook := builtGraph_edges_lookup_prop g l (by simpa using hq3) R.keysLt
      have hlook2 := alGet_map_keyfix_of_some finalF_key hlook
      rw [← hEfin] at hlook2
      have hsgp : ((fun p : Nat × Edge => if p.2.subgraph = .Architecture then
          if p.2.state = .Specified ∧ p.2.counter = 0 then
            (p.1, { p.2 with state := .Absent })
          else if p.2.state = .Specified ∧ 0 < p.2.counter then
            (p.1, { p.2 with state := .Convergent })
          else p
        else p) (q.1, mkPropEdge g l q.1 q.2)).2.subgraph = SubgraphKind.Propagated := by
        rw [finalF_subgraph]
        rfl
      unfold isPropIdIn
      rw [hlook2]
      show ¬ ((!(decide (((fun p : Nat × Edge => if p.2.subgraph = .Architecture then
          if p.2.state = .Specified ∧ p.2.counter = 0 then
            (p.1, { p.2 with state := .Absent })
          else if p.2.state = .Specified ∧ 0 < p.2.counter then
            (p.1, { p.2 with state := .Convergent })
          else p
        else p) (q.1, mkPropEdge g l q.1 q.2)).2.subgraph =
          SubgraphKind.Propagated))) = true)
      rw [hsgp]
      simp
    rw [List.filter_eq_self.mpr hkeep, List.filter_eq_nil_iff.mpr hdrop, List.append_nil]

theorem reclear_ready (g : ReflexionGraph) (R : Ready g) (l : List Nat) :
    Ready (init_states (clear_propagated_edges
      (finalize_architecture_states (builtGraph g l)))) := by
  have hE := reclear_edges g R l
  constructor
  · intro p hp
    rw [hE] at hp
    exact R.noProp p hp
  · rfl
  · intro p hp
    rw [hE] at hp
    exact R.archInit p hp
  · intro p hp
    rw [hE] at hp
    exact R.implInit p hp
  · rw [hE]
    exact R.keysNodup
  · intro p hp
    rw [hE] at hp
    have := R.keysLt p hp
    show p.1 < g.next_edge_id + (propsOf g l).length
    omega
  · intro a eid hmem
    rw [reclear_archOut g R l a] at hmem
    rw [hE]
    exact R.archOutEx a eid hmem
  · intro p hp
    exact R.mapsArch p hp

theorem finalize_edges_eq (g : ReflexionGraph) :
    (finalize_architecture_states g).edges = g.edges.map finalizeEdge := rfl

theorem finalizeEdge_key (p : Nat × Edge) : (finalizeEdge p).1 = p.1 := finalF_key p

theorem finalizeEdge_subgraph (p : Nat × Edge) :
    (finalizeEdge p).2.subgraph = p.2.subgraph := finalF_subgraph p

theorem finalizeEdge_counter (p : Nat × Edge) :
    (finalizeEdge p).2.counter = p.2.counter := by
  unfold finalizeEdge
  by_cases h1 : p.2.subgraph = .Architecture
  · rw [if_pos h1]
    by_cases h2 : p.2.state = .Specified ∧ p.2.counter = 0
    · rw [if_pos h2]
    · rw [if_neg h2]
      by_cases h3 : p.2.state = .Specified ∧ 0 < p.2.counter
      · rw [if_pos h3]
      · rw [if_neg h3]
  · rw [if_neg h1]

theorem finalizeEdge_prop (p : Nat × Edge) (h : p.2.subgraph = .Propagated) :
    finalizeEdge p = p := by
  unfold finalizeEdge
  rw [if_neg (by rw [h]; simp)]

theorem persistAssign_run (g : ReflexionGraph) (R : Ready g) (l : List Nat) :
    persistAssign (finalize_architecture_states (builtGraph g l)) =
      (g.edges.map (persistEdge g l)).map
        (fun p => ((finalizeEdge p).1, (finalizeEdge p).2.state,
          (finalizeEdge p).2.counter)) := by
  unfold persistAssign
  rw [finalize_edges_eq]
  rw [show (builtGraph g l).edges = g.edges.map (persistEdge g l) ++
    (propsOf g l).map (fun q => (q.1, mkPropEdge g l q.1 q.2)) from rfl]
  rw [List.map_append, List.filter_append]
  have hkeep : ∀ q ∈ ((g.edges.map (persistEdge g l)).map finalizeEdge),
      decide (q.2.subgraph ≠ SubgraphKind.Propagated) = true := by
    intro q hq
    obtain ⟨q1, hq1, rfl⟩ := List.mem_map.mp hq
    obtain ⟨p, hp, rfl⟩ := List.mem_map.mp hq1
    rw [show (finalizeEdge (persistEdge g l p)).2.subgraph = p.2.subgraph by
      rw [finalizeEdge_subgraph, persistEdge_subgraph]]
    simpa using R.noProp p hp
  have hdrop : ∀ q ∈ (((propsOf g l).map
      (fun q => (q.1, mkPropEdge g l q.1 q.2))).map finalizeEdge),
      ¬ (decide (q.2.subgraph ≠ SubgraphKind.Propagated) = true) := by
    intro q hq
    obtain ⟨q1, hq1, rfl⟩ := List.mem_map.mp hq
    obtain ⟨q0, hq0, rfl⟩ := List.mem_map.mp hq1
    rw [show (finalizeEdge (q0.1, mkPropEdge g l q0.1 q0.2)).2.subgraph =
      SubgraphKind.Propagated by rw [finalizeEdge_subgraph]; rfl]
    simp
  rw [List.filter_eq_self.mpr hkeep, List.filter_eq_nil_iff.mpr hdrop, List.append_nil]
  rw [List.map_map]
  rfl

theorem props_filter_assign (g : ReflexionGraph) (l : List Nat) (t : Triple)
    (ts : List Triple) (n : Nat) :
    (((propsFrom n ts).map (fun q => (q.1, mkPropEdge g l q.1 q.2))).filter
      (fun p => decide (p.2.subgraph = SubgraphKind.Propagated ∧ p.2.src = t.1 ∧
        p.2.tgt = t.2.1 ∧ p.2.kind = t.2.2))).map (fun p => (p.2.state, p.2.counter)) =
    (ts.filter (fun s => decide (s = t))).map (fun s => (stOf g s, cntT g l s)) := by
  induction ts generalizing n with
  | nil => rfl
  | cons hd tl ih =>
    rw [show propsFrom n (hd :: tl) = (n, hd) :: propsFrom (n + 1) tl from rfl]
    rw [List.map_cons, List.filter_cons, List.filter_cons]
    dsimp only
    by_cases hh : hd = t
    · subst hh
      rw [if_pos (by simp [mkPropEdge]), if_pos (by simp)]
      rw [List.map_cons, List.map_cons, ih (n + 1)]
      rfl
    · have hcnot : ¬ ((decide ((mkPropEdge g l n hd).subgraph = SubgraphKind.Propagated ∧
          (mkPropEdge g l n hd).src = t.1 ∧ (mkPropEdge g l n hd).tgt = t.2.1 ∧
          (mkPropEdge g l n hd).kind = t.2.2)) = true) := by
        simp only [decide_eq_true_eq]
        rintro ⟨-, h1, h2, h3⟩
        refine hh ?_
        have h1a : hd.1 = t.1 := h1
        have h2a : hd.2.1 = t.2.1 := h2
        have h3a : hd.2.2 = t.2.2 := h3
        exact Prod.ext h1a (Prod.ext h2a h3a)
      rw [if_neg hcnot, if_neg (by simp [hh]), ih (n + 1)]

theorem propAssign_run (g : ReflexionGraph) (R : Ready g) (l : List Nat) (t : Triple) :
    propAssign (finalize_architecture_states (builtGraph g l)) t =
      ((firstOccs (mappedTriples g l)).filter (fun s => decide (s = t))).map
        (fun s => (stOf g s, cntT g l s)) := by
  unfold propAssign
  rw [finalize_edges_eq]
  rw [show (builtGraph g l).edges = g.edges.map (persistEdge g l) ++
    (propsOf g l).map (fun q => (q.1, mkPropEdge g l q.1 q.2)) from rfl]
  rw [List.map_append, List.filter_append, List.map_append]
  have hdropMAP : (((g.edges.map (persistEdge g l)).map finalizeEdge).filter
      (fun p => decide (p.2.subgraph = SubgraphKind.Propagated ∧ p.2.src = t.1 ∧
        p.2.tgt = t.2.1 ∧ p.2.kind = t.2.2))) = [] := by
    rw [List.filter_eq_nil_iff]
    intro q hq
    obtain ⟨q1, hq1, rfl⟩ := List.mem_map.mp hq
    obtain ⟨p, hp, rfl⟩ := List.mem_map.mp hq1
    simp only [decide_eq_true_eq]
    rintro ⟨hc, -⟩
    rw [finalizeEdge_subgraph, persistEdge_subgraph] at hc
    exact R.noProp p hp hc
  rw [hdropMAP, List.map_nil, List.nil_append]
  have hid : ((propsOf g l).map
      (fun q => (q.1, mkPropEdge g l q.1 q.2))).map finalizeEdge =
      (propsOf g l).map (fun q => (q.1, mkPropEdge g l q.1 q.2)) := by
    conv_rhs => rw [← List.map_id ((propsOf g l).map
      (fun q => (q.1, mkPropEdge g l q.1 q.2)))]
    refine List.map_congr_left ?_
    intro q hq
    obtain ⟨q0, hq0, rfl⟩ := List.mem_map.mp hq
    exact finalizeEdge_prop _ rfl
  rw [hid]
  exact props_filter_assign g l t (firstOccs (mappedTriples g l)) g.next_edge_id

theorem run_eq_built (g : ReflexionGraph) (wf : WFInput g) :
    run_from_scratch g =
      finalize_architecture_states
        (builtGraph (init_states (clear_propagated_edges g))
          (implEdgeIds (init_states (clear_propagated_edges g)))) := by
  have R1 := ready_of_wf g wf
  exact congrArg finalize_architecture_states
    (processList_eq_built _ R1 _ (implEdgeIds_nodup _ R1.keysNodup)
      (implEdgeIds_are_impl _ R1.keysNodup))

theorem run_run_eq_built (g : ReflexionGraph) (wf : WFInput g) :
    run_from_scratch (run_from_scratch g) =
      finalize_architecture_states
        (builtGraph
          (init_states (clear_propagated_edges (finalize_architecture_states
            (builtGraph (init_states (clear_propagated_edges g))
              (implEdgeIds (init_states (clear_propagated_edges g)))))))
          (implEdgeIds (init_states (clear_propagated_edges g)))) := by
  have R1 := ready_of_wf g wf
  rw [run_eq_built g wf]
  have R2 := reclear_ready (init_states (clear_propagated_edges g)) R1
    (implEdgeIds (init_states (clear_propagated_edges g)))
  have hE := reclear_edges (init_states (clear_propagated_edges g)) R1
    (implEdgeIds (init_states (clear_propagated_edges g)))
  have hW2 : implEdgeIds (init_states (clear_propagated_edges (finalize_architecture_states
      (builtGraph (init_states (clear_propagated_edges g))
        (implEdgeIds (init_states (clear_propagated_edges g))))))) =
      implEdgeIds (init_states (clear_propagated_edges g)) :=
    implEdgeIds_congr _ _ hE
  have hkeys : ∀ i ∈ implEdgeIds (init_states (clear_propagated_edges g)),
      isImplKey (init_states (clear_propagated_edges (finalize_architecture_states
        (builtGraph (init_states (clear_propagated_edges g))
          (implEdgeIds (init_states (clear_propagated_edges g))))))) i := by
    intro i hi
    obtain ⟨e, he, hs⟩ := implEdgeIds_are_impl _ R1.keysNodup i hi
    refine ⟨e, ?_, hs⟩
    rw [hE]
    exact he
  have hP := processList_eq_built _ R2 _ (implEdgeIds_nodup _ R1.keysNodup) hkeys
  show finalize_architecture_states
    (processList
      (init_states (clear_propagated_edges (finalize_architecture_states
        (builtGraph (init_states (clear_propagated_edges g))
          (implEdgeIds (init_states (clear_propagated_edges g)))))))
      (implEdgeIds (init_states (clear_propagated_edges (finalize_architecture_states
        (builtGraph (init_states (clear_propagated_edges g))
          (implEdgeIds (init_states (clear_propagated_edges g))))))))) = _
  rw [hW2, hP]

/-- C3: the spec demands byte-identical edge-state and counter assignments
after a second `run_from_scratch` with no mutation in between. Keyed by
edge id this fails (see the counterexample: propagated edges are destroyed
and re-created under fresh, never-reused ids, so the second run's
propagated edges carry different ids). The valid core of the claim, proved
here: the second run reproduces the first run's states and counters
exactly on every architecture and implementation edge (per id), and on
every propagated edge when keyed by its architecture-space triple. -/
theorem claim_C3 (g : ReflexionGraph) (wf : WFInput g) :
    persistAssign (run_from_scratch (run_from_scratch g)) =
      persistAssign (run_from_scratch g) ∧
    ∀ t : Triple, propAssign (run_from_scratch (run_from_scratch g)) t =
      propAssign (run_from_scratch g) t := by
  have R1 := ready_of_wf g wf
  have R2 := reclear_ready (init_states (clear_propagated_edges g)) R1
    (implEdgeIds (init_states (clear_propagated_edges g)))
  have hE := reclear_edges (init_states (clear_propagated_edges g)) R1
    (implEdgeIds (init_states (clear_propagated_edges g)))
  have hA := reclear_archOut (init_states (clear_propagated_edges g)) R1
    (implEdgeIds (init_states (clear_propagated_edges g)))
  have hM : (init_states (clear_propagated_edges (finalize_architecture_states
      (builtGraph (init_states (clear_propagated_edges g))
        (implEdgeIds (init_states (clear_propagated_edges g))))))).maps_to =
      (init_states (clear_propagated_edges g)).maps_to := rfl
  rw [run_run_eq_built g wf, run_eq_built g wf]
  constructor
  · rw [persistAssign_run _ R1 _, persistAssign_run _ R2 _]
    rw [hE]
    have hPE : (init_states (clear_propagated_edges g)).edges.map
        (persistEdge (init_states (clear_propagated_edges (finalize_architecture_states
          (builtGraph (init_states (clear_propagated_edges g))
            (implEdgeIds (init_states (clear_propagated_edges g)))))))
          (implEdgeIds (init_states (clear_propagated_edges g)))) =
        (init_states (clear_propagated_edges g)).edges.map
        (persistEdge (init_states (clear_propagated_edges g))
          (implEdgeIds (init_states (clear_propagated_edges g)))) :=
      List.map_congr_left (fun p _ => persistEdge_congr _ _ hE hM hA _ p)
    rw [hPE]
  · intro t
    rw [propAssign_run _ R1 _ t, propAssign_run _ R2 _ t]
    rw [mappedTriples_congr _ _ hE hM]
    refine List.map_congr_left ?_
    intro s hs
    rw [stOf_congr _ _ hE hA s, cntT_congr _ _ hE hM _ s]

/-- C3 as literally stated is false: on `idShiftGraph` the edge-id-keyed
state/counter assignment of the second run differs from the first run's
(the propagated edge moves from id 1 to id 2). -/
theorem claim_C3_counterexample :
    edgeAssign (run_from_scratch (run_from_scratch idShiftGraph)) ≠
      edgeAssign (run_from_scratch idShiftGraph) := by decide

theorem claim_C3_witness :
    persistAssign (run_from_scratch (run_from_scratch idShiftGraph)) =
      persistAssign (run_from_scratch idShiftGraph) ∧
    ∀ t : Triple, propAssign (run_from_scratch (run_from_scratch idShiftGraph)) t =
      propAssign (run_from_scratch idShiftGraph) t :=
  claim_C3 idShiftGraph ⟨by decide, by decide, by decide, by decide⟩

theorem filter_eq_of_nodup (L : List Triple) (hnd : L.Nodup) (t : Triple) :
    L.filter (fun s => decide (s = t)) = if t ∈ L then [t] else [] := by
  induction L with
  | nil => simp
  | cons hd tl ih =>
    rw [List.nodup_cons] at hnd
    rw [List.filter_cons]
    by_cases hh : hd = t
    · subst hh
      rw [if_pos (by simp)]
      rw [if_pos (List.mem_cons_self hd tl)]
      have h0 : tl.filter (fun s => decide (s = hd)) = [] := by
        rw [List.filter_eq_nil_iff]
        intro s hs
        simp only [decide_eq_true_eq]
        intro heq
        subst heq
        exact hnd.1 hs
      rw [ih hnd.2] at h0
      rw [ih hnd.2]
      by_cases hm : hd ∈ tl
      · exact absurd hm hnd.1
      · rw [if_neg hm]
    · rw [if_neg (by simp [hh])]
      rw [ih hnd.2]
      by_cases hm : t ∈ tl
      · rw [if_pos hm, if_pos (List.mem_cons_of_mem hd hm)]
      · rw [if_neg hm, if_neg (by
          intro hcon
          rcases List.mem_cons.mp hcon with h | h
          · exact hh h.symm
          · exact hm h)]

theorem firstOccs_filter_eq (L : List Triple) (t : Triple) :
    (firstOccs L).filter (fun s => decide (s = t)) = if t ∈ L then [t] else [] := by
  rw [filter_eq_of_nodup (firstOccs L) (nodup_firstOccs L) t]
  by_cases hm : t ∈ L
  · rw [if_pos (mem_firstOccs.mpr hm), if_pos hm]
  · rw [if_neg (fun h => hm (mem_firstOccs.mp h)), if_neg hm]

/-- C4: the spec claims any permutation of the snapshot yields identical
final states and counters for all edges. Keyed by edge id this fails (see
the counterexample: the fresh ids handed to the propagated edges depend on
the order in which their triples first appear). The valid core, proved
here: any permutation of the snapshot reproduces `run_from_scratch`'s
states and counters exactly on every architecture and implementation edge
(per id), and on every propagated edge keyed by its architecture-space
triple. -/
theorem claim_C4 (g : ReflexionGraph) (wf : WFInput g) (l : List Nat)
    (hperm : l.Perm (implEdgeIds (init_states (clear_propagated_edges g)))) :
    persistAssign (runWithOrder g l) = persistAssign (run_from_scratch g) ∧
    ∀ t : Triple, propAssign (runWithOrder g l) t = propAssign (run_from_scratch g) t := by
  have R1 := ready_of_wf g wf
  have hnd : l.Nodup := (hperm.nodup_iff).mpr (implEdgeIds_nodup _ R1.keysNodup)
  have hkeys : ∀ i ∈ l, isImplKey (init_states (clear_propagated_edges g)) i :=
    fun i hi => implEdgeIds_are_impl _ R1.keysNodup i (hperm.mem_iff.mp hi)
  have hrun : runWithOrder g l =
      finalize_architecture_states
        (builtGraph (init_states (clear_propagated_edges g)) l) :=
    congrArg finalize_architecture_states
      (processList_eq_built _ R1 l hnd hkeys)
  rw [hrun, run_eq_built g wf]
  constructor
  · rw [persistAssign_run _ R1 l, persistAssign_run _ R1 _]
    have hPE : (init_states (clear_propagated_edges g)).edges.map
        (persistEdge (init_states (clear_propagated_edges g)) l) =
        (init_states (clear_propagated_edges g)).edges.map
        (persistEdge (init_states (clear_propagated_edges g))
          (implEdgeIds (init_states (clear_propagated_edges g)))) :=
      List.map_congr_left
        (fun p _ => persistEdge_perm (init_states (clear_propagated_edges g)) hperm p)
    rw [hPE]
  · intro t
    rw [propAssign_run _ R1 l t, propAssign_run _ R1 _ t]
    rw [firstOccs_filter_eq, firstOccs_filter_eq]
    by_cases hm : t ∈ mappedTriples (init_states (clear_propagated_edges g)) l
    · have hm2 : t ∈ mappedTriples (init_states (clear_propagated_edges g))
          (implEdgeIds (init_states (clear_propagated_edges g))) :=
        (mappedTriples_perm _ hperm).mem_iff.mp hm
      rw [if_pos hm, if_pos hm2]
      simp only [List.map_cons, List.map_nil]
      rw [cntT_perm (init_states (clear_propagated_edges g)) hperm t]
    · have hm2 : ¬ t ∈ mappedTriples (init_states (clear_propagated_edges g))
          (implEdgeIds (init_states (clear_propagated_edges g))) :=
        fun h => hm ((mappedTriples_perm _ hperm).mem_iff.mpr h)
      rw [if_neg hm, if_neg hm2]
      rfl

/-- C4 as literally stated is false: both `[1, 2]` and `[2, 1]` are
permutations of the snapshot of `orderGraph`, yet the edge-id-keyed
state/counter assignments of the two processing orders differ (the two
propagated edges receive the fresh ids 3 and 4 in swapped order). -/
theorem claim_C4_counterexample :
    [1, 2].Perm (implEdgeIds (init_states (clear_propagated_edges orderGraph))) ∧
    [2, 1].Perm (implEdgeIds (init_states (clear_propagated_edges orderGraph))) ∧
    edgeAssign (runWithOrder orderGraph [1, 2]) ≠
      edgeAssign (runWithOrder orderGraph [2, 1]) := by decide

theorem claim_C4_witness :
    persistAssign (runWithOrder orderGraph [2, 1]) =
      persistAssign (run_from_scratch orderGraph) ∧
    ∀ t : Triple, propAssign (runWithOrder orderGraph [2, 1]) t =
      propAssign (run_from_scratch orderGraph) t :=
  claim_C4 orderGraph ⟨by decide, by decide, by decide, by decide⟩ [2, 1] (by decide)

theorem cntT_eq_filter_length (g : ReflexionGraph) (l : List Nat) (t : Triple) :
    cntT g l t = (l.filter (fun j => decide (implTriple g j = some t))).length := by
  unfold cntT mappedTriples
  induction l with
  | nil => rfl
  | cons hd tl ih =>
    rw [List.filterMap_cons, List.filter_cons]
    cases h : implTriple g hd with
    | none => simp [h, ih]
    | some t2 =>
      by_cases heq : t2 = t
      · subst heq
        simp [h, List.countP_cons, ih]
      · simp [h, heq, List.countP_cons, ih]

theorem liftCnt_eq_filter_length (g : ReflexionGraph) (l : List Nat) (a : Nat) :
    liftCnt g l a = (l.filter
      (fun j => match implTriple g j with
        | some t => decide (archTarget g t = some a)
        | none => false)).length := by
  unfold liftCnt mappedTriples
  induction l with
  | nil => rfl
  | cons hd tl ih =>
    rw [List.filterMap_cons, List.filter_cons]
    cases h : implTriple g hd with
    | none => simp [h, ih]
    | some t2 =>
      by_cases hhit : archTarget g t2 = some a
      · simp [h, List.countP_cons, ih, hhit]
      · simp [h, List.countP_cons, ih, hhit]

theorem persistEdge_arch_counter (g : ReflexionGraph) (l : List Nat) (p : Nat × Edge)
    (h : p.2.subgraph = .Architecture) :
    (persistEdge g l p).2.counter = p.2.counter + liftCnt g l p.1 := by
  unfold persistEdge
  rw [if_neg (by simp [h]), if_pos h]

/-- C5: after `run_from_scratch`, every propagated edge's counter equals
the size of its provenance entry — the duplicate-free list of exactly
those snapshot implementation edges whose mapped triple is the edge's
triple — and every architecture edge's counter equals the number of
snapshot implementation edges whose mapped triple lifts onto it, with no
double counting. -/
theorem claim_C5 (g : ReflexionGraph) (wf : WFInput g) :
    (∀ p ∈ (run_from_scratch g).edges, p.2.subgraph = .Propagated →
      ∃ s, alGet (run_from_scratch g).propagation_table p.1 = some s ∧ s.Nodup ∧
        p.2.counter = s.length ∧
        s = (implEdgeIds (init_states (clear_propagated_edges g))).filter
          (fun j => decide (implTriple (init_states (clear_propagated_edges g)) j =
            some (p.2.src, p.2.tgt, p.2.kind)))) ∧
    (∀ p ∈ (run_from_scratch g).edges, p.2.subgraph = .Architecture →
      p.2.counter = ((implEdgeIds (init_states (clear_propagated_edges g))).filter
        (fun j => match implTriple (init_states (clear_propagated_edges g)) j with
          | some t => decide (archTarget (init_states (clear_propagated_edges g)) t =
              some p.1)
          | none => false)).length) := by
  have R1 := ready_of_wf g wf
  rw [run_eq_built g wf]
  constructor
  · intro p hp hsub
    rw [finalize_edges_eq] at hp
    rw [show (builtGraph (init_states (clear_propagated_edges g))
      (implEdgeIds (init_states (clear_propagated_edges g)))).edges =
      (init_states (clear_propagated_edges g)).edges.map
        (persistEdge (init_states (clear_propagated_edges g))
          (implEdgeIds (init_states (clear_propagated_edges g)))) ++
      (propsOf (init_states (clear_propagated_edges g))
        (implEdgeIds (init_states (clear_propagated_edges g)))).map
        (fun q => (q.1, mkPropEdge (init_states (clear_propagated_edges g))
          (implEdgeIds (init_states (clear_propagated_edges g))) q.1 q.2)) from rfl,
      List.map_append] at hp
    rcases List.mem_append.mp hp with hp1 | hp2
    · obtain ⟨q1, hq1, rfl⟩ := List.mem_map.mp hp1
      obtain ⟨p0, hp0, rfl⟩ := List.mem_map.mp hq1
      rw [finalizeEdge_subgraph, persistEdge_subgraph] at hsub
      exact absurd hsub (R1.noProp p0 hp0)
    · obtain ⟨q1, hq1, rfl⟩ := List.mem_map.mp hp2
      obtain ⟨q, hq, rfl⟩ := List.mem_map.mp hq1
      rw [finalizeEdge_prop _ rfl]
      refine ⟨(implEdgeIds (init_states (clear_propagated_edges g))).filter
        (fun j => decide (implTriple (init_states (clear_propagated_edges g)) j =
          some q.2)), ?_, ?_, ?_, ?_⟩
      · show alGet ((propsOf (init_states (clear_propagated_edges g))
          (implEdgeIds (init_states (clear_propagated_edges g)))).map
          (fun q2 => (q2.1, (implEdgeIds (init_states (clear_propagated_edges g))).filter
            (fun j => decide (implTriple (init_states (clear_propagated_edges g)) j =
              some q2.2))))) q.1 = _
        apply alGet_of_mem_nodup
        · exact List.mem_map.mpr ⟨q, hq, rfl⟩
        · have hcomp : (((propsOf (init_states (clear_propagated_edges g))
              (implEdgeIds (init_states (clear_propagated_edges g)))).map
              (fun q2 => (q2.1, (implEdgeIds (init_states (clear_propagated_edges g))).filter
                (fun j => decide (implTriple (init_states (clear_propagated_edges g)) j =
                  some q2.2))))).map Prod.fst) =
              (propsOf (init_states (clear_propagated_edges g))
                (implEdgeIds (init_states (clear_propagated_edges g)))).map Prod.fst := by
            rw [List.map_map]
            rfl
          rw [hcomp]
          exact propsFrom_keys_nodup _ _
      · exact List.Nodup.filter _ (implEdgeIds_nodup _ R1.keysNodup)
      · show cntT (init_states (clear_propagated_edges g))
          (implEdgeIds (init_states (clear_propagated_edges g))) q.2 = _
        exact cntT_eq_filter_length _ _ _
      · rfl
  · intro p hp hsub
    rw [finalize_edges_eq] at hp
    rw [show (builtGraph (init_states (clear_propagated_edges g))
      (implEdgeIds (init_states (clear_propagated_edges g)))).edges =
      (init_states (clear_propagated_edges g)).edges.map
        (persistEdge (init_states (clear_propagated_edges g))
          (implEdgeIds (init_states (clear_propagated_edges g)))) ++
      (propsOf (init_states (clear_propagated_edges g))
        (implEdgeIds (init_states (clear_propagated_edges g)))).map
        (fun q => (q.1, mkPropEdge (init_states (clear_propagated_edges g))
          (implEdgeIds (init_states (clear_propagated_edges g))) q.1 q.2)) from rfl,
      List.map_append] at hp
    rcases List.mem_append.mp hp with hp1 | hp2
    · obtain ⟨q1, hq1, rfl⟩ := List.mem_map.mp hp1
      obtain ⟨p0, hp0, rfl⟩ := List.mem_map.mp hq1
      have hsub0 : p0.2.subgraph = .Architecture := by
        rw [finalizeEdge_subgraph, persistEdge_subgraph] at hsub
        exact hsub
      have hc0 : p0.2.counter = 0 := (R1.archInit p0 hp0 hsub0).2
      rw [finalizeEdge_counter, persistEdge_arch_counter _ _ _ hsub0, hc0]
      rw [finalizeEdge_key, persistEdge_key]
      rw [Nat.zero_add]
      exact liftCnt_eq_filter_length _ _ _
    · obtain ⟨q1, hq1, rfl⟩ := List.mem_map.mp hp2
      obtain ⟨q, hq, rfl⟩ := List.mem_map.mp hq1
      rw [finalizeEdge_prop _ rfl] at hsub
      exact absurd hsub (by simp [mkPropEdge])

theorem claim_C5_witness :
    (∀ p ∈ (run_from_scratch (convergenceGraph 0)).edges, p.2.subgraph = .Propagated →
      ∃ s, alGet (run_from_scratch (convergenceGraph 0)).propagation_table p.1 = some s ∧
        s.Nodup ∧ p.2.counter = s.length ∧
        s = (implEdgeIds (init_states (clear_propagated_edges (convergenceGraph 0)))).filter
          (fun j => decide (implTriple
            (init_states (clear_propagated_edges (convergenceGraph 0))) j =
            some (p.2.src, p.2.tgt, p.2.kind)))) ∧
    (∀ p ∈ (run_from_scratch (convergenceGraph 0)).edges, p.2.subgraph = .Architecture →
      p.2.counter = ((implEdgeIds
        (init_states (clear_propagated_edges (convergenceGraph 0)))).filter
        (fun j => match implTriple
            (init_states (clear_propagated_edges (convergenceGraph 0))) j with
          | some t => decide (archTarget
              (init_states (clear_propagated_edges (convergenceGraph 0))) t = some p.1)
          | none => false)).length) :=
  claim_C5 (convergenceGraph 0) ⟨by decide, by decide, by decide, by decide⟩
